import Mathlib

set_option maxHeartbeats 1000000

/-!
Verification of the GOD (Grounded Object Data) codec.

The development shallowly embeds the Go sources of package `god`:
the byte-cursor scanner (`parser` with `peek`, `next`, `skipSpaces`,
`readBareToken`, `readUntilAny`, `peekAhead`), the scalar literal parsers
(`parseString`, `parseTripleString`, `parseStringValue`, `parseNumber`,
`parseBool`), the balanced-structure skipper (`skipValue`), the type-directed
encoder (`Marshal`, `MarshalBeautify`, `marshalWithCompact`, `encodeValue`,
`encodeStruct`, `encodeMap`, `encodeSlice`, `encodeStructSliceAsTable`,
`encodeTableCell`, `encodeString`, `isZeroValue`, `indent`) and the
grammar-directed decoder (`Unmarshal`, `decodeValue`, `decodeStruct`,
`decodeSlice`, `decodeTable`, `setFieldFromString`).

Go byte strings are modelled as `List Char`; the source loops, which always
advance the cursor, are modelled as fuel-consuming structural recursions whose
wrappers supply fuel `src.length + 1 - pos`, which the progress property of
every loop makes sufficient.  Go library routines used by the source
(`strconv.Quote`, `strconv.ParseFloat`, `strconv.ParseInt`,
`strconv.ParseBool`, `strings.TrimSpace`, `fmt` `%d`) are modelled on the
fragment of their domain the codec exercises; each model carries a doc
comment stating its scope.  Numbers flowing through `strconv.ParseFloat`
are modelled as exact rationals; the theorems that depend on numeric
round-trips restrict integers to the range where `float64` is exact, so the
rational stands in for the IEEE-754 value without loss.
-/

namespace GOD

/-- Byte 0: the sentinel returned by `peek` and `next` at end of input. -/
def eofByte : Char := Char.ofNat 0

/-- The double-quote character (written via its code point to keep character
literals out of the way of string syntax). -/
def dq : Char := Char.ofNat 34

/-- The backslash character. -/
def bsl : Char := Char.ofNat 92

/-- The opening-brace character. -/
def lbrace : Char := Char.ofNat 123

/-- The closing-brace character. -/
def rbrace : Char := Char.ofNat 125

/-- Scanner state: `type parser struct { src []byte; pos int }`. -/
structure Parser where
  src : List Char
  pos : Nat
deriving DecidableEq, Repr

/-- `func (p *parser) eof() bool { return p.pos >= len(p.src) }` -/
def Parser.eof (p : Parser) : Bool := p.src.length ≤ p.pos

/-- The unread suffix of the source, a view used to state scanner lemmas. -/
def Parser.rest (p : Parser) : List Char := p.src.drop p.pos

/-- `func (p *parser) peek() byte`: byte at `pos`, or 0 at end of input. -/
def Parser.peek (p : Parser) : Char :=
  if p.eof then eofByte else p.src.getD p.pos eofByte

/-- `func (p *parser) next() byte`: byte at `pos` advancing the cursor,
or 0 at end of input. -/
def Parser.next (p : Parser) : Char × Parser :=
  if p.eof then (eofByte, p) else (p.src.getD p.pos eofByte, ⟨p.src, p.pos + 1⟩)

/-- The whitespace set of `skipSpaces`: space, newline, carriage return, tab. -/
def isSpaceCh (c : Char) : Bool :=
  c == ' ' || c == '\n' || c == '\r' || c == '\t'

/-- Loop body of `skipSpaces`, fuelled. -/
def skipSpacesAux : Nat → Parser → Parser
  | 0, p => p
  | f + 1, p =>
    if !p.eof && isSpaceCh p.peek then skipSpacesAux f ⟨p.src, p.pos + 1⟩ else p

/-- `func (p *parser) skipSpaces()`: advance past whitespace. -/
def Parser.skipSpaces (p : Parser) : Parser :=
  skipSpacesAux (p.src.length + 1 - p.pos) p

/-- The delimiter set at which `readBareToken` stops: whitespace and
`= ; { } [ ] ( ) , :`. -/
def isBareDelim (c : Char) : Bool :=
  isSpaceCh c || c == '=' || c == ';' || c == lbrace || c == rbrace ||
    c == '[' || c == ']' || c == '(' || c == ')' || c == ',' || c == ':'

/-- Loop body of `readBareToken`, fuelled; accumulates bytes in reverse. -/
def readBareTokenAux : Nat → Parser → List Char → List Char × Parser
  | 0, p, acc => (acc.reverse, p)
  | f + 1, p, acc =>
    if p.eof then (acc.reverse, p)
    else if isBareDelim p.peek then (acc.reverse, p)
    else readBareTokenAux f ⟨p.src, p.pos + 1⟩ (p.peek :: acc)

/-- Models `strings.TrimSpace` on the codec's ASCII whitespace set. -/
def trimChars (s : List Char) : List Char :=
  ((s.dropWhile isSpaceCh).reverse.dropWhile isSpaceCh).reverse

/-- `func (p *parser) readBareToken() string`: skip whitespace, read until a
delimiter, trim surrounding whitespace. -/
def Parser.readBareToken (p : Parser) : List Char × Parser :=
  let p1 := p.skipSpaces
  let r := readBareTokenAux (p1.src.length + 1 - p1.pos) p1 []
  (trimChars r.1, r.2)

/-- Loop body of `readUntilAny`, fuelled. -/
def readUntilAnyAux (seps : List Char) : Nat → Parser → List Char → List Char × Parser
  | 0, p, acc => (acc.reverse, p)
  | f + 1, p, acc =>
    if p.eof then (acc.reverse, p)
    else if seps.contains p.peek then (acc.reverse, p)
    else readUntilAnyAux seps f ⟨p.src, p.pos + 1⟩ (p.peek :: acc)

/-- `func (p *parser) readUntilAny(seps string) string`: consume until a byte
of `seps` (not consumed) or end of input. -/
def Parser.readUntilAny (p : Parser) (seps : List Char) : List Char × Parser :=
  readUntilAnyAux seps (p.src.length + 1 - p.pos) p []

/-- `func (p *parser) peekAhead(n int) string`: up to `n` bytes from `pos`
without advancing, truncated at end of input. -/
def Parser.peekAhead (p : Parser) (n : Nat) : List Char :=
  if p.src.length < p.pos + n then p.src.drop p.pos
  else (p.src.drop p.pos).take n

/-- Decode-side error values.  The source reports errors as Go `error`
strings; `fuel` is the out-of-fuel marker of the recursion model and is
never returned on inputs the fuel bounds cover. -/
inductive GoErr where
  | fuel
  | e (msg : String)
deriving DecidableEq, Repr

/-- Loop body of `parseString`, fuelled; accumulates decoded bytes in
reverse.  The escape switch is the source's: `n r t \ "` map to their
characters, any other escaped byte is kept bare (the backslash is dropped). -/
def parseStringAux : Nat → Parser → List Char → Except GoErr (List Char) × Parser
  | 0, p, _ => (.error .fuel, p)
  | f + 1, p, acc =>
    if p.eof then (.error (.e "unterminated string"), p)
    else
      let (c, p1) := p.next
      if c == bsl then
        if p1.eof then (.error (.e "unterminated escape in string"), p1)
        else
          let (nc, p2) := p1.next
          let ec :=
            if nc == 'n' then '\n'
            else if nc == 'r' then '\r'
            else if nc == 't' then '\t'
            else if nc == bsl then bsl
            else if nc == dq then dq
            else nc
          parseStringAux f p2 (ec :: acc)
      else if c == dq then (.ok acc.reverse, p1)
      else parseStringAux f p1 (c :: acc)

/-- `func parseString(p *parser) (string, error)`: a plain double-quoted
string with escape processing. -/
def parseString (p : Parser) : Except GoErr (List Char) × Parser :=
  let (c, p1) := p.next
  if c != dq then (.error (.e "expected opening quote of string"), p1)
  else parseStringAux (p1.src.length + 1 - p1.pos) p1 []

/-- The triple-quote lookahead `"""`. -/
def tripleQ : List Char := [dq, dq, dq]

/-- Loop body of `parseTripleString`, fuelled: scan for the closing `"""`,
returning the raw segment `src[start:pos]`. -/
def parseTripleAux (start : Nat) : Nat → Parser → Except GoErr (List Char) × Parser
  | 0, p => (.error .fuel, p)
  | f + 1, p =>
    if p.eof then (.error (.e "unterminated triple-quoted string"), p)
    else if p.peekAhead 3 == tripleQ then
      (.ok ((p.src.drop start).take (p.pos - start)), ⟨p.src, p.pos + 3⟩)
    else parseTripleAux start f ⟨p.src, p.pos + 1⟩

/-- `func parseTripleString(p *parser) (string, error)`: verbatim text
between `"""` fences, no escape processing. -/
def parseTripleString (p : Parser) : Except GoErr (List Char) × Parser :=
  if p.peekAhead 3 != tripleQ then (.error (.e "expected triple quote"), p)
  else
    let p1 : Parser := ⟨p.src, p.pos + 3⟩
    parseTripleAux p1.pos (p1.src.length + 1 - p1.pos) p1

/-- `func parseStringValue(p *parser) (string, error)`: triple-quoted or
plain string when the next byte is a quote, else a bare token. -/
def parseStringValue (p : Parser) : Except GoErr (List Char) × Parser :=
  if p.peek == dq then
    if p.peekAhead 3 == tripleQ then parseTripleString p else parseString p
  else
    let (t, p1) := p.readBareToken
    (.ok t, p1)

/-- Decimal digit test (byte range 48–57). -/
def isDigitCh (c : Char) : Bool := 48 ≤ c.toNat && c.toNat ≤ 57

/-- Value of a decimal digit string, most significant first. -/
def digitsVal (ds : List Char) : Nat :=
  ds.foldl (fun a c => a * 10 + (c.toNat - 48)) 0

/-- Models `strconv.ParseFloat(s, 64)` on the plain decimal literals the
codec emits and consumes: optional sign, digits, optional `.` and fraction
digits, at least one digit in total.  The result is the exact rational value;
the IEEE-754 rounding of the real library is not modelled, and the theorems
using this function restrict themselves to inputs whose truncation is
unaffected by that rounding.  Exponent, hexadecimal, `Inf` and `NaN` forms
are never produced by the encoder and are not modelled. -/
def goParseFloat (s : List Char) : Option ℚ :=
  let signed : Bool × List Char :=
    match s with
    | [] => (false, [])
    | c :: r =>
      if c = '-' then (true, r)
      else if c = '+' then (false, r)
      else (false, c :: r)
  let ip := signed.2.takeWhile isDigitCh
  let r1 := signed.2.dropWhile isDigitCh
  let core : Option ℚ :=
    match r1 with
    | [] => if ip.isEmpty then none else some (mkRat (digitsVal ip) 1)
    | c :: fp =>
      if c = '.' then
        if fp.all isDigitCh && !(ip.isEmpty && fp.isEmpty) then
          some (mkRat (digitsVal ip * 10 ^ fp.length + digitsVal fp) (10 ^ fp.length))
        else none
      else none
  core.map fun q => if signed.1 then -q else q

/-- Go's conversion `int64(f)` of a floating value to an integer: truncation
toward zero. -/
def goTrunc (q : ℚ) : Int := Int.tdiv q.num (q.den : Int)

/-- Models `strconv.ParseInt(s, 10, 64)` on in-range inputs: optional sign
and decimal digits.  The 64-bit range check is not modelled; the inputs of the
theorems below are far inside the range. -/
def goParseInt (s : List Char) : Option Int :=
  match s with
  | [] => none
  | c :: r =>
    if c = '-' then
      if !r.isEmpty && r.all isDigitCh then some (-(digitsVal r : Int)) else none
    else if c = '+' then
      if !r.isEmpty && r.all isDigitCh then some ((digitsVal r : Int)) else none
    else
      if (c :: r).all isDigitCh then some ((digitsVal (c :: r) : Int)) else none

/-- Models `strconv.ParseBool`: the exact acceptance set of the Go library. -/
def goParseBool (s : List Char) : Option Bool :=
  if s = "1".data ∨ s = "t".data ∨ s = "T".data ∨ s = "true".data ∨
      s = "TRUE".data ∨ s = "True".data then some true
  else if s = "0".data ∨ s = "f".data ∨ s = "F".data ∨ s = "false".data ∨
      s = "FALSE".data ∨ s = "False".data then some false
  else none

/-- `func parseNumber(p *parser) (float64, error)`: a bare token fed to
`strconv.ParseFloat`. -/
def parseNumber (p : Parser) : Except GoErr ℚ × Parser :=
  let (tok, p1) := p.readBareToken
  if tok.isEmpty then (.error (.e "expected number"), p1)
  else
    match goParseFloat tok with
    | some q => (.ok q, p1)
    | none => (.error (.e "invalid number syntax"), p1)

/-- `func parseBool(p *parser) (bool, error)`: exactly the bare tokens
`true` and `false`. -/
def parseBool (p : Parser) : Except GoErr Bool × Parser :=
  let (tok, p1) := p.readBareToken
  if tok = "true".data then (.ok true, p1)
  else if tok = "false".data then (.ok false, p1)
  else (.error (.e "invalid boolean"), p1)

/-- Loop body shared by the three balanced-skip cases of `skipValue`
(`{}`, `[]`, `()`), fuelled.  Depth counting is over raw bytes, exactly as in
the source: quotes do not shield brackets. -/
def skipBalancedAux (op cl : Char) : Nat → Parser → Int → Parser
  | 0, p, _ => p
  | f + 1, p, depth =>
    if p.eof then p
    else if p.peek == op then skipBalancedAux op cl f ⟨p.src, p.pos + 1⟩ (depth + 1)
    else if p.peek == cl then
      let p2 : Parser := ⟨p.src, p.pos + 1⟩
      if depth - 1 = 0 then p2 else skipBalancedAux op cl f p2 (depth - 1)
    else skipBalancedAux op cl f ⟨p.src, p.pos + 1⟩ depth

/-- `func skipValue(p *parser) error`: consume one value without
interpreting it.  Every path of the source returns `nil`, so the model
returns only the advanced cursor; the error value of a failed
`parseStringValue` is discarded by the source as well. -/
def skipValue (p : Parser) : Parser :=
  let p0 := p.skipSpaces
  let c := p0.peek
  if c == lbrace then skipBalancedAux lbrace rbrace (p0.src.length + 1 - p0.pos) p0 0
  else if c == '[' then skipBalancedAux '[' ']' (p0.src.length + 1 - p0.pos) p0 0
  else if c == '(' then skipBalancedAux '(' ')' (p0.src.length + 1 - p0.pos) p0 0
  else if c == dq then (parseStringValue p0).2
  else (p0.readBareToken).2

/-! ## Data model

Destination types and in-memory values.  The model covers the kinds the
codec's claims exercise: strings, signed integers, booleans, records
(structs with resolved key names) and slices.  Pointers, interfaces,
unsigned and floating fields, which the source handles through reflection,
are outside the model; no claim below quantifies over them.  A record value
carries its resolved key names exactly as Go reflection exposes them
through the type of the value. -/

/-- Destination (and source) type shapes, with resolved field key names:
the external `god:"..."` tag if present, else the lowercased identifier
(spec §6 name resolution, performed before the codec runs). -/
inductive GoTy where
  | str
  | int
  | bool
  | struct (fields : List (String × GoTy))
  | slice (elem : GoTy)

/-- In-memory values.  A slice carries `shdr`, the resolved key names of its
element type when that type is a record (`none` otherwise): this is the
reflection information `encodeSlice` reads from the element type. -/
inductive GoVal where
  | str (s : String)
  | int (n : Int)
  | bool (b : Bool)
  | struct (fields : List (String × GoVal))
  | slice (shdr : Option (List String)) (elems : List GoVal)
  | map (entries : List (String × GoVal))

/-- `func isZeroValue(v reflect.Value) bool`: length 0 for strings, slices
and maps, `!b` for booleans, 0 for integers, `false` for every other kind
(in particular records are never "zero"). -/
def isZeroValue : GoVal → Bool
  | .str s => s.length == 0
  | .int n => n == 0
  | .bool b => !b
  | .slice _ es => es.length == 0
  | .map es => es.length == 0
  | .struct _ => false

/-- The ordered resolved key names of a record type's fields. -/
def resolvedKeys (flds : List (String × GoTy)) : List String :=
  flds.map Prod.fst

/-- The table-header metadata `encodeSlice` reads from a slice's element
type: the resolved keys when the element type is a record. -/
def sliceHdr : GoTy → Option (List String)
  | .struct flds => some (resolvedKeys flds)
  | _ => none

mutual

/-- `reflect.Zero(t)`: the zero value of a type (grounding policy). -/
def zeroVal : GoTy → GoVal
  | .str => .str ""
  | .int => .int 0
  | .bool => .bool false
  | .struct flds => .struct (zeroFields flds)
  | .slice el => .slice (sliceHdr el) []

/-- Zero values of a record's fields, keyed. -/
def zeroFields : List (String × GoTy) → List (String × GoVal)
  | [] => []
  | (k, t) :: r => (k, zeroVal t) :: zeroFields r

end

/-- A lowercase hexadecimal digit. -/
def hexDigit (n : Nat) : Char :=
  if n < 10 then Char.ofNat (48 + n) else Char.ofNat (87 + n)

/-- One character of `strconv.Quote` output.  Models the Go library on the
ASCII plane: the five standard escapes, printable ASCII verbatim, `\xhh` for
ASCII control bytes.  Printable non-ASCII runes pass through verbatim as in
Go; the Go library additionally hex-escapes non-printable non-ASCII runes,
which this model passes through — every theorem relying on `goQuote`
restricts string contents below that divergence. -/
def goQuoteChar (c : Char) : List Char :=
  if c == dq then [bsl, dq]
  else if c == bsl then [bsl, bsl]
  else if c == '\n' then [bsl, 'n']
  else if c == '\r' then [bsl, 'r']
  else if c == '\t' then [bsl, 't']
  else if 32 ≤ c.toNat && c.toNat ≤ 126 then [c]
  else if c.toNat < 32 || c.toNat == 127 then
    [bsl, 'x', hexDigit (c.toNat / 16), hexDigit (c.toNat % 16)]
  else [c]

/-- Models `strconv.Quote`: a double-quoted, escaped literal. -/
def goQuote (s : List Char) : List Char :=
  [dq] ++ s.flatMap goQuoteChar ++ [dq]

/-- Fuelled digit emitter for `natDigits` (fuel `n + 1` always suffices since
the argument shrinks by a factor of ten each step). -/
def natDigitsAux : Nat → Nat → List Char → List Char
  | 0, _, acc => acc
  | f + 1, n, acc =>
    let acc1 := Char.ofNat (48 + n % 10) :: acc
    if n < 10 then acc1 else natDigitsAux f (n / 10) acc1

/-- Decimal digits of a natural number, most significant first. -/
def natDigits (n : Nat) : List Char := natDigitsAux (n + 1) n []

/-- Models `fmt.Sprintf("%d", n)` for a (signed) integer. -/
def formatInt (n : Int) : List Char :=
  if n < 0 then '-' :: natDigits (-n).toNat else natDigits n.toNat

/-- `func encodeString(b, s, compact)`: triple-quoted verbatim when the
string contains a newline, else `strconv.Quote`. -/
def encodeString (s : String) : List Char :=
  if s.data.contains '\n' then tripleQ ++ s.data ++ tripleQ
  else goQuote s.data

/-- `func indent(level int) string`: two spaces per level, empty at zero. -/
def indent (level : Nat) : List Char := List.replicate (2 * level) ' '

mutual

/-- Models `fmt.Sprintf("%v", x)` for model values (Go's default rendering:
braces with space-separated fields for structs, brackets with
space-separated elements for slices, `map[k:v ...]` for maps).  Only used by
the default branch of `encodeTableCell`; no theorem depends on its exact
text beyond it being mode-independent. -/
def fmtV : GoVal → List Char
  | .str s => s.data
  | .int n => formatInt n
  | .bool b => if b then "true".data else "false".data
  | .struct fvs => [lbrace] ++ fmtVFields fvs true ++ [rbrace]
  | .slice _ es => ['['] ++ fmtVElems es true ++ [']']
  | .map es => "map[".data ++ fmtVMap es true ++ [']']

/-- Space-separated field renderings for `fmtV`. -/
def fmtVFields : List (String × GoVal) → Bool → List Char
  | [], _ => []
  | (_, v) :: r, first =>
    (if first then [] else [' ']) ++ fmtV v ++ fmtVFields r false

/-- Space-separated element renderings for `fmtV`. -/
def fmtVElems : List GoVal → Bool → List Char
  | [], _ => []
  | v :: r, first =>
    (if first then [] else [' ']) ++ fmtV v ++ fmtVElems r false

/-- Space-separated `key:value` renderings for `fmtV`. -/
def fmtVMap : List (String × GoVal) → Bool → List Char
  | [], _ => []
  | (k, v) :: r, first =>
    (if first then [] else [' ']) ++ k.data ++ [':'] ++ fmtV v ++ fmtVMap r false

end

/-- `func encodeTableCell(b, v)`: scalar cells render as quoted strings
(`""` when empty), decimal digits, or bare booleans; any other kind renders
as the sentinel `\0` when zero and as a quoted `%v` rendering otherwise
(the source's default branch). -/
def encodeTableCell (v : GoVal) : List Char :=
  match v with
  | .str s => if s = "" then [dq, dq] else goQuote s.data
  | .int n => formatInt n
  | .bool b => if b then "true".data else "false".data
  | _ => if isZeroValue v then [bsl, '0'] else goQuote (fmtV v)

/-- Comma-separated table header text. -/
def headerText : List String → List Char
  | [] => []
  | [h] => h.data
  | h :: r => h.data ++ [','] ++ headerText r

/-- One table row's cells, comma-separated (from a record value's fields). -/
def rowCells : List (String × GoVal) → Bool → List Char
  | [], _ => []
  | (_, v) :: r, first =>
    (if first then [] else [',']) ++ encodeTableCell v ++ rowCells r false

/-- `func encodeStructSliceAsTable(b, v, compact)`: `(header:rows)`; each
row is the element record's cells ended by a mandatory `;`.  The `compact`
flag is accepted and ignored, exactly as in the source.  A non-record
element value cannot arise through Go's typed reflection and is reported as
an encode error by the model. -/
def encodeStructSliceAsTable (hdr : List String) (es : List GoVal) :
    Except GoErr (List Char) :=
  if es.isEmpty then .ok ['(', ')']
  else do
    let rows ← es.foldlM (fun acc e =>
      match e with
      | .struct fvs => pure (acc ++ rowCells fvs true ++ [';'])
      | _ => .error (.e "table row is not a record")) ([] : List Char)
    return ['('] ++ headerText hdr ++ [':'] ++ rows ++ [')']

mutual

/-- `func encodeValue(b, v, level, compact)`: dispatch on the value's kind.
The pointer, interface, unsigned and floating branches of the source are
outside the model's value universe. -/
def encodeValue (v : GoVal) (level : Nat) (compact : Bool) :
    Except GoErr (List Char) :=
  match v with
  | .struct fvs => encodeStruct fvs level compact
  | .map es => encodeMap es level compact
  | .slice shdr es => encodeSlice shdr es level compact
  | .str s => .ok (encodeString s)
  | .int n => .ok (formatInt n)
  | .bool b => .ok (if b then "true".data else "false".data)
termination_by (sizeOf v, 0)

/-- `func encodeStruct(b, v, level, compact)`: `{` then the key=value
entries then `}`; in indented mode a newline after `{` and an indent one
level less before `}`. -/
def encodeStruct (fvs : List (String × GoVal)) (level : Nat) (compact : Bool) :
    Except GoErr (List Char) :=
  match encodeFields fvs level compact true with
  | .error e => .error e
  | .ok body =>
    .ok ([lbrace] ++ (if compact then [] else ['\n']) ++ body ++
      (if compact then [] else indent (level - 1)) ++ [rbrace])
termination_by (sizeOf fvs, 1)

/-- The field loop of `encodeStruct`: a `;` separator before every entry
but the first in compact mode; in indented mode each entry is indented and
ended by `;\n`.  A zero-valued field emits its key and `=` with nothing
after. -/
def encodeFields (fvs : List (String × GoVal)) (level : Nat) (compact : Bool)
    (first : Bool) : Except GoErr (List Char) :=
  match fvs with
  | [] => .ok []
  | (k, v) :: r =>
    let head := (if !first && compact then [';'] else []) ++
      (if compact then [] else indent level) ++ k.data ++ ['=']
    if isZeroValue v then
      match encodeFields r level compact false with
      | .error e => .error e
      | .ok tail => .ok (head ++ (if compact then [] else [';', '\n']) ++ tail)
    else
      match encodeValue v (level + 1) compact with
      | .error e => .error e
      | .ok ev =>
        match encodeFields r level compact false with
        | .error e => .error e
        | .ok tail =>
          .ok (head ++ ev ++ (if compact then [] else [';', '\n']) ++ tail)
termination_by (sizeOf fvs, 0)

/-- `func encodeMap(b, v, level, compact)`: identical entry loop over the
map's entries (model entries are iterated in list order; Go map iteration
order is arbitrary but common to both modes within one comparison). -/
def encodeMap (es : List (String × GoVal)) (level : Nat) (compact : Bool) :
    Except GoErr (List Char) :=
  match encodeMapEntries es level compact true with
  | .error e => .error e
  | .ok body =>
    .ok ([lbrace] ++ (if compact then [] else ['\n']) ++ body ++
      (if compact then [] else indent (level - 1)) ++ [rbrace])
termination_by (sizeOf es, 1)

/-- The entry loop of `encodeMap`. -/
def encodeMapEntries (es : List (String × GoVal)) (level : Nat)
    (compact : Bool) (first : Bool) : Except GoErr (List Char) :=
  match es with
  | [] => .ok []
  | (k, v) :: r =>
    let head := (if !first && compact then [';'] else []) ++
      (if compact then [] else indent level) ++ k.data ++ ['=']
    if isZeroValue v then
      match encodeMapEntries r level compact false with
      | .error e => .error e
      | .ok tail => .ok (head ++ (if compact then [] else [';', '\n']) ++ tail)
    else
      match encodeValue v (level + 1) compact with
      | .error e => .error e
      | .ok ev =>
        match encodeMapEntries r level compact false with
        | .error e => .error e
        | .ok tail =>
          .ok (head ++ ev ++ (if compact then [] else [';', '\n']) ++ tail)
termination_by (sizeOf es, 0)

/-- `func encodeSlice(b, v, level, compact)`: `[]` when empty, the table
sub-format when the element type is a record, else a bracketed
comma-separated list. -/
def encodeSlice (shdr : Option (List String)) (es : List GoVal) (level : Nat)
    (compact : Bool) : Except GoErr (List Char) :=
  if es.isEmpty then .ok ['[', ']']
  else
    match shdr with
    | some hdr => encodeStructSliceAsTable hdr es
    | none =>
      match encodeListElems es level compact true with
      | .error e => .error e
      | .ok body => .ok (['['] ++ body ++ [']'])
termination_by (sizeOf es, 1)

/-- The element loop of `encodeSlice`'s bracketed-list branch. -/
def encodeListElems (es : List GoVal) (level : Nat) (compact : Bool)
    (first : Bool) : Except GoErr (List Char) :=
  match es with
  | [] => .ok []
  | v :: r =>
    match encodeValue v level compact with
    | .error e => .error e
    | .ok ev =>
      match encodeListElems r level compact false with
      | .error e => .error e
      | .ok tail => .ok ((if first then [] else [',']) ++ ev ++ tail)
termination_by (sizeOf es, 0)

end

/-- `func marshalWithCompact(v, compact)`: a record or mapping encodes
directly as the document body; any other value is wrapped as the document's
single raw value. -/
def marshalWithCompact (v : GoVal) (compact : Bool) : Except GoErr (List Char) :=
  match v with
  | .struct _ => encodeValue v 0 compact
  | .map _ => encodeValue v 0 compact
  | _ =>
    match encodeValue v 1 compact with
    | .error e => .error e
    | .ok body =>
      .ok ([lbrace] ++ (if compact then [] else '\n' :: indent 1) ++ body ++
        (if compact then [] else ['\n']) ++ [rbrace])

/-- `func Marshal(v) ([]byte, error)`: compact encoding. -/
def Marshal (v : GoVal) : Except GoErr (List Char) := marshalWithCompact v true

/-- `func MarshalBeautify(v) ([]byte, error)`: indented encoding. -/
def MarshalBeautify (v : GoVal) : Except GoErr (List Char) :=
  marshalWithCompact v false

/-! ## Decoder

The decoder mutates a typed destination in place; the model passes the
current destination value in and returns the updated one.  The
while-loops of the source are fuel-consuming recursions: fuel is spent
once per call, every loop iteration of the source consumes at least one
input byte or ends the loop, and the top-level entry point supplies fuel
`2 * length + 8`, which the fuel-sufficiency lemmas below show is enough
for every input the theorems touch.  (On inputs where the source itself
loops forever — an unterminated table, whose cell loop does not advance at
end of input — the model reports the distinguished `fuel` error.) -/

/-- `target.Field(i).Set(v)`: replace field `i` of a record value. -/
def setStructField (cur : List (String × GoVal)) (i : Nat) (v : GoVal) :
    List (String × GoVal) :=
  match cur.get? i with
  | some kv => cur.set i (kv.1, v)
  | none => cur

/-- The `fieldMap` built by `decodeStruct` and `decodeTable`: resolved key
name to field index, later fields overwriting earlier ones with the same
key (Go map insertion). -/
def fieldMapLookup : List (String × GoTy) → List Char → Option Nat
  | [], _ => none
  | (k, _) :: r, key =>
    match fieldMapLookup r key with
    | some j => some (j + 1)
    | none => if k.data = key then some 0 else none

/-- The type of field `i` of a record type (fields are always indexed in
range by the decoder). -/
def fieldTyAt (flds : List (String × GoTy)) (i : Nat) : GoTy :=
  ((flds.get? i).map Prod.snd).getD .str

/-- The current value of field `i` of a record value. -/
def fieldValAt (cur : List (String × GoVal)) (i : Nat) : GoVal :=
  ((cur.get? i).map Prod.snd).getD (.str "")

/-- `func setFieldFromString(field, s)`: an empty cell leaves the field
unchanged; strings are stored verbatim, integers via
`strconv.ParseInt(s, 10, 64)`, booleans via `strconv.ParseBool`; any other
field kind is an error.  (The floating branch of the source is outside the
model's type universe.) -/
def setFieldFromString (ty : GoTy) (cur : GoVal) (s : List Char) :
    Except GoErr GoVal :=
  if s.isEmpty then .ok cur
  else
    match ty with
    | .str => .ok (.str (String.mk s))
    | .int =>
      match goParseInt s with
      | some n => .ok (.int n)
      | none => .error (.e "invalid integer cell")
    | .bool =>
      match goParseBool s with
      | some b => .ok (.bool b)
      | none => .error (.e "invalid boolean cell")
    | _ => .error (.e "unsupported field type")

mutual

/-- `func decodeValue(p, target)`: skip whitespace, dispatch on the
destination's kind.  The pointer and interface branches of the source are
outside the model's type universe. -/
def decodeValue : Nat → GoTy → GoVal → Parser → Except GoErr (GoVal × Parser)
  | 0, _, _, _ => .error .fuel
  | f + 1, ty, target, p0 =>
    let p := p0.skipSpaces
    match ty with
    | .struct flds => decodeStruct f flds target p
    | .slice el => decodeSlice f el target p
    | .str =>
      match parseStringValue p with
      | (.ok cs, p1) => .ok (.str (String.mk cs), p1)
      | (.error e, _) => .error e
    | .int =>
      match parseNumber p with
      | (.ok q, p1) => .ok (.int (goTrunc q), p1)
      | (.error e, _) => .error e
    | .bool =>
      match parseBool p with
      | (.ok b, p1) => .ok (.bool b, p1)
      | (.error e, _) => .error e

/-- `func decodeStruct(p, target)`: expect `{`, then the key=value loop. -/
def decodeStruct : Nat → List (String × GoTy) → GoVal → Parser →
    Except GoErr (GoVal × Parser)
  | 0, _, _, _ => .error .fuel
  | f + 1, flds, target, p =>
    if p.peek != lbrace then .error (.e "expected open brace for struct")
    else
      match target with
      | .struct cur =>
        match decodeStructLoop f flds cur (((p.next).2).skipSpaces) with
        | .error e => .error e
        | .ok (cur1, p1) => .ok (.struct cur1, p1)
      | _ => .error (.e "destination is not a record")

/-- The pair loop of `decodeStruct`: read a key, require `=`; an empty
right-hand side (`;` or `}`) grounds a matching field to its zero value; an
unresolved key skips one balanced value; a resolved key decodes into the
field; then an optional `;`. -/
def decodeStructLoop : Nat → List (String × GoTy) → List (String × GoVal) →
    Parser → Except GoErr (List (String × GoVal) × Parser)
  | 0, _, _, _ => .error .fuel
  | f + 1, flds, cur, p =>
    if !p.eof && p.peek != rbrace then
      let (key, p1) := p.readBareToken
      let p2 := p1.skipSpaces
      if p2.peek != '=' then .error (.e "expected assign after key")
      else
        let p3 := (((p2.next).2)).skipSpaces
        if p3.peek == ';' || p3.peek == rbrace then
          let p4 := if p3.peek == ';' then (p3.next).2 else p3
          let p5 := p4.skipSpaces
          let cur1 :=
            match fieldMapLookup flds key with
            | some i => setStructField cur i (zeroVal (fieldTyAt flds i))
            | none => cur
          decodeStructLoop f flds cur1 p5
        else
          match fieldMapLookup flds key with
          | none =>
            let p4 := skipValue p3
            let p5 := p4.skipSpaces
            let p6 := if p5.peek == ';' then (p5.next).2 else p5
            decodeStructLoop f flds cur (p6.skipSpaces)
          | some i =>
            match decodeValue f (fieldTyAt flds i) (fieldValAt cur i) p3 with
            | .error e => .error e
            | .ok (v, p4) =>
              let p5 := p4.skipSpaces
              let p6 := if p5.peek == ';' then (p5.next).2 else p5
              decodeStructLoop f flds (setStructField cur i v) (p6.skipSpaces)
    else
      if p.peek != rbrace then .error (.e "expected close brace at end of struct")
      else .ok (cur, (p.next).2)

/-- `func decodeSlice(p, target)`: `(` delegates to the table decoder,
else `[` starts a comma-separated element list. -/
def decodeSlice : Nat → GoTy → GoVal → Parser → Except GoErr (GoVal × Parser)
  | 0, _, _, _ => .error .fuel
  | f + 1, elemTy, target, p0 =>
    let p := p0.skipSpaces
    if p.peek == '(' then decodeTable f elemTy target p
    else if p.peek != '[' then .error (.e "expected open bracket for slice")
    else
      match decodeSliceLoop f elemTy [] (((p.next).2).skipSpaces) with
      | .error e => .error e
      | .ok (es, p1) => .ok (.slice (sliceHdr elemTy) es, p1)

/-- The element loop of `decodeSlice`: each element decodes into a fresh
zero value of the element type, then an optional `,`. -/
def decodeSliceLoop : Nat → GoTy → List GoVal → Parser →
    Except GoErr (List GoVal × Parser)
  | 0, _, _, _ => .error .fuel
  | f + 1, elemTy, acc, p =>
    if !p.eof && p.peek != ']' then
      match decodeValue f elemTy (zeroVal elemTy) p with
      | .error e => .error e
      | .ok (v, p1) =>
        let p2 := p1.skipSpaces
        let p3 := if p2.peek == ',' then (((p2.next).2)).skipSpaces else p2
        decodeSliceLoop f elemTy (acc ++ [v]) p3
    else
      if p.peek != ']' then .error (.e "expected close bracket at end of list")
      else .ok (acc, (p.next).2)

/-- `func decodeTable(p, target)`: consume `(`; a `)` reached while
scanning the header (in particular immediately) returns with the
destination untouched; otherwise parse rows after `:` and replace the
destination with the decoded slice. -/
def decodeTable : Nat → GoTy → GoVal → Parser → Except GoErr (GoVal × Parser)
  | 0, _, _, _ => .error .fuel
  | f + 1, elemTy, target, p =>
    if p.peek != '(' then .error (.e "expected open paren for table")
    else
      let p1 := (((p.next).2)).skipSpaces
      match elemTy with
      | .struct eflds =>
        match decodeTableHeader f [] p1 with
        | .error e => .error e
        | .ok (none, p2) => .ok (target, p2)
        | .ok (some hdrs, p2) =>
          match decodeTableRows f eflds hdrs [] p2 with
          | .error e => .error e
          | .ok (rows, p3) => .ok (.slice (sliceHdr elemTy) rows, p3)
      | _ => .error (.e "table format only supported for struct slices")

/-- The header loop of `decodeTable`: comma-separated bare names up to
`:`; reaching `)` instead ends the table at once (`none`). -/
def decodeTableHeader : Nat → List (List Char) → Parser →
    Except GoErr (Option (List (List Char)) × Parser)
  | 0, _, _ => .error .fuel
  | f + 1, acc, p0 =>
    let p := p0.skipSpaces
    if p.peek == ':' then .ok (some acc, (p.next).2)
    else if p.peek == ')' then .ok (none, (p.next).2)
    else
      let (tokRaw, p1) := p.readUntilAny ",:".data
      let tok := trimChars tokRaw
      let acc1 := if tok.isEmpty then acc else acc ++ [tok]
      let p2 := p1.skipSpaces
      let p3 := if p2.peek == ',' then (p2.next).2 else p2
      decodeTableHeader f acc1 p3

/-- The row loop of `decodeTable`: each row starts from a freshly
allocated zero record. -/
def decodeTableRows : Nat → List (String × GoTy) → List (List Char) →
    List GoVal → Parser → Except GoErr (List GoVal × Parser)
  | 0, _, _, _, _ => .error .fuel
  | f + 1, eflds, hdrs, acc, p0 =>
    let p := p0.skipSpaces
    if p.peek == ')' then .ok (acc, (p.next).2)
    else
      match decodeTableCells f eflds hdrs (zeroFields eflds) 0 p with
      | .error e => .error e
      | .ok (sv, p1) => decodeTableRows f eflds hdrs (acc ++ [.struct sv]) p1

/-- The cell loop of one table row: a quoted or bare cell; positions map
through `header[cellIdx]` into the field map, cells beyond the header or
under an unknown header name are discarded; then an optional `,`.  A `;`
ends the row consuming it, a `)` ends the row leaving it for the row
loop. -/
def decodeTableCells : Nat → List (String × GoTy) → List (List Char) →
    List (String × GoVal) → Nat → Parser →
    Except GoErr (List (String × GoVal) × Parser)
  | 0, _, _, _, _, _ => .error .fuel
  | f + 1, eflds, hdrs, sv, cellIdx, p0 =>
    let p := p0.skipSpaces
    if p.peek == ';' then .ok (sv, (p.next).2)
    else if p.peek == ')' then .ok (sv, p)
    else
      let cellRes : Except GoErr (List Char × Parser) :=
        if p.peek == dq then
          match parseStringValue p with
          | (.ok cs, p1) => .ok (cs, p1)
          | (.error e, _) => .error e
        else
          let (raw, p1) := p.readUntilAny ",;)".data
          .ok (trimChars raw, p1)
      match cellRes with
      | .error e => .error e
      | .ok (cellStr, p1) =>
        let updRes : Except GoErr (List (String × GoVal)) :=
          if cellIdx < hdrs.length then
            match fieldMapLookup eflds (hdrs.getD cellIdx []) with
            | some fi =>
              match setFieldFromString (fieldTyAt eflds fi) (fieldValAt sv fi) cellStr with
              | .ok newV => .ok (setStructField sv fi newV)
              | .error e => .error e
            | none => .ok sv
          else .ok sv
        match updRes with
        | .error e => .error e
        | .ok sv1 =>
          let p2 := p1.skipSpaces
          let p3 := if p2.peek == ',' then (p2.next).2 else p2
          decodeTableCells f eflds hdrs sv1 (cellIdx + 1) p3

end

/-- The fuel the model's `Unmarshal` supplies: comfortably above the number
of decoder calls any input of this length can cause (each call either
consumes a byte before the next or is one of a bounded stack of dispatch
steps). -/
def unmarshalFuel (data : List Char) : Nat := 2 * data.length + 8

/-- `func Unmarshal(data []byte, v interface{}) error`: the destination is
passed (and returned) by value in the model, standing for the pointed-to
value of the source's non-nil pointer.  A slice destination whose document
opens `{` directly followed (after whitespace) by `(` is a bare table root
and is decoded from inside the brace; otherwise the cursor is restored and
the document decodes by the destination's shape. -/
def Unmarshal (data : List Char) (ty : GoTy) (dest : GoVal) :
    Except GoErr GoVal :=
  let p0 : Parser := ⟨data, 0⟩
  let p := p0.skipSpaces
  let run : Parser → Except GoErr GoVal := fun q =>
    match decodeValue (unmarshalFuel data) ty dest q with
    | .ok (v, _) => .ok v
    | .error e => .error e
  match ty with
  | .slice _ =>
    if p.peek == lbrace then
      let p1 := (((p.next).2)).skipSpaces
      if p1.peek == '(' then run p1
      else run p
    else run p
  | _ => run p

/-! ## Fixtures and predicates used by the theorems

`personTy` is the `Person` record of the repository's tests
(`Name string god:"name"; Age int god:"age"; Address string god:"addr"`).
The `Clean` predicate delimits the values for which the amended round-trip
theorem holds; each of its restrictions is forced by a concrete behaviour
of the source (see the doc comments). -/

/-- The test suite's `Person` record type with its resolved keys. -/
def personTy : GoTy := .struct [("name", .str), ("age", .int), ("addr", .str)]

/-- A `Person` value. -/
def personMk (n : String) (a : Int) (ad : String) : GoVal :=
  .struct [("name", .str n), ("age", .int a), ("addr", .str ad)]

/-- Delete all whitespace characters (the reading of claim C4's
"deleting all whitespace"). -/
def stripWS (s : List Char) : List Char := s.filter fun c => !isSpaceCh c

/-- Delete all whitespace characters and semicolons (the amended
comparison: the two modes also differ in trailing statement
terminators). -/
def stripWSSemi (s : List Char) : List Char :=
  s.filter fun c => !(isSpaceCh c || c == ';')

/-- Apply `stripWSSemi` to an encoder result, leaving errors alone. -/
def stripResult : Except GoErr (List Char) → Except GoErr (List Char)
  | .error e => .error e
  | .ok s => .ok (stripWSSemi s)

/-- A key a record can round-trip: nonempty and free of scanner
delimiters, which holds of every Go identifier and every sane `god` tag. -/
def bareKey (k : String) : Prop :=
  k.data ≠ [] ∧ ∀ c ∈ k.data, isBareDelim c = false

/-- Well-formed resolved keys of a record type: pairwise distinct bare
keys. -/
def keysOk (flds : List (String × GoTy)) : Prop :=
  (resolvedKeys flds).Nodup ∧ ∀ k ∈ resolvedKeys flds, bareKey k

/-- Characters whose `strconv.Quote` escaping the decoder's `parseString`
inverts: the five escaped characters and printable ASCII.  (Control bytes
other than tab/CR/LF quote as `\xhh`, which `parseString` reads back as a
literal `x` and two digits — a round-trip loss the predicate excludes.) -/
def quoteOkChar (c : Char) : Prop :=
  c = '\t' ∨ c = '\r' ∨ c = '\n' ∨ (32 ≤ c.toNat ∧ c.toNat ≤ 126)

/-- A string body safe for the verbatim triple-quote form: no early
`"""` window appears before the closing fence when the encoder appends
it.  (A body containing `"""`, or ending in `"`, closes the fence early
and derails the decode — the C1 counterexample.) -/
def tripleSafe (s : List Char) : Prop :=
  ∀ i < s.length, ((s ++ tripleQ).drop i).take 3 ≠ tripleQ

/-- A string value the codec round-trips: the newline-free form must
quote invertibly, the multi-line form must not close its fence early. -/
def strOk (s : String) : Prop :=
  if s.data.contains '\n' then tripleSafe s.data
  else ∀ c ∈ s.data, quoteOkChar c

/-- Integers whose trip through `strconv.ParseFloat`'s `float64` is
exact. -/
def intOk (n : Int) : Prop := n.natAbs ≤ 2 ^ 53

/-- A table-cell-compatible scalar field: the only field kinds
`setFieldFromString` can restore (a record or slice field inside a table
row is rendered through `%v` by `encodeTableCell` and rejected with
"unsupported field type" on decode). -/
def cellOk : GoTy → GoVal → Prop
  | .str, .str s => ∀ c ∈ s.data, quoteOkChar c
  | .int, .int n => intOk n
  | .bool, .bool _ => True
  | _, _ => False

/-- A table row value: a record whose fields align with the element
type's fields and are cell-compatible scalars. -/
def RowClean (eflds : List (String × GoTy)) : GoVal → Prop
  | .struct fvs =>
    fvs.length = eflds.length ∧
    ∀ i (h : i < eflds.length) (h' : i < fvs.length),
      (eflds.get ⟨i, h⟩).1 = (fvs.get ⟨i, h'⟩).1 ∧
      cellOk (eflds.get ⟨i, h⟩).2 (fvs.get ⟨i, h'⟩).2
  | _ => False

/-- The values of a given type for which encode-then-decode is the
identity.  Every side condition is forced by a concrete behaviour of the
source: `strOk` by the triple-quote fence and the `\xhh` quoting of
control bytes, `intOk` by the decoder's number path through `float64`,
`keysOk` by key tokenisation and the last-wins field map, the
scalar-fields condition on non-empty record tables by
`setFieldFromString`'s field kinds. -/
inductive Clean : GoTy → GoVal → Prop
  | str (s : String) : strOk s → Clean .str (.str s)
  | int (n : Int) : intOk n → Clean .int (.int n)
  | bool (b : Bool) : Clean .bool (.bool b)
  | struct (flds : List (String × GoTy)) (fvs : List (String × GoVal))
      (hkeys : keysOk flds)
      (hlen : flds.length = fvs.length)
      (hk : ∀ i (h : i < flds.length) (h' : i < fvs.length),
        (flds.get ⟨i, h⟩).1 = (fvs.get ⟨i, h'⟩).1)
      (hv : ∀ i (h : i < flds.length) (h' : i < fvs.length),
        Clean (flds.get ⟨i, h⟩).2 (fvs.get ⟨i, h'⟩).2) :
      Clean (.struct flds) (.struct fvs)
  | sliceNil (el : GoTy) : Clean (.slice el) (.slice (sliceHdr el) [])
  | sliceList (el : GoTy) (es : List GoVal)
      (hnotStruct : sliceHdr el = none)
      (hne : es ≠ [])
      (hes : ∀ v ∈ es, Clean el v) :
      Clean (.slice el) (.slice none es)
  | sliceTable (eflds : List (String × GoTy)) (es : List GoVal)
      (hne : es ≠ [])
      (hkeys : keysOk eflds)
      (hrows : ∀ v ∈ es, RowClean eflds v) :
      Clean (.slice (.struct eflds)) (.slice (some (resolvedKeys eflds)) es)

/-- The text allowed to follow one encoded value: nothing, or a
non-quote, non-whitespace delimiter (`;`, `}`, `,`, `]`, `)` in the
encoder's output), so that bare-token scalars stop exactly at the
value's end. -/
def SepAfter (post : List Char) : Prop :=
  post = [] ∨ ∃ c t, post = c :: t ∧ isBareDelim c = true ∧
    isSpaceCh c = false ∧ c ≠ dq

/-- The decode-inverts-encode property at one type and value, quantified
over the compact encoder's output, its position inside a larger source,
and all sufficient fuel. -/
def DecOK (ty : GoTy) (v : GoVal) : Prop :=
  ∀ (lvl : Nat) (t : List Char), encodeValue v lvl true = .ok t →
  ∀ (src post : List Char) (pos g : Nat),
    src.drop pos = t ++ post → SepAfter post → 2 * t.length + 2 ≤ g →
    decodeValue g ty (zeroVal ty) ⟨src, pos⟩ = .ok (v, ⟨src, pos + t.length⟩)

/-- The first byte of an encoded value as the struct/slice loops of the
decoder see it: never whitespace (so the `skipSpaces` before a value is the
identity on encoder output) and never one of the closing/separator bytes
the loops test for before dispatching into a value. -/
def headOk (t : List Char) : Prop :=
  ∀ c t2, t = c :: t2 → isSpaceCh c = false ∧ c ≠ ';' ∧ c ≠ rbrace ∧
    c ≠ ',' ∧ c ≠ ']' ∧ c ≠ ')'

/-- Encode-then-decode inverts at one type and value: the compact encoder
succeeds, its output is nonempty with a loop-safe first byte, and the
decoder, run on that output anywhere inside a larger source and followed by
a value separator, with any sufficient fuel, returns exactly the value,
consuming exactly the output. -/
def EncDec (ty : GoTy) (v : GoVal) : Prop :=
  ∀ lvl : Nat, ∃ t : List Char,
    encodeValue v lvl true = .ok t ∧ t ≠ [] ∧ headOk t ∧
    ∀ (src post : List Char) (pos g : Nat),
      src.drop pos = t ++ post → SepAfter post → 2 * t.length + 2 ≤ g →
      decodeValue g ty (zeroVal ty) ⟨src, pos⟩ = .ok (v, ⟨src, pos + t.length⟩)

/-- The concatenated row texts of `encodeStructSliceAsTable` (each row its
cells followed by the mandatory `;`), as a plain recursion mirroring the
source's row loop. -/
def rowsFlat : List GoVal → List Char
  | [] => []
  | .struct fvs :: r => rowCells fvs true ++ [';'] ++ rowsFlat r
  | _ :: r => rowsFlat r

/-! ## Theorems -/

/-- Cells at positions past the header leave the row record unchanged:
the positional update in the cell loop is guarded by `cellIdx <
len(headers)`, so excess cells are consumed and discarded. -/
theorem cellsBeyondHeader :
    ∀ (f : Nat) (eflds : List (String × GoTy)) (hdrs : List (List Char))
      (sv sv2 : List (String × GoVal)) (i : Nat) (p p2 : Parser),
      hdrs.length ≤ i →
      decodeTableCells f eflds hdrs sv i p = .ok (sv2, p2) → sv2 = sv := by
  intro f
  induction f with
  | zero =>
    intro eflds hdrs sv sv2 i p p2 _ h
    simp [decodeTableCells] at h
  | succ f ih =>
    intro eflds hdrs sv sv2 i p p2 hle h
    have hni : ¬ i < hdrs.length := by omega
    rw [decodeTableCells] at h
    simp only [hni, if_false] at h
    split at h
    · simp only [Except.ok.injEq, Prod.mk.injEq] at h
      exact h.1.symm
    · split at h
      · simp only [Except.ok.injEq, Prod.mk.injEq] at h
        exact h.1.symm
      · split at h
        · exact absurd h (by simp)
        · exact ih eflds hdrs sv sv2 (i + 1) _ p2 (by omega) h

/-- C2: decoding the document `{"Hello World"}` into a plain string
destination does NOT yield "Hello World": `Unmarshal` strips the root
braces only for slice destinations, so the string path hands the document
to `parseStringValue`, whose bare-token read stops at once at the opening
brace delimiter, and the destination is set to the empty string with no
error reported. -/
theorem c2_root_string_decodes_empty :
    Unmarshal "\x7b\x22Hello World\x22\x7d".data .str (.str "") =
      .ok (.str "") ∧
    GoVal.str "" ≠ GoVal.str "Hello World" := by
  refine ⟨rfl, ?_⟩
  simp

/-- C5 counterexample: decoding `{()}` into a sequence-of-records
destination that already holds one record succeeds and returns that prior
record, not the empty sequence — the empty-table branch of `decodeTable`
returns before the destination is ever assigned. -/
theorem c5_counterexample :
    Unmarshal "\x7b()\x7d".data (.slice personTy)
        (.slice (some ["name", "age", "addr"]) [personMk "X" 1 "Y"]) =
      .ok (.slice (some ["name", "age", "addr"]) [personMk "X" 1 "Y"]) ∧
    GoVal.slice (some ["name", "age", "addr"]) [personMk "X" 1 "Y"] ≠
      .slice (some ["name", "age", "addr"]) [] := by
  refine ⟨rfl, ?_⟩
  simp

/-- C5 amended: a table opening `(` immediately followed by `)` decodes
into a sequence-of-records destination successfully and leaves the
destination exactly as it was — in particular, a fresh zero-valued
destination remains the empty sequence. -/
theorem c5_empty_table_amended :
    ∀ (eflds : List (String × GoTy)) (prior : GoVal),
      Unmarshal "\x7b()\x7d".data (.slice (.struct eflds)) prior = .ok prior ∧
      Unmarshal "\x7b()\x7d".data (.slice (.struct eflds))
          (zeroVal (.slice (.struct eflds))) =
        .ok (.slice (some (resolvedKeys eflds)) []) := by
  intro eflds prior
  exact ⟨rfl, rfl⟩

/-- C6: table rows ground missing data and discard excess data.  Cells
past the header length are consumed without error and change nothing
(first conjunct, for every row state); decoding the spec's example
`{(name,age,addr:"John",12,;)}` yields the single record
`{name "John", age 12, addr ""}` (the trailing empty cell leaves the
string field at its zero value); and a row with more cells than headers
(`{(name:"A",5,true;)}`) decodes without error, the unmapped fields
staying at their zero values. -/
theorem c6_table_row_grounding :
    (∀ (f : Nat) (eflds : List (String × GoTy)) (hdrs : List (List Char))
        (sv sv2 : List (String × GoVal)) (i : Nat) (p p2 : Parser),
        hdrs.length ≤ i →
        decodeTableCells f eflds hdrs sv i p = .ok (sv2, p2) → sv2 = sv) ∧
    Unmarshal "\x7b(name,age,addr:\x22John\x22,12,;)\x7d".data
        (.slice personTy) (zeroVal (.slice personTy)) =
      .ok (.slice (some ["name", "age", "addr"]) [personMk "John" 12 ""]) ∧
    Unmarshal "\x7b(name:\x22A\x22,5,true;)\x7d".data
        (.slice personTy) (zeroVal (.slice personTy)) =
      .ok (.slice (some ["name", "age", "addr"]) [personMk "A" 0 ""]) :=
  ⟨cellsBeyondHeader, rfl, rfl⟩

/-- C6 witness: the cells-past-header conjunct applied at a concrete row
state (one excess cell before the closing paren). -/
theorem c6_table_row_grounding_witness :
    ∀ sv2 p2, decodeTableCells 1 [] [] [("x", GoVal.int 3)] 0 ⟨[')'], 0⟩ =
      .ok (sv2, p2) → sv2 = [("x", GoVal.int 3)] := by
  intro sv2 p2 h
  exact c6_table_row_grounding.1 1 [] [] [("x", GoVal.int 3)] sv2 0 ⟨[')'], 0⟩ p2
    (Nat.le_refl 0) h

/-- C10: in a plain quoted string, a backslash followed by a character
outside `n r t " \` decodes to that character alone — the backslash is
dropped (first conjunct, for every such character), and the full pipeline
turns the field text `"a\zb"` into the string `azb`. -/
theorem c10_unknown_escape_drops_backslash :
    (∀ c : Char, c ≠ 'n' → c ≠ 'r' → c ≠ 't' → c ≠ dq → c ≠ bsl →
      parseString ⟨[dq, bsl, c, dq], 0⟩ = (.ok [c], ⟨[dq, bsl, c, dq], 4⟩)) ∧
    Unmarshal ("\x7bs=\x22a" ++ "\\" ++ "zb\x22\x7d").data
        (.struct [("s", .str)]) (zeroVal (.struct [("s", .str)])) =
      .ok (.struct [("s", .str "azb")]) := by
  refine ⟨?_, rfl⟩
  intro c hn hr ht hq hb
  have e1 : (c == 'n') = false := by simp [hn]
  have e2 : (c == 'r') = false := by simp [hr]
  have e3 : (c == 't') = false := by simp [ht]
  have e4 : (c == dq) = false := by simp [hq]
  have e5 : (c == bsl) = false := by simp [hb]
  have f4 : c ≠ Char.ofNat 34 := hq
  have f5 : c ≠ Char.ofNat 92 := hb
  simp [parseString, parseStringAux, Parser.next, Parser.eof, Parser.peek,
    e1, e2, e3, e4, e5, f4, f5, dq, bsl]

/-! ### Scanner lemmas on the remaining-input view -/

theorem rest_mk (src : List Char) (pos : Nat) :
    (⟨src, pos⟩ : Parser).rest = src.drop pos := rfl

theorem eof_of_rest_nil {p : Parser} (h : p.rest = []) : p.eof = true := by
  have : p.src.length - p.pos = 0 := by
    simpa [Parser.rest] using congrArg List.length h
  simp [Parser.eof]
  omega

theorem eof_false_of_rest {p : Parser} {c : Char} {t : List Char}
    (h : p.rest = c :: t) : p.eof = false := by
  have : p.src.length - p.pos = t.length + 1 := by
    simpa [Parser.rest] using congrArg List.length h
  simp [Parser.eof]
  omega

theorem getElem?_of_rest {p : Parser} {c : Char} {t : List Char}
    (h : p.rest = c :: t) : p.src[p.pos]? = some c := by
  rw [← List.head?_drop]
  rw [show p.src.drop p.pos = p.rest from rfl, h]
  rfl

theorem peek_of_rest {p : Parser} {c : Char} {t : List Char}
    (h : p.rest = c :: t) : p.peek = c := by
  simp [Parser.peek, eof_false_of_rest h, List.getD, getElem?_of_rest h]

theorem peek_of_rest_nil {p : Parser} (h : p.rest = []) : p.peek = eofByte := by
  simp [Parser.peek, eof_of_rest_nil h]

theorem advance_rest {p : Parser} {c : Char} {t : List Char}
    (h : p.rest = c :: t) : (⟨p.src, p.pos + 1⟩ : Parser).rest = t := by
  have : (p.src.drop p.pos).tail = p.src.drop (p.pos + 1) := by
    rw [List.tail_drop]
  rw [rest_mk, ← this, ← Parser.rest, h]
  rfl

theorem next_of_rest {p : Parser} {c : Char} {t : List Char}
    (h : p.rest = c :: t) : p.next = (c, ⟨p.src, p.pos + 1⟩) := by
  simp [Parser.next, eof_false_of_rest h, List.getD, getElem?_of_rest h]

theorem rest_length {p : Parser} : p.rest.length = p.src.length - p.pos := by
  simp [Parser.rest]

/-- `skipSpaces` does nothing when the next byte (if any) is not
whitespace. -/
theorem skipSpaces_id {p : Parser}
    (h : p.rest = [] ∨ ∃ c t, p.rest = c :: t ∧ isSpaceCh c = false) :
    p.skipSpaces = p := by
  rw [Parser.skipSpaces]
  cases hf : p.src.length + 1 - p.pos with
  | zero => rfl
  | succ f =>
    rw [skipSpacesAux]
    rcases h with h | ⟨c, t, h, hc⟩
    · simp [eof_of_rest_nil h]
    · simp [peek_of_rest h, hc]

/-- Cursor bounds for the whitespace loop. -/
theorem skipSpacesAux_props :
    ∀ (f : Nat) (p : Parser), p.pos ≤ p.src.length →
      (skipSpacesAux f p).src = p.src ∧ p.pos ≤ (skipSpacesAux f p).pos ∧
        (skipSpacesAux f p).pos ≤ p.src.length := by
  intro f
  induction f with
  | zero => intro p hp; exact ⟨rfl, Nat.le_refl _, hp⟩
  | succ f ih =>
    intro p hp
    rw [skipSpacesAux]
    split
    · next hcond =>
      have hlt : p.pos < p.src.length := by
        rcases Bool.and_eq_true .. ▸ hcond with ⟨he, _⟩
        simp [Parser.eof] at he
        omega
      have := ih ⟨p.src, p.pos + 1⟩ (by simpa using hlt)
      exact ⟨this.1, Nat.le_trans (Nat.le_succ _) this.2.1, this.2.2⟩
    · exact ⟨rfl, Nat.le_refl _, hp⟩

/-- Cursor bounds for the bare-token loop. -/
theorem readBareTokenAux_props :
    ∀ (f : Nat) (p : Parser) (acc : List Char), p.pos ≤ p.src.length →
      (readBareTokenAux f p acc).2.src = p.src ∧
        p.pos ≤ (readBareTokenAux f p acc).2.pos ∧
        (readBareTokenAux f p acc).2.pos ≤ p.src.length := by
  intro f
  induction f with
  | zero => intro p acc hp; exact ⟨rfl, Nat.le_refl _, hp⟩
  | succ f ih =>
    intro p acc hp
    rw [readBareTokenAux]
    split
    · exact ⟨rfl, Nat.le_refl _, hp⟩
    · split
      · exact ⟨rfl, Nat.le_refl _, hp⟩
      · next he _ =>
        have hlt : p.pos < p.src.length := by
          simp [Parser.eof] at he
          omega
        have := ih ⟨p.src, p.pos + 1⟩ (p.peek :: acc) (by simpa using hlt)
        exact ⟨this.1, Nat.le_trans (Nat.le_succ _) this.2.1, this.2.2⟩

/-- Cursor bounds for the delimiter-scan loop. -/
theorem readUntilAnyAux_props :
    ∀ (seps : List Char) (f : Nat) (p : Parser) (acc : List Char),
      p.pos ≤ p.src.length →
      (readUntilAnyAux seps f p acc).2.src = p.src ∧
        p.pos ≤ (readUntilAnyAux seps f p acc).2.pos ∧
        (readUntilAnyAux seps f p acc).2.pos ≤ p.src.length := by
  intro seps f
  induction f with
  | zero => intro p acc hp; exact ⟨rfl, Nat.le_refl _, hp⟩
  | succ f ih =>
    intro p acc hp
    rw [readUntilAnyAux]
    split
    · exact ⟨rfl, Nat.le_refl _, hp⟩
    · split
      · exact ⟨rfl, Nat.le_refl _, hp⟩
      · next he _ =>
        have hlt : p.pos < p.src.length := by
          simp [Parser.eof] at he
          omega
        have := ih ⟨p.src, p.pos + 1⟩ (p.peek :: acc) (by simpa using hlt)
        exact ⟨this.1, Nat.le_trans (Nat.le_succ _) this.2.1, this.2.2⟩

/-- A delimiter-free character is not whitespace (whitespace is part of
the delimiter set). -/
theorem not_space_of_not_delim {c : Char} (h : isBareDelim c = false) :
    isSpaceCh c = false := by
  rw [isBareDelim] at h
  cases hs : isSpaceCh c
  · rfl
  · rw [hs] at h
    simp at h

/-- `strings.TrimSpace` does nothing to a token with no surrounding
whitespace (bare tokens never contain whitespace, which is a stop
character of the token loop). -/
theorem trimChars_id {k : List Char} (h : ∀ c ∈ k, isSpaceCh c = false) :
    trimChars k = k := by
  have h1 : k.dropWhile isSpaceCh = k := by
    rw [List.dropWhile_eq_self_iff]
    intro hl
    simp [h _ (List.getElem_mem hl)]
  have h2 : k.reverse.dropWhile isSpaceCh = k.reverse := by
    rw [List.dropWhile_eq_self_iff]
    intro hl
    have hy : k.length - 1 < k.length := by simp at hl; omega
    simp [h _ (List.getElem_mem hy)]
  rw [trimChars, h1, h2, List.reverse_reverse]

/-- The bare-token loop consumes exactly a delimiter-free prefix, stopping
at the following delimiter or end of input. -/
theorem readBareTokenAux_parses :
    ∀ (k : List Char) (f : Nat) (p : Parser) (acc post : List Char),
      p.rest = k ++ post →
      (∀ c ∈ k, isBareDelim c = false) →
      (post = [] ∨ ∃ c t, post = c :: t ∧ isBareDelim c = true) →
      k.length < f →
      readBareTokenAux f p acc = (acc.reverse ++ k, ⟨p.src, p.pos + k.length⟩) := by
  intro k
  induction k with
  | nil =>
    intro f p acc post hrest _ hpost hf
    obtain ⟨f, rfl⟩ : ∃ f', f = f' + 1 := ⟨f - 1, by omega⟩
    rw [readBareTokenAux]
    simp only [List.nil_append] at hrest
    rcases hpost with rfl | ⟨c, t, rfl, hc⟩
    · simp [eof_of_rest_nil hrest]
    · simp [eof_false_of_rest hrest, peek_of_rest hrest, hc]
  | cons c k ih =>
    intro f p acc post hrest hnd hpost hf
    obtain ⟨f, rfl⟩ : ∃ f', f = f' + 1 := ⟨f - 1, by omega⟩
    rw [readBareTokenAux]
    have hr : p.rest = c :: (k ++ post) := by simpa using hrest
    have hc : isBareDelim c = false := hnd c (by simp)
    rw [if_neg (by simp [eof_false_of_rest hr]),
      if_neg (by simp [peek_of_rest hr, hc])]
    rw [peek_of_rest hr]
    have := ih f ⟨p.src, p.pos + 1⟩ (c :: acc) post (advance_rest hr)
      (fun c hc => hnd c (by simp [hc])) hpost (by simpa using hf)
    rw [this]
    simp
    omega

/-- `readBareToken` on a delimiter-free token: skips nothing, reads the
token, trims nothing. -/
theorem readBareToken_parses {p : Parser} {k q : List Char}
    (hrest : p.rest = k ++ q) (hne : k ≠ [])
    (hnd : ∀ c ∈ k, isBareDelim c = false)
    (hpost : q = [] ∨ ∃ c t, q = c :: t ∧ isBareDelim c = true) :
    p.readBareToken = (k, ⟨p.src, p.pos + k.length⟩) := by
  rw [Parser.readBareToken]
  have hskip : p.skipSpaces = p := by
    apply skipSpaces_id
    right
    obtain ⟨c, k', rfl⟩ : ∃ c k', k = c :: k' := by
      cases k with
      | nil => exact absurd rfl hne
      | cons c k' => exact ⟨c, k', rfl⟩
    exact ⟨c, k' ++ q, by simpa using hrest,
      not_space_of_not_delim (hnd c (by simp))⟩
  rw [hskip]
  have hlen : k.length < p.src.length + 1 - p.pos := by
    have h1 : p.rest.length = k.length + q.length := by simp [hrest]
    have h2 := rest_length (p := p)
    have h3 : 0 < k.length := List.length_pos.mpr hne
    omega
  rw [readBareTokenAux_parses k _ p [] q hrest hnd hpost hlen]
  simp [trimChars_id fun c hc => not_space_of_not_delim (hnd c hc)]

/-! ### Decimal digits and number parsing -/

theorem digit_char_isDigit : ∀ d, d < 10 → isDigitCh (Char.ofNat (48 + d)) = true := by
  decide

theorem digit_char_toNat : ∀ d, d < 10 → (Char.ofNat (48 + d)).toNat = 48 + d := by
  decide

theorem isDigit_not_delim {c : Char} (h : isDigitCh c = true) :
    isBareDelim c = false := by
  simp only [isDigitCh, Bool.and_eq_true, decide_eq_true_eq] at h
  simp only [isBareDelim, isSpaceCh, Bool.or_eq_false_iff, beq_eq_false_iff_ne]
  and_intros <;> (rintro rfl; revert h; decide)

theorem natDigitsAux_append :
    ∀ (f n : Nat) (acc : List Char),
      natDigitsAux f n acc = natDigitsAux f n [] ++ acc := by
  intro f
  induction f with
  | zero => intro n acc; rfl
  | succ f ih =>
    intro n acc
    by_cases h10 : n < 10
    · simp [natDigitsAux, h10]
    · simp only [natDigitsAux, if_neg h10]
      rw [ih (n / 10) (Char.ofNat (48 + n % 10) :: acc),
        ih (n / 10) [Char.ofNat (48 + n % 10)]]
      simp

theorem natDigitsAux_congr :
    ∀ (n f g : Nat) (acc : List Char), n < f → n < g →
      natDigitsAux f n acc = natDigitsAux g n acc := by
  intro n
  induction n using Nat.strong_induction_on with
  | _ n ih =>
    intro f g acc hf hg
    cases f with
    | zero => omega
    | succ f =>
      cases g with
      | zero => omega
      | succ g =>
        by_cases h10 : n < 10
        · simp [natDigitsAux, h10]
        · simp only [natDigitsAux, if_neg h10]
          exact ih (n / 10) (by omega) f g _ (by omega) (by omega)

theorem digitsVal_append_digit (xs : List Char) (c : Char) :
    digitsVal (xs ++ [c]) = digitsVal xs * 10 + (c.toNat - 48) := by
  simp [digitsVal, List.foldl_append]

/-- The decimal digits of `n` evaluate back to `n`, are nonempty and all
digit bytes. -/
theorem natDigits_spec :
    ∀ n : Nat, digitsVal (natDigits n) = n ∧ natDigits n ≠ [] ∧
      ∀ c ∈ natDigits n, isDigitCh c = true := by
  intro n
  induction n using Nat.strong_induction_on with
  | _ n ih =>
    by_cases h10 : n < 10
    · rw [natDigits, natDigitsAux]
      simp only [if_pos h10]
      refine ⟨?_, by simp, ?_⟩
      · simp [digitsVal, digit_char_toNat (n % 10) (by omega)]
        omega
      · intro c hc
        simp at hc
        subst hc
        exact digit_char_isDigit (n % 10) (by omega)
    · have hstep : natDigits n = natDigits (n / 10) ++ [Char.ofNat (48 + n % 10)] := by
        rw [natDigits, natDigitsAux]
        simp only [if_neg h10]
        rw [natDigitsAux_append]
        congr 1
        exact natDigitsAux_congr (n / 10) n (n / 10 + 1) [] (by omega) (by omega)
      obtain ⟨ih1, ih2, ih3⟩ := ih (n / 10) (by omega)
      rw [hstep]
      refine ⟨?_, by simp, ?_⟩
      · rw [digitsVal_append_digit, ih1, digit_char_toNat (n % 10) (by omega)]
        omega
      · intro c hc
        rcases List.mem_append.mp hc with hc | hc
        · exact ih3 c hc
        · simp at hc
          subst hc
          exact digit_char_isDigit (n % 10) (by omega)

theorem digitsVal_lt :
    ∀ (ds : List Char), (∀ c ∈ ds, isDigitCh c = true) →
      digitsVal ds < 10 ^ ds.length := by
  intro ds
  induction ds using List.reverseRecOn with
  | nil => intro _; simp [digitsVal]
  | append_singleton xs c ih =>
    intro h
    rw [digitsVal_append_digit]
    have hc : isDigitCh c = true := h c (by simp)
    have h9 : c.toNat - 48 ≤ 9 := by
      simp only [isDigitCh, Bool.and_eq_true, decide_eq_true_eq] at hc
      omega
    have hx := ih fun c hc => h c (by simp [hc])
    have hpow : (10 : Nat) ^ (xs ++ [c]).length = 10 ^ xs.length * 10 := by
      simp [pow_succ]
    rw [hpow]
    nlinarith

theorem takeWhile_all_append (p : Char → Bool) :
    ∀ (a : List Char) (d : Char) (b : List Char),
      (∀ c ∈ a, p c = true) → p d = false →
      (a ++ d :: b).takeWhile p = a ∧ (a ++ d :: b).dropWhile p = d :: b := by
  intro a
  induction a with
  | nil => intro d b _ hd; simp [List.takeWhile_cons, List.dropWhile_cons, hd]
  | cons x xs ih =>
    intro d b h hd
    have hx : p x = true := h x (by simp)
    obtain ⟨h1, h2⟩ := ih d b (fun c hc => h c (by simp [hc])) hd
    simp [List.takeWhile_cons, List.dropWhile_cons, hx, h1, h2]

/-- `strconv.ParseFloat` on a plain digit string. -/
theorem goParseFloat_digits {ds : List Char} (hne : ds ≠ [])
    (hall : ∀ c ∈ ds, isDigitCh c = true) :
    goParseFloat ds = some (mkRat (digitsVal ds) 1) := by
  obtain ⟨c, r, rfl⟩ : ∃ c r, ds = c :: r := by
    cases ds with
    | nil => exact absurd rfl hne
    | cons c r => exact ⟨c, r, rfl⟩
  have hc := hall c (by simp)
  have hd1 : c ≠ '-' := by rintro rfl; revert hc; decide
  have hd2 : c ≠ '+' := by rintro rfl; revert hc; decide
  have ht : (c :: r).takeWhile isDigitCh = c :: r :=
    List.takeWhile_eq_self_iff.mpr hall
  have hd : (c :: r).dropWhile isDigitCh = [] :=
    List.dropWhile_eq_nil_iff.mpr hall
  rw [goParseFloat]
  simp only [if_neg hd1, if_neg hd2, ht, hd]
  simp

/-- `strconv.ParseFloat` on a `digits.digits` decimal literal. -/
theorem goParseFloat_digits_dot {a b : List Char} (hane : a ≠ []) (hbne : b ≠ [])
    (haall : ∀ c ∈ a, isDigitCh c = true) (hball : ∀ c ∈ b, isDigitCh c = true) :
    goParseFloat (a ++ '.' :: b) =
      some (mkRat (digitsVal a * 10 ^ b.length + digitsVal b) (10 ^ b.length)) := by
  obtain ⟨c, r, rfl⟩ : ∃ c r, a = c :: r := by
    cases a with
    | nil => exact absurd rfl hane
    | cons c r => exact ⟨c, r, rfl⟩
  have hc := haall c (by simp)
  have hd1 : c ≠ '-' := by rintro rfl; revert hc; decide
  have hd2 : c ≠ '+' := by rintro rfl; revert hc; decide
  obtain ⟨ht, hd⟩ := takeWhile_all_append isDigitCh (c :: r) '.' b haall (by decide)
  simp only [List.cons_append] at ht hd ⊢
  rw [goParseFloat]
  simp only [if_neg hd1, if_neg hd2, ht, hd]
  simp [List.all_eq_true.mpr hball]

/-- Truncation of an integer-valued rational. -/
theorem goTrunc_mkRat_one (m : Int) : goTrunc (mkRat m 1) = m := by
  rw [goTrunc, Rat.mkRat_one]
  simp [Int.tdiv_one]

/-- Go's `int64(f)` truncation of a nonnegative `whole + frac/10^k`
rational drops the fraction. -/
theorem goTrunc_mixed (A B D : Nat) (hD : 0 < D) (hB : B < D) :
    goTrunc (mkRat ((A * D + B : Nat) : Int) D) = A := by
  have hq : (mkRat ((A * D + B : Nat) : Int) D) =
      (((A * D + B : Nat) : Int) : ℚ) / ((D : Nat) : ℚ) := by
    rw [Rat.mkRat_eq_div]
  have hq0 : 0 ≤ mkRat ((A * D + B : Nat) : Int) D := by
    rw [hq]
    positivity
  rw [goTrunc, Int.tdiv_eq_ediv (Rat.num_nonneg.mpr hq0) (by positivity),
    ← Rat.floor_def, hq, Rat.floor_intCast_div_natCast]
  push_cast
  rw [add_comm ((A : Int) * D) (B : Int),
    Int.add_mul_ediv_right (B : Int) (A : Int) (by omega : (D : Int) ≠ 0),
    Int.ediv_eq_zero_of_lt (by omega) (by omega)]
  omega

/-! ### Totality and monotonicity of the balanced skipper -/

theorem skipBalancedAux_props (op cl : Char) :
    ∀ (f : Nat) (p : Parser) (d : Int), p.pos ≤ p.src.length →
      (skipBalancedAux op cl f p d).src = p.src ∧
        p.pos ≤ (skipBalancedAux op cl f p d).pos ∧
        (skipBalancedAux op cl f p d).pos ≤ p.src.length := by
  intro f
  induction f with
  | zero => intro p d hp; exact ⟨rfl, Nat.le_refl _, hp⟩
  | succ f ih =>
    intro p d hp
    rw [skipBalancedAux]
    split
    · exact ⟨rfl, Nat.le_refl _, hp⟩
    · next he =>
      have hlt : p.pos < p.src.length := by
        simp [Parser.eof] at he
        omega
      split
      · have := ih ⟨p.src, p.pos + 1⟩ (d + 1) (by simpa using hlt)
        exact ⟨this.1, Nat.le_trans (Nat.le_succ _) this.2.1, this.2.2⟩
      · split
        · split
          · exact ⟨rfl, Nat.le_succ _, by simpa using hlt⟩
          · have := ih ⟨p.src, p.pos + 1⟩ (d - 1) (by simpa using hlt)
            exact ⟨this.1, Nat.le_trans (Nat.le_succ _) this.2.1, this.2.2⟩
        · have := ih ⟨p.src, p.pos + 1⟩ d (by simpa using hlt)
          exact ⟨this.1, Nat.le_trans (Nat.le_succ _) this.2.1, this.2.2⟩

theorem parseStringAux_props :
    ∀ (f : Nat) (p : Parser) (acc : List Char), p.pos ≤ p.src.length →
      (parseStringAux f p acc).2.src = p.src ∧
        p.pos ≤ (parseStringAux f p acc).2.pos ∧
        (parseStringAux f p acc).2.pos ≤ p.src.length := by
  intro f
  induction f with
  | zero => intro p acc hp; exact ⟨rfl, Nat.le_refl _, hp⟩
  | succ f ih =>
    intro p acc hp
    rw [parseStringAux]
    split
    · exact ⟨rfl, Nat.le_refl _, hp⟩
    · next he =>
      have hlt : p.pos < p.src.length := by
        simp [Parser.eof] at he
        omega
      have hnext : p.next = (p.src.getD p.pos eofByte, ⟨p.src, p.pos + 1⟩) := by
        simp [Parser.next, Parser.eof]
        omega
      rw [hnext]
      simp only
      split
      · split
        · exact ⟨rfl, Nat.le_succ _, by simpa using hlt⟩
        · next he1 =>
          have hlt1 : p.pos + 1 < p.src.length := by
            simp [Parser.eof] at he1
            omega
          have hnext1 : (⟨p.src, p.pos + 1⟩ : Parser).next =
              (p.src.getD (p.pos + 1) eofByte, ⟨p.src, p.pos + 2⟩) := by
            simp [Parser.next, Parser.eof]
            omega
          rw [hnext1]
          simp only
          refine ⟨(ih ⟨p.src, p.pos + 2⟩ _ (by simpa using hlt1)).1, ?_,
            (ih ⟨p.src, p.pos + 2⟩ _ (by simpa using hlt1)).2.2⟩
          exact Nat.le_trans (Nat.le_add_right p.pos 2)
            (ih ⟨p.src, p.pos + 2⟩ _ (by simpa using hlt1)).2.1
      · split
        · exact ⟨rfl, Nat.le_succ _, by simpa using hlt⟩
        · refine ⟨(ih ⟨p.src, p.pos + 1⟩ _ (by simpa using hlt)).1, ?_,
            (ih ⟨p.src, p.pos + 1⟩ _ (by simpa using hlt)).2.2⟩
          exact Nat.le_trans (Nat.le_succ p.pos)
            (ih ⟨p.src, p.pos + 1⟩ _ (by simpa using hlt)).2.1

theorem parseTripleAux_props (start : Nat) :
    ∀ (f : Nat) (p : Parser), p.pos ≤ p.src.length →
      (parseTripleAux start f p).2.src = p.src ∧
        p.pos ≤ (parseTripleAux start f p).2.pos ∧
        (parseTripleAux start f p).2.pos ≤ p.src.length := by
  intro f
  induction f with
  | zero => intro p hp; exact ⟨rfl, Nat.le_refl _, hp⟩
  | succ f ih =>
    intro p hp
    rw [parseTripleAux]
    split
    · exact ⟨rfl, Nat.le_refl _, hp⟩
    · next he =>
      have hlt : p.pos < p.src.length := by
        simp [Parser.eof] at he
        omega
      split
      · next h3 =>
        have hlen : p.pos + 3 ≤ p.src.length := by
          by_contra hc
          have hv : p.peekAhead 3 = p.src.drop p.pos := by
            rw [Parser.peekAhead, if_pos (by omega)]
          rw [hv] at h3
          have := congrArg List.length ((beq_iff_eq ..).mp h3)
          simp [tripleQ] at this
          omega
        exact ⟨rfl, Nat.le_add_right _ _, hlen⟩
      · refine ⟨(ih ⟨p.src, p.pos + 1⟩ (by simpa using hlt)).1, ?_,
          (ih ⟨p.src, p.pos + 1⟩ (by simpa using hlt)).2.2⟩
        exact Nat.le_trans (Nat.le_succ p.pos)
          (ih ⟨p.src, p.pos + 1⟩ (by simpa using hlt)).2.1

theorem parseString_props (p : Parser) (hp : p.pos ≤ p.src.length) :
    (parseString p).2.src = p.src ∧ p.pos ≤ (parseString p).2.pos ∧
      (parseString p).2.pos ≤ p.src.length := by
  rw [parseString]
  by_cases he : p.eof
  · have hn : p.next = (eofByte, p) := by simp [Parser.next, he]
    rw [hn]
    simp only
    split
    · exact ⟨rfl, Nat.le_refl _, hp⟩
    · exact parseStringAux_props _ p [] hp
  · have hlt : p.pos < p.src.length := by
      simp [Parser.eof] at he
      omega
    have hn : p.next = (p.src.getD p.pos eofByte, ⟨p.src, p.pos + 1⟩) := by
      simp [Parser.next, he]
    rw [hn]
    simp only
    split
    · exact ⟨rfl, Nat.le_succ _, hlt⟩
    · refine ⟨(parseStringAux_props _ ⟨p.src, p.pos + 1⟩ [] (by simpa using hlt)).1, ?_,
        (parseStringAux_props _ ⟨p.src, p.pos + 1⟩ [] (by simpa using hlt)).2.2⟩
      exact Nat.le_trans (Nat.le_succ p.pos)
        (parseStringAux_props _ ⟨p.src, p.pos + 1⟩ [] (by simpa using hlt)).2.1

theorem parseTripleString_props (p : Parser) (hp : p.pos ≤ p.src.length) :
    (parseTripleString p).2.src = p.src ∧ p.pos ≤ (parseTripleString p).2.pos ∧
      (parseTripleString p).2.pos ≤ p.src.length := by
  rw [parseTripleString]
  split
  · exact ⟨rfl, Nat.le_refl _, hp⟩
  · next h3 =>
    have heq : p.peekAhead 3 = tripleQ := by
      simpa using h3
    have hlen : p.pos + 3 ≤ p.src.length := by
      by_contra hc
      rw [Parser.peekAhead, if_pos (by omega)] at heq
      have := congrArg List.length heq
      simp [tripleQ] at this
      omega
    refine ⟨(parseTripleAux_props _ _ ⟨p.src, p.pos + 3⟩ (by simpa using hlen)).1, ?_,
      (parseTripleAux_props _ _ ⟨p.src, p.pos + 3⟩ (by simpa using hlen)).2.2⟩
    exact Nat.le_trans (Nat.le_add_right p.pos 3)
      (parseTripleAux_props _ _ ⟨p.src, p.pos + 3⟩ (by simpa using hlen)).2.1

theorem readBareToken_props (p : Parser) (hp : p.pos ≤ p.src.length) :
    (p.readBareToken).2.src = p.src ∧ p.pos ≤ (p.readBareToken).2.pos ∧
      (p.readBareToken).2.pos ≤ p.src.length := by
  rw [Parser.readBareToken]
  simp only [Parser.skipSpaces]
  have h1 := skipSpacesAux_props (p.src.length + 1 - p.pos) p hp
  set p1 := skipSpacesAux (p.src.length + 1 - p.pos) p
  have h2 := readBareTokenAux_props (p1.src.length + 1 - p1.pos) p1 [] (h1.1 ▸ h1.2.2)
  exact ⟨h2.1.trans h1.1, Nat.le_trans h1.2.1 h2.2.1, h1.1 ▸ h2.2.2⟩

theorem parseStringValue_props (p : Parser) (hp : p.pos ≤ p.src.length) :
    (parseStringValue p).2.src = p.src ∧ p.pos ≤ (parseStringValue p).2.pos ∧
      (parseStringValue p).2.pos ≤ p.src.length := by
  rw [parseStringValue]
  split
  · split
    · exact parseTripleString_props p hp
    · exact parseString_props p hp
  · exact readBareToken_props p hp

/-- `skipValue` is total (the source returns `nil` on every path, even
discarding a string-parse error) and only moves the cursor forward within
bounds. -/
theorem skipValue_props (p : Parser) (hp : p.pos ≤ p.src.length) :
    (skipValue p).src = p.src ∧ p.pos ≤ (skipValue p).pos ∧
      (skipValue p).pos ≤ p.src.length := by
  rw [skipValue]
  simp only [Parser.skipSpaces]
  have hs := skipSpacesAux_props (p.src.length + 1 - p.pos) p hp
  set p0 := skipSpacesAux (p.src.length + 1 - p.pos) p with hp0
  have hs2 : p0.pos ≤ p0.src.length := hs.1 ▸ hs.2.2
  have comb :
      ∀ q : Parser, q.src = p0.src ∧ p0.pos ≤ q.pos ∧ q.pos ≤ p0.src.length →
        q.src = p.src ∧ p.pos ≤ q.pos ∧ q.pos ≤ p.src.length := by
    intro q ⟨a, b, c⟩
    exact ⟨a.trans hs.1, Nat.le_trans hs.2.1 b, hs.1 ▸ c⟩
  split
  · exact comb _ (skipBalancedAux_props _ _ _ p0 0 hs2)
  · split
    · exact comb _ (skipBalancedAux_props _ _ _ p0 0 hs2)
    · split
      · exact comb _ (skipBalancedAux_props _ _ _ p0 0 hs2)
      · split
        · exact comb _ (parseStringValue_props p0 hs2)
        · exact comb _ (readBareToken_props p0 hs2)

/-! ### Compact and indented encodings agree modulo whitespace and
semicolons -/

theorem stripWSSemi_append (a b : List Char) :
    stripWSSemi (a ++ b) = stripWSSemi a ++ stripWSSemi b :=
  List.filter_append ..

theorem stripWSSemi_replicate_space (m : Nat) :
    stripWSSemi (List.replicate m ' ') = [] := by
  induction m with
  | zero => rfl
  | succ m ih => simpa [List.replicate_succ, stripWSSemi, isSpaceCh] using ih

theorem stripWSSemi_indent (l : Nat) : stripWSSemi (indent l) = [] :=
  stripWSSemi_replicate_space _

theorem isSpaceCh_nl : isSpaceCh '\n' = true := by decide

theorem isSpaceCh_space : isSpaceCh ' ' = true := by decide

theorem stripWSSemi_sep (b : Bool) :
    stripWSSemi (if b = false then [';'] else []) = [] := by
  cases b <;> decide

theorem stripWSSemi_cons (c : Char) (t : List Char) :
    stripWSSemi (c :: t) =
      (if isSpaceCh c || c == ';' then [] else [c]) ++ stripWSSemi t := by
  by_cases h : (isSpaceCh c || c == ';') = true
  · have h2 : (!(isSpaceCh c || c == ';')) = false := by simp [h]
    simp only [stripWSSemi, List.filter_cons, h2, if_pos h]
    simp
  · have hb : (isSpaceCh c || c == ';') = false := by simpa using h
    have h2 : (!(isSpaceCh c || c == ';')) = true := by simp [hb]
    simp only [stripWSSemi, List.filter_cons, h2, if_neg h]
    simp

/-- The mode-independence of the stripped encoder output, stated for all
four mutually recursive encoder functions and proved by strong induction
on the value size. -/
theorem stripEnc_aux :
    ∀ n : Nat,
      (∀ v : GoVal, sizeOf v ≤ n → ∀ l1 l2,
        stripResult (encodeValue v l1 true) =
          stripResult (encodeValue v l2 false)) ∧
      (∀ fvs : List (String × GoVal), sizeOf fvs ≤ n → ∀ l1 l2 f1 f2,
        stripResult (encodeFields fvs l1 true f1) =
          stripResult (encodeFields fvs l2 false f2)) ∧
      (∀ es : List (String × GoVal), sizeOf es ≤ n → ∀ l1 l2 f1 f2,
        stripResult (encodeMapEntries es l1 true f1) =
          stripResult (encodeMapEntries es l2 false f2)) ∧
      (∀ es : List GoVal, sizeOf es ≤ n → ∀ l1 l2 f,
        stripResult (encodeListElems es l1 true f) =
          stripResult (encodeListElems es l2 false f)) := by
  intro n
  induction n using Nat.strong_induction_on with
  | _ n IH =>
    refine ⟨?_, ?_, ?_, ?_⟩
    · intro v hv l1 l2
      match v with
      | .str s => rw [encodeValue, encodeValue]
      | .int m => rw [encodeValue, encodeValue]
      | .bool b => rw [encodeValue, encodeValue]
      | .struct fvs =>
        have hlt : sizeOf fvs < n := by
          have : sizeOf (GoVal.struct fvs) = 1 + sizeOf fvs := by simp
          omega
        have hIH := (IH (sizeOf fvs) hlt).2.1 fvs (Nat.le_refl _) l1 l2 true true
        rw [encodeValue, encodeValue, encodeStruct, encodeStruct]
        rcases e1 : encodeFields fvs l1 true true with er1 | b1 <;>
          rcases e2 : encodeFields fvs l2 false true with er2 | b2 <;>
            rw [e1, e2] at hIH <;> simp [stripResult] at hIH <;> simp [stripResult]
        · exact hIH
        · simp [stripWSSemi_cons, stripWSSemi_append, stripWSSemi_indent, hIH, isSpaceCh_nl, stripWSSemi_sep]
      | .map es =>
        have hlt : sizeOf es < n := by
          have : sizeOf (GoVal.map es) = 1 + sizeOf es := by simp
          omega
        have hIH := (IH (sizeOf es) hlt).2.2.1 es (Nat.le_refl _) l1 l2 true true
        rw [encodeValue, encodeValue, encodeMap, encodeMap]
        rcases e1 : encodeMapEntries es l1 true true with er1 | b1 <;>
          rcases e2 : encodeMapEntries es l2 false true with er2 | b2 <;>
            rw [e1, e2] at hIH <;> simp [stripResult] at hIH <;> simp [stripResult]
        · exact hIH
        · simp [stripWSSemi_cons, stripWSSemi_append, stripWSSemi_indent, hIH, isSpaceCh_nl, stripWSSemi_sep]
      | .slice shdr es =>
        have hlt : sizeOf es < n := by
          have : sizeOf (GoVal.slice shdr es) = 1 + sizeOf shdr + sizeOf es := by
            simp
          omega
        rw [encodeValue, encodeValue, encodeSlice.eq_def, encodeSlice.eq_def]
        by_cases hemp : es.isEmpty
        · simp [hemp]
        · simp only [hemp, Bool.false_eq_true, if_false]
          match shdr with
          | some hdr => simp
          | none =>
            have hIH := (IH (sizeOf es) hlt).2.2.2 es (Nat.le_refl _) l1 l2 true
            rcases e1 : encodeListElems es l1 true true with er1 | b1 <;>
              rcases e2 : encodeListElems es l2 false true with er2 | b2 <;>
                rw [e1, e2] at hIH <;> simp [stripResult] at hIH <;> simp [stripResult]
            · exact hIH
            · simp [stripWSSemi_cons, stripWSSemi_append, hIH, isSpaceCh_nl, stripWSSemi_sep]
    · intro fvs hv l1 l2 f1 f2
      match fvs with
      | [] => rw [encodeFields, encodeFields]
      | (k, v) :: r =>
        have hlv : sizeOf v < n := by
          have : sizeOf ((k, v) :: r) = 1 + (1 + sizeOf k + sizeOf v) + sizeOf r := by
            simp
          omega
        have hlr : sizeOf r < n := by
          have : sizeOf ((k, v) :: r) = 1 + (1 + sizeOf k + sizeOf v) + sizeOf r := by
            simp
          omega
        rw [encodeFields, encodeFields]
        by_cases hz : isZeroValue v
        · simp only [hz, if_true]
          have hIH := (IH (sizeOf r) hlr).2.1 r (Nat.le_refl _) l1 l2 false false
          rcases e1 : encodeFields r l1 true false with er1 | b1 <;>
            rcases e2 : encodeFields r l2 false false with er2 | b2 <;>
              rw [e1, e2] at hIH <;> simp [stripResult] at hIH <;> simp [stripResult]
          · exact hIH
          · simp [stripWSSemi_cons, stripWSSemi_append, stripWSSemi_indent, hIH, isSpaceCh_nl, stripWSSemi_sep]
        · simp only [hz, Bool.false_eq_true, if_false]
          have hIHv := (IH (sizeOf v) hlv).1 v (Nat.le_refl _) (l1 + 1) (l2 + 1)
          have hIHr := (IH (sizeOf r) hlr).2.1 r (Nat.le_refl _) l1 l2 false false
          rcases ev1 : encodeValue v (l1 + 1) true with erv1 | bv1 <;>
            rcases ev2 : encodeValue v (l2 + 1) false with erv2 | bv2 <;>
              rw [ev1, ev2] at hIHv <;> simp [stripResult] at hIHv <;> simp [stripResult]
          · exact hIHv
          · rcases e1 : encodeFields r l1 true false with er1 | b1 <;>
              rcases e2 : encodeFields r l2 false false with er2 | b2 <;>
                rw [e1, e2] at hIHr <;> simp [stripResult] at hIHr <;> simp [stripResult]
            · exact hIHr
            · simp [stripWSSemi_cons, stripWSSemi_append, stripWSSemi_indent, hIHv, hIHr, isSpaceCh_nl, stripWSSemi_sep]
    · intro es hv l1 l2 f1 f2
      match es with
      | [] => rw [encodeMapEntries, encodeMapEntries]
      | (k, v) :: r =>
        have hlv : sizeOf v < n := by
          have : sizeOf ((k, v) :: r) = 1 + (1 + sizeOf k + sizeOf v) + sizeOf r := by
            simp
          omega
        have hlr : sizeOf r < n := by
          have : sizeOf ((k, v) :: r) = 1 + (1 + sizeOf k + sizeOf v) + sizeOf r := by
            simp
          omega
        rw [encodeMapEntries, encodeMapEntries]
        by_cases hz : isZeroValue v
        · simp only [hz, if_true]
          have hIH := (IH (sizeOf r) hlr).2.2.1 r (Nat.le_refl _) l1 l2 false false
          rcases e1 : encodeMapEntries r l1 true false with er1 | b1 <;>
            rcases e2 : encodeMapEntries r l2 false false with er2 | b2 <;>
              rw [e1, e2] at hIH <;> simp [stripResult] at hIH <;> simp [stripResult]
          · exact hIH
          · simp [stripWSSemi_cons, stripWSSemi_append, stripWSSemi_indent, hIH, isSpaceCh_nl, stripWSSemi_sep]
        · simp only [hz, Bool.false_eq_true, if_false]
          have hIHv := (IH (sizeOf v) hlv).1 v (Nat.le_refl _) (l1 + 1) (l2 + 1)
          have hIHr := (IH (sizeOf r) hlr).2.2.1 r (Nat.le_refl _) l1 l2 false false
          rcases ev1 : encodeValue v (l1 + 1) true with erv1 | bv1 <;>
            rcases ev2 : encodeValue v (l2 + 1) false with erv2 | bv2 <;>
              rw [ev1, ev2] at hIHv <;> simp [stripResult] at hIHv <;> simp [stripResult]
          · exact hIHv
          · rcases e1 : encodeMapEntries r l1 true false with er1 | b1 <;>
              rcases e2 : encodeMapEntries r l2 false false with er2 | b2 <;>
                rw [e1, e2] at hIHr <;> simp [stripResult] at hIHr <;> simp [stripResult]
            · exact hIHr
            · simp [stripWSSemi_cons, stripWSSemi_append, stripWSSemi_indent, hIHv, hIHr, isSpaceCh_nl, stripWSSemi_sep]
    · intro es hv l1 l2 f
      match es with
      | [] => rw [encodeListElems, encodeListElems]
      | v :: r =>
        have hlv : sizeOf v < n := by
          have : sizeOf (v :: r) = 1 + sizeOf v + sizeOf r := by simp
          omega
        have hlr : sizeOf r < n := by
          have : sizeOf (v :: r) = 1 + sizeOf v + sizeOf r := by simp
          omega
        rw [encodeListElems, encodeListElems]
        have hIHv := (IH (sizeOf v) hlv).1 v (Nat.le_refl _) l1 l2
        have hIHr := (IH (sizeOf r) hlr).2.2.2 r (Nat.le_refl _) l1 l2 false
        rcases ev1 : encodeValue v l1 true with erv1 | bv1 <;>
          rcases ev2 : encodeValue v l2 false with erv2 | bv2 <;>
            rw [ev1, ev2] at hIHv <;> simp [stripResult] at hIHv <;> simp [stripResult]
        · exact hIHv
        · rcases e1 : encodeListElems r l1 true false with er1 | b1 <;>
            rcases e2 : encodeListElems r l2 false false with er2 | b2 <;>
              rw [e1, e2] at hIHr <;> simp [stripResult] at hIHr <;> simp [stripResult]
          · exact hIHr
          · simp [stripWSSemi_cons, stripWSSemi_append, hIHv, hIHr, isSpaceCh_nl, stripWSSemi_sep]

/-- C4 counterexample: compact and indented outputs do NOT agree after
deleting only whitespace.  For the one-field record `{a=1}`, the indented
mode terminates the entry with a semicolon that compact mode omits, and
`;` is not whitespace. -/
theorem c4_counterexample :
    Marshal (.struct [("a", .int 1)]) = .ok "\x7ba=1\x7d".data ∧
    MarshalBeautify (.struct [("a", .int 1)]) = .ok "\x7b\na=1;\n\x7d".data ∧
    stripWS "\x7ba=1\x7d".data ≠ stripWS "\x7b\na=1;\n\x7d".data := by
  refine ⟨?_, ?_, by decide⟩
  · simp [Marshal, marshalWithCompact, encodeValue, encodeStruct, encodeFields,
      isZeroValue, formatInt, natDigits, natDigitsAux, indent, lbrace, rbrace]
  · simp [MarshalBeautify, marshalWithCompact, encodeValue, encodeStruct,
      encodeFields, isZeroValue, formatInt, natDigits, natDigitsAux, indent,
      lbrace, rbrace]

/-- C4 amended: for every encodable value, the compact output of `Marshal`
and the indented output of `MarshalBeautify` agree once all whitespace AND
semicolons are deleted (the indented mode additionally terminates each
entry with `;`, which the compact mode omits after the last entry; `;` is
an optional terminator for the decoder); content and token order are
otherwise identical, and the two modes fail identically. -/
theorem c4_modes_agree_amended :
    ∀ v : GoVal, stripResult (Marshal v) = stripResult (MarshalBeautify v) := by
  intro v
  have hmain := (stripEnc_aux (sizeOf v)).1 v (Nat.le_refl _)
  rw [Marshal, MarshalBeautify]
  match v with
  | .struct fvs => exact hmain 0 0
  | .map es => exact hmain 0 0
  | .str s =>
    rw [marshalWithCompact, marshalWithCompact]
    · have h := hmain 1 1
      rcases e1 : encodeValue (.str s) 1 true with er1 | b1 <;>
        rcases e2 : encodeValue (.str s) 1 false with er2 | b2 <;>
          rw [e1, e2] at h <;> simp [stripResult] at h <;> simp [stripResult]
      · exact h
      · simp [stripWSSemi_cons, stripWSSemi_append, stripWSSemi_indent, h,
          isSpaceCh_nl, isSpaceCh_space]
    all_goals simp
  | .int m =>
    rw [marshalWithCompact, marshalWithCompact]
    · have h := hmain 1 1
      rcases e1 : encodeValue (.int m) 1 true with er1 | b1 <;>
        rcases e2 : encodeValue (.int m) 1 false with er2 | b2 <;>
          rw [e1, e2] at h <;> simp [stripResult] at h <;> simp [stripResult]
      · exact h
      · simp [stripWSSemi_cons, stripWSSemi_append, stripWSSemi_indent, h,
          isSpaceCh_nl, isSpaceCh_space]
    all_goals simp
  | .bool b =>
    rw [marshalWithCompact, marshalWithCompact]
    · have h := hmain 1 1
      rcases e1 : encodeValue (.bool b) 1 true with er1 | b1 <;>
        rcases e2 : encodeValue (.bool b) 1 false with er2 | b2 <;>
          rw [e1, e2] at h <;> simp [stripResult] at h <;> simp [stripResult]
      · exact h
      · simp [stripWSSemi_cons, stripWSSemi_append, stripWSSemi_indent, h,
          isSpaceCh_nl, isSpaceCh_space]
    all_goals simp
  | .slice shdr es =>
    rw [marshalWithCompact, marshalWithCompact]
    · have h := hmain 1 1
      rcases e1 : encodeValue (.slice shdr es) 1 true with er1 | b1 <;>
        rcases e2 : encodeValue (.slice shdr es) 1 false with er2 | b2 <;>
          rw [e1, e2] at h <;> simp [stripResult] at h <;> simp [stripResult]
      · exact h
      · simp [stripWSSemi_cons, stripWSSemi_append, stripWSSemi_indent, h,
          isSpaceCh_nl, isSpaceCh_space]
    all_goals simp

/-- C7: an unresolved key while decoding a record is never an error.
First conjunct: the structural skip (`skipValue`) is a total function —
every path of the source returns nil — that only consumes input forward
within bounds.  Remaining conjuncts: a document whose unknown keys carry
one balanced value of every shape (a nested `{}` object with depth, a
nested `[]` list, a `()` table, a quoted string, and a bare token)
decodes successfully and yields exactly the same record as the document
with the unknown pairs removed: the skipped values are consumed
uninterpreted, the decoder continues with the following pairs, and the
destination's fields are unaffected. -/
theorem c7_unknown_key_skipped :
    (∀ p : Parser, p.pos ≤ p.src.length →
      (skipValue p).src = p.src ∧ p.pos ≤ (skipValue p).pos ∧
        (skipValue p).pos ≤ p.src.length) ∧
    Unmarshal ("\x7bfoo=\x7ba=1;b=[2]\x7d;name=\x22J\x22;bar=[1,[2],3];" ++
        "baz=(x,y:1,2;);qux=\x22s\x22;quux=42\x7d").data
      personTy (zeroVal personTy) = .ok (personMk "J" 0 "") ∧
    Unmarshal "\x7bname=\x22J\x22\x7d".data personTy (zeroVal personTy) =
      .ok (personMk "J" 0 "") :=
  ⟨fun p hp => skipValue_props p hp, rfl, rfl⟩

/-- C7 witness: the totality conjunct at a concrete cursor. -/
theorem c7_unknown_key_skipped_witness :
    (skipValue ⟨"(a)b".data, 0⟩).src = "(a)b".data ∧
      0 ≤ (skipValue ⟨"(a)b".data, 0⟩).pos ∧
      (skipValue ⟨"(a)b".data, 0⟩).pos ≤ "(a)b".data.length :=
  c7_unknown_key_skipped.1 ⟨"(a)b".data, 0⟩ (by simp)

/-- C9: an integer destination parses the next bare token with
`strconv.ParseFloat` and stores the truncation toward zero.  First
conjunct: for every whole part `n` and every nonempty run of fraction
digits, the token `n.fraction` decodes WITHOUT error into an integer
destination as exactly `n` (regardless of the destination's prior value).
Second conjunct: the full pipeline decodes `{age=12.7}` into a record
with integer field `age` as 12.  (`parseNumber` is modelled with exact
rationals in place of `float64`; on these inputs the truncation agrees.) -/
theorem c9_int_destination_truncates :
    (∀ (n : Nat) (fds post src : List Char) (pos g : Nat) (tgt : GoVal),
        fds ≠ [] → (∀ c ∈ fds, isDigitCh c = true) →
        src.drop pos = natDigits n ++ '.' :: fds ++ post →
        (post = [] ∨ ∃ c t, post = c :: t ∧ isBareDelim c = true) →
        1 ≤ g →
        decodeValue g .int tgt ⟨src, pos⟩ =
          .ok (.int n, ⟨src, pos + ((natDigits n).length + (1 + fds.length))⟩)) ∧
    Unmarshal "\x7bage=12.7\x7d".data personTy (zeroVal personTy) =
      .ok (.struct [("name", .str ""), ("age", .int 12), ("addr", .str "")]) := by
  refine ⟨?_, rfl⟩
  intro n fds post src pos g tgt hne hall hrest hpost hg
  obtain ⟨g, rfl⟩ : ∃ g', g = g' + 1 := ⟨g - 1, by omega⟩
  obtain ⟨hv, hdne, hdall⟩ := natDigits_spec n
  obtain ⟨c0, r0, hd⟩ : ∃ c0 r0, natDigits n = c0 :: r0 := by
    cases hnd : natDigits n with
    | nil => exact absurd hnd hdne
    | cons c0 r0 => exact ⟨c0, r0, rfl⟩
  have hskip : Parser.skipSpaces ⟨src, pos⟩ = ⟨src, pos⟩ := by
    apply skipSpaces_id
    right
    refine ⟨c0, r0 ++ ('.' :: fds ++ post), ?_, ?_⟩
    · rw [rest_mk, hrest, hd]
      simp
    · exact not_space_of_not_delim (isDigit_not_delim (hdall c0 (by rw [hd]; simp)))
  have htok : (⟨src, pos⟩ : Parser).readBareToken =
      (natDigits n ++ '.' :: fds,
        ⟨src, pos + (natDigits n ++ '.' :: fds).length⟩) := by
    apply readBareToken_parses (q := post)
    · rw [rest_mk, hrest]
    · simp
    · intro c hc
      rcases List.mem_append.mp hc with hc | hc
      · exact isDigit_not_delim (hdall c hc)
      · rcases List.mem_cons.mp hc with rfl | hc
        · decide
        · exact isDigit_not_delim (hall c hc)
    · exact hpost
  have hq := goParseFloat_digits_dot (a := natDigits n) (b := fds) hdne hne hdall hall
  have htr : goTrunc (mkRat
      ((digitsVal (natDigits n) * 10 ^ fds.length + digitsVal fds : Nat) : Int)
      (10 ^ fds.length)) = ((n : Nat) : Int) := by
    rw [goTrunc_mixed (digitsVal (natDigits n)) (digitsVal fds) (10 ^ fds.length)
      (by positivity) (digitsVal_lt fds hall), hv]
  rw [decodeValue]
  simp only [hskip, parseNumber, htok]
  rw [if_neg (by simp)]
  rw [hq]
  push_cast at htr
  simp [htr, List.length_append]
  omega

/-- C9 witness: the general conjunct at the token `3.25` followed by a
semicolon. -/
theorem c9_int_destination_truncates_witness :
    decodeValue 1 .int (.bool true) ⟨"3.25;x".data, 0⟩ =
      .ok (.int 3, ⟨"3.25;x".data, 0 + (1 + (1 + 2))⟩) := by
  have h := c9_int_destination_truncates.1 3 ['2', '5'] (';' :: ['x'])
    "3.25;x".data 0 1 (.bool true) (by simp) (by decide) (by decide)
    (Or.inr ⟨';', ['x'], rfl, by decide⟩) (Nat.le_refl 1)
  simpa using h

/-- C8: scanner totality and cursor discipline.  For any cursor within
bounds, `skipSpaces`, `next`, `readBareToken` and `readUntilAny` move the
position monotonically forward, never past the source length, and never
change the source; at end of input `peek` and `next` return the byte-0
sentinel without failing; and `peekAhead` is exactly the truncated
window `take n` of the remaining input. -/
theorem c8_scanner_invariants :
    ∀ p : Parser, p.pos ≤ p.src.length →
      (p.pos ≤ p.skipSpaces.pos ∧ p.skipSpaces.pos ≤ p.src.length ∧
        p.skipSpaces.src = p.src) ∧
      (p.pos ≤ (p.next).2.pos ∧ (p.next).2.pos ≤ p.src.length ∧
        (p.next).2.src = p.src) ∧
      (p.pos ≤ (p.readBareToken).2.pos ∧
        (p.readBareToken).2.pos ≤ p.src.length ∧
        (p.readBareToken).2.src = p.src) ∧
      (∀ seps, p.pos ≤ (p.readUntilAny seps).2.pos ∧
        (p.readUntilAny seps).2.pos ≤ p.src.length ∧
        (p.readUntilAny seps).2.src = p.src) ∧
      (p.eof = true → p.peek = eofByte ∧ p.next = (eofByte, p)) ∧
      (∀ n, p.peekAhead n = (p.src.drop p.pos).take n) := by
  intro p hp
  refine ⟨?_, ?_, ?_, ?_, ?_, ?_⟩
  · have := skipSpacesAux_props (p.src.length + 1 - p.pos) p hp
    exact ⟨this.2.1, this.2.2, this.1⟩
  · by_cases he : p.eof
    · simp [Parser.next, he, hp]
    · have hlt : p.pos < p.src.length := by
        simp [Parser.eof] at he
        omega
      simp [Parser.next, he]
      omega
  · have h1 := skipSpacesAux_props (p.src.length + 1 - p.pos) p hp
    set p1 := skipSpacesAux (p.src.length + 1 - p.pos) p with hp1
    have h2 := readBareTokenAux_props (p1.src.length + 1 - p1.pos) p1 [] (h1.1 ▸ h1.2.2)
    refine ⟨?_, ?_, ?_⟩
    · exact Nat.le_trans h1.2.1 (by
        simpa [Parser.readBareToken, Parser.skipSpaces, hp1.symm, h1.1] using h2.2.1)
    · simpa [Parser.readBareToken, Parser.skipSpaces, hp1.symm, h1.1] using h2.2.2
    · simpa [Parser.readBareToken, Parser.skipSpaces, hp1.symm, h1.1] using h2.1
  · intro seps
    have := readUntilAnyAux_props seps (p.src.length + 1 - p.pos) p [] hp
    exact ⟨by simpa [Parser.readUntilAny] using this.2.1,
      by simpa [Parser.readUntilAny] using this.2.2,
      by simpa [Parser.readUntilAny] using this.1⟩
  · intro he
    exact ⟨by simp [Parser.peek, he], by simp [Parser.next, he]⟩
  · intro n
    rw [Parser.peekAhead]
    split
    · next hlen =>
      exact (List.take_of_length_le (by simp; omega)).symm
    · rfl

/-- C8 witness: the invariants at a concrete in-bounds cursor. -/
theorem c8_scanner_invariants_witness :
    (⟨" a".data, 0⟩ : Parser).pos ≤ (⟨" a".data, 0⟩ : Parser).skipSpaces.pos ∧
    (⟨" a".data, 0⟩ : Parser).peekAhead 5 =
      ((⟨" a".data, 0⟩ : Parser).src.drop 0).take 5 :=
  ⟨(c8_scanner_invariants ⟨" a".data, 0⟩ (by simp)).1.1,
    (c8_scanner_invariants ⟨" a".data, 0⟩ (by simp)).2.2.2.2.2 5⟩

/-- C10 witness: the escape conjunct at the character `z`. -/
theorem c10_unknown_escape_witness :
    parseString ⟨[dq, bsl, 'z', dq], 0⟩ = (.ok ['z'], ⟨[dq, bsl, 'z', dq], 4⟩) :=
  c10_unknown_escape_drops_backslash.1 'z' (by decide) (by decide) (by decide)
    (by decide) (by decide)

/-! ### Round-trip toolkit: generic helpers -/

theorem peekAhead_take (src : List Char) (pos n : Nat) :
    (⟨src, pos⟩ : Parser).peekAhead n = (src.drop pos).take n := by
  rw [Parser.peekAhead]
  split
  · next h =>
    refine (List.take_of_length_le ?_).symm
    simp at h ⊢
    omega
  · rfl

theorem mk_data (s : String) : String.mk s.data = s := rfl

theorem string_data_eq {a b : String} (h : a.data = b.data) : a = b :=
  (mk_data a).symm.trans ((congrArg String.mk h).trans (mk_data b))

theorem headOk_cons {c : Char} {r : List Char} (h1 : isSpaceCh c = false)
    (h2 : c ≠ ';') (h3 : c ≠ rbrace) (h4 : c ≠ ',') (h5 : c ≠ ']')
    (h6 : c ≠ ')') : headOk (c :: r) := by
  intro d t2 hdt
  injection hdt with hc ht
  subst hc
  exact ⟨h1, h2, h3, h4, h5, h6⟩

theorem headOk_of_not_delim {c : Char} {r : List Char}
    (h : isBareDelim c = false) : headOk (c :: r) := by
  refine headOk_cons (not_space_of_not_delim h) ?_ ?_ ?_ ?_ ?_ <;>
    (rintro rfl; revert h; decide)

theorem sepAfter_semi (t : List Char) : SepAfter (';' :: t) :=
  Or.inr ⟨';', t, rfl, by decide, by decide, by decide⟩

theorem sepAfter_rbrace (t : List Char) : SepAfter (rbrace :: t) :=
  Or.inr ⟨rbrace, t, rfl, by decide, by decide, by decide⟩

theorem sepAfter_comma (t : List Char) : SepAfter (',' :: t) :=
  Or.inr ⟨',', t, rfl, by decide, by decide, by decide⟩

theorem sepAfter_rbrack (t : List Char) : SepAfter (']' :: t) :=
  Or.inr ⟨']', t, rfl, by decide, by decide, by decide⟩

theorem sepAfter_rparen (t : List Char) : SepAfter (')' :: t) :=
  Or.inr ⟨')', t, rfl, by decide, by decide, by decide⟩

theorem take3_ne_of_second (a b : Char) (l : List Char) (h : b ≠ dq) :
    ¬ (a :: b :: l).take 3 = tripleQ := by
  cases l with
  | nil =>
    intro hcontra
    simp [tripleQ] at hcontra
  | cons x xs =>
    intro hcontra
    simp [tripleQ] at hcontra
    exact h hcontra.2.1

/-- A `Clean` value reported zero by `isZeroValue` is the type's zero
value (the encoder's zero-suppressed fields are exactly the grounded
ones). -/
theorem clean_zero {ty : GoTy} {v : GoVal} (h : Clean ty v)
    (hz : isZeroValue v = true) : v = zeroVal ty := by
  cases h with
  | str s hs =>
    simp only [isZeroValue, beq_iff_eq] at hz
    have hd : s.data = [] := List.length_eq_zero.mp hz
    rw [zeroVal, ← mk_data s, hd]
  | int n hn =>
    simp only [isZeroValue, beq_iff_eq] at hz
    rw [zeroVal, hz]
  | bool b =>
    simp only [isZeroValue, Bool.not_eq_true'] at hz
    rw [zeroVal, hz]
  | struct flds fvs hkeys hlen hk hv => simp [isZeroValue] at hz
  | sliceNil el => rw [zeroVal]
  | sliceList el es hns hne hes =>
    simp only [isZeroValue, beq_iff_eq] at hz
    exact absurd (List.length_eq_zero.mp hz) hne
  | sliceTable eflds es hne hkeys hrows =>
    simp only [isZeroValue, beq_iff_eq] at hz
    exact absurd (List.length_eq_zero.mp hz) hne

theorem get?_append_len {α : Type} (pre : List α) (x : α) (suf : List α) :
    (pre ++ x :: suf).get? pre.length = some x := by
  induction pre with
  | nil => rfl
  | cons a r ih => simpa using ih

theorem set_append_len {α : Type} (pre : List α) (x y : α) (suf : List α) :
    (pre ++ x :: suf).set pre.length y = pre ++ y :: suf := by
  induction pre with
  | nil => rfl
  | cons a r ih =>
    show a :: ((r ++ x :: suf).set r.length y) = a :: (r ++ y :: suf)
    rw [ih]

theorem resolvedKeys_append (a b : List (String × GoTy)) :
    resolvedKeys (a ++ b) = resolvedKeys a ++ resolvedKeys b := by
  simp [resolvedKeys]

theorem fieldMapLookup_none {flds : List (String × GoTy)} {key : List Char}
    (h : ∀ k ∈ resolvedKeys flds, k.data ≠ key) :
    fieldMapLookup flds key = none := by
  induction flds with
  | nil => rfl
  | cons a r ih =>
    obtain ⟨k0, t0⟩ := a
    rw [fieldMapLookup]
    rw [ih fun k hk => h k (by simp [resolvedKeys] at hk ⊢; exact Or.inr hk)]
    rw [if_neg (h k0 (by simp [resolvedKeys]))]

/-- With pairwise-distinct resolved keys, the last-wins field map sends the
key at index `i` back to `i`. -/
theorem fieldMapLookup_get? {flds : List (String × GoTy)}
    (hnd : (resolvedKeys flds).Nodup) {i : Nat} {k : String} {t : GoTy}
    (h : flds.get? i = some (k, t)) :
    fieldMapLookup flds k.data = some i := by
  induction flds generalizing i with
  | nil => simp at h
  | cons a r ih =>
    obtain ⟨k0, t0⟩ := a
    rw [show resolvedKeys ((k0, t0) :: r) = k0 :: resolvedKeys r from rfl,
      List.nodup_cons] at hnd
    have hnd2 : (resolvedKeys r).Nodup ∧ k0 ∉ resolvedKeys r := ⟨hnd.2, hnd.1⟩
    cases i with
    | zero =>
      simp at h
      obtain ⟨rfl, rfl⟩ := h
      rw [fieldMapLookup,
        fieldMapLookup_none fun k2 hk2 h2 => hnd2.2 (by
          rwa [string_data_eq h2] at hk2)]
      simp
    | succ j =>
      have hr : r.get? j = some (k, t) := by simpa using h
      rw [fieldMapLookup, ih hnd2.1 hr]

theorem fieldTyAt_mid (pre : List (String × GoTy)) (k : String) (t : GoTy)
    (suf : List (String × GoTy)) :
    fieldTyAt (pre ++ (k, t) :: suf) pre.length = t := by
  rw [fieldTyAt, get?_append_len]
  rfl

theorem forall2_of_get {α β : Type} {R : α → β → Prop} :
    ∀ (l1 : List α) (l2 : List β), l1.length = l2.length →
      (∀ i (h1 : i < l1.length) (h2 : i < l2.length),
        R (l1.get ⟨i, h1⟩) (l2.get ⟨i, h2⟩)) →
      List.Forall₂ R l1 l2 := by
  intro l1
  induction l1 with
  | nil =>
    intro l2 hlen _
    cases l2 with
    | nil => exact List.Forall₂.nil
    | cons b r => simp at hlen
  | cons a r1 ih =>
    intro l2 hlen hget
    cases l2 with
    | nil => simp at hlen
    | cons b r2 =>
      refine List.Forall₂.cons (hget 0 (by simp) (by simp)) ?_
      refine ih r2 (by simpa using hlen) ?_
      intro i h1 h2
      exact hget (i + 1) (by simpa using h1) (by simpa using h2)

/-! ### Plain-quoted strings round-trip through `parseString` -/

theorem goQuoteChar_shape (c : Char) (h : quoteOkChar c) :
    (goQuoteChar c = [c] ∧ (c == bsl) = false ∧ (c == dq) = false) ∨
    (c = dq ∧ goQuoteChar c = [bsl, dq]) ∨
    (c = bsl ∧ goQuoteChar c = [bsl, bsl]) ∨
    (c = '\n' ∧ goQuoteChar c = [bsl, 'n']) ∨
    (c = '\r' ∧ goQuoteChar c = [bsl, 'r']) ∨
    (c = '\t' ∧ goQuoteChar c = [bsl, 't']) := by
  rcases h with rfl | rfl | rfl | ⟨h32, h126⟩
  · exact Or.inr (Or.inr (Or.inr (Or.inr (Or.inr ⟨rfl, by decide⟩))))
  · exact Or.inr (Or.inr (Or.inr (Or.inr (Or.inl ⟨rfl, by decide⟩))))
  · exact Or.inr (Or.inr (Or.inr (Or.inl ⟨rfl, by decide⟩)))
  · by_cases hdq : c = dq
    · subst hdq
      exact Or.inr (Or.inl ⟨rfl, by decide⟩)
    by_cases hbs : c = bsl
    · subst hbs
      exact Or.inr (Or.inr (Or.inl ⟨rfl, by decide⟩))
    left
    have hn : c ≠ '\n' := by rintro rfl; exact absurd h32 (by decide)
    have hr : c ≠ '\r' := by rintro rfl; exact absurd h32 (by decide)
    have ht : c ≠ '\t' := by rintro rfl; exact absurd h32 (by decide)
    refine ⟨?_, by simp [hbs], by simp [hdq]⟩
    rw [goQuoteChar]
    simp only [beq_iff_eq, if_neg hdq, if_neg hbs, if_neg hn, if_neg hr,
      if_neg ht]
    rw [if_pos]
    simp only [Bool.and_eq_true, decide_eq_true_eq]
    exact ⟨h32, h126⟩

theorem goQuoteChar_head (c : Char) (h : quoteOkChar c) :
    ∃ d t, goQuoteChar c = d :: t ∧ d ≠ dq := by
  rcases goQuoteChar_shape c h with ⟨hq, _, hdq⟩ | ⟨rfl, hq⟩ | ⟨rfl, hq⟩ |
    ⟨rfl, hq⟩ | ⟨rfl, hq⟩ | ⟨rfl, hq⟩
  · exact ⟨c, [], hq, by simpa using hdq⟩
  all_goals exact ⟨bsl, _, hq, by decide⟩

/-- The escape-processing loop of `parseString` inverts `strconv.Quote`'s
per-character encoding on `quoteOkChar` characters, consuming exactly the
quoted text and the closing quote. -/
theorem parseStringAux_quote :
    ∀ (s : List Char) (p : Parser) (acc post : List Char) (f : Nat),
      p.rest = s.flatMap goQuoteChar ++ [dq] ++ post →
      (∀ c ∈ s, quoteOkChar c) →
      (s.flatMap goQuoteChar).length + 1 ≤ f →
      parseStringAux f p acc =
        (.ok (acc.reverse ++ s),
          ⟨p.src, p.pos + ((s.flatMap goQuoteChar).length + 1)⟩) := by
  intro s
  induction s with
  | nil =>
    intro p acc post f hrest _ hf
    obtain ⟨f, rfl⟩ : ∃ g, f = g + 1 := ⟨f - 1, by omega⟩
    have h1 : p.rest = dq :: post := by simpa using hrest
    rw [parseStringAux, if_neg (by simp [eof_false_of_rest h1]),
      next_of_rest h1]
    simp only
    rw [if_neg (by decide), if_pos (by decide)]
    simp

  | cons c cs ih =>
    intro p acc post f hrest hok hf
    have hcm := hok c (by simp)
    have hlen : ((c :: cs).flatMap goQuoteChar).length =
        (goQuoteChar c).length + (cs.flatMap goQuoteChar).length := by
      simp
    obtain ⟨f, rfl⟩ : ∃ g, f = g + 1 := ⟨f - 1, by omega⟩
    rcases goQuoteChar_shape c hcm with ⟨hq, hbs, hdq⟩ | hesc
    · -- plain printable character, emitted verbatim
      have h1 : p.rest = c :: (cs.flatMap goQuoteChar ++ [dq] ++ post) := by
        rw [hrest, List.flatMap_cons, hq]
        simp
      have hf2 : (cs.flatMap goQuoteChar).length + 1 ≤ f := by
        rw [hlen, hq] at hf
        simp only [List.length_cons, List.length_nil] at hf
        omega
      rw [parseStringAux, if_neg (by simp [eof_false_of_rest h1]),
        next_of_rest h1]
      simp only
      rw [if_neg (by simp [hbs]), if_neg (by simp [hdq])]
      rw [ih ⟨p.src, p.pos + 1⟩ (c :: acc) post f (advance_rest h1)
        (fun x hx => hok x (by simp [hx])) hf2]
      rw [hlen, hq]
      simp
      omega
    · -- one of the five escaped characters
      obtain ⟨e, hq, hec⟩ : ∃ e, goQuoteChar c = [bsl, e] ∧
          (if e == 'n' then '\n'
            else if e == 'r' then '\r'
            else if e == 't' then '\t'
            else if e == bsl then bsl
            else if e == dq then dq
            else e) = c := by
        rcases hesc with ⟨rfl, hq⟩ | ⟨rfl, hq⟩ | ⟨rfl, hq⟩ | ⟨rfl, hq⟩ |
          ⟨rfl, hq⟩
        · exact ⟨dq, hq, by decide⟩
        · exact ⟨bsl, hq, by decide⟩
        · exact ⟨'n', hq, by decide⟩
        · exact ⟨'r', hq, by decide⟩
        · exact ⟨'t', hq, by decide⟩
      have h1 : p.rest = bsl :: e :: (cs.flatMap goQuoteChar ++ [dq] ++ post) := by
        rw [hrest, List.flatMap_cons, hq]
        simp
      have hf2 : (cs.flatMap goQuoteChar).length + 1 ≤ f := by
        rw [hlen, hq] at hf
        simp only [List.length_cons, List.length_nil] at hf
        omega
      rw [parseStringAux, if_neg (by simp [eof_false_of_rest h1]),
        next_of_rest h1]
      simp only
      rw [if_pos (by simp)]
      have h2 : (⟨p.src, p.pos + 1⟩ : Parser).rest =
          e :: (cs.flatMap goQuoteChar ++ [dq] ++ post) := advance_rest h1
      rw [if_neg (by simp [eof_false_of_rest h2]), next_of_rest h2]
      simp only
      rw [hec]
      rw [ih ⟨p.src, p.pos + 2⟩ (c :: acc) post f (advance_rest h2)
        (fun x hx => hok x (by simp [hx])) hf2]
      rw [hlen, hq]
      simp
      omega

/-- `parseString` on `strconv.Quote` output of a `quoteOkChar` string:
returns the original string, consuming exactly the quoted literal. -/
theorem parseString_quote {p : Parser} {s post : List Char}
    (hrest : p.rest = goQuote s ++ post)
    (hok : ∀ c ∈ s, quoteOkChar c) :
    parseString p = (.ok s, ⟨p.src, p.pos + (goQuote s).length⟩) := by
  have h1 : p.rest = dq :: (s.flatMap goQuoteChar ++ [dq] ++ post) := by
    rw [hrest, goQuote]
    simp
  rw [parseString, next_of_rest h1]
  simp only
  rw [if_neg (by simp)]
  have h2 := advance_rest h1
  have hfuel : (s.flatMap goQuoteChar).length + 1 ≤
      p.src.length + 1 - (p.pos + 1) := by
    have hl := congrArg List.length h2
    rw [rest_length] at hl
    simp only [List.length_append, List.length_cons, List.length_nil] at hl
    omega
  rw [parseStringAux_quote s ⟨p.src, p.pos + 1⟩ [] post _ h2 hok hfuel]
  simp [goQuote]
  omega

/-! ### Triple-quoted strings and `parseStringValue` dispatch -/

/-- The fence scan of `parseTripleString`: on a `tripleSafe` body it stops
exactly at the closing `\x22\x22\x22` appended by the encoder, returning the
verbatim body. -/
theorem parseTripleAux_scan :
    ∀ (n : Nat) (src post s : List Char) (start k f : Nat),
      src.drop start = s ++ tripleQ ++ post →
      tripleSafe s →
      k + n = s.length →
      n + 1 ≤ f →
      parseTripleAux start f ⟨src, start + k⟩ =
        (.ok s, ⟨src, start + s.length + 3⟩) := by
  intro n
  induction n with
  | zero =>
    intro src post s start k f hdrop hsafe hk hf
    have hks : k = s.length := by omega
    subst hks
    obtain ⟨f, rfl⟩ : ∃ g, f = g + 1 := ⟨f - 1, by omega⟩
    have hL : src.length - start = s.length + 3 + post.length := by
      have := congrArg List.length hdrop
      simp only [List.length_drop, List.length_append, tripleQ,
        List.length_cons, List.length_nil] at this
      omega
    have heof : (⟨src, start + s.length⟩ : Parser).eof = false := by
      simp [Parser.eof]
      omega
    have hrest : src.drop (start + s.length) = tripleQ ++ post := by
      rw [← List.drop_drop, hdrop, List.append_assoc, List.drop_left]
    have hcond : ((⟨src, start + s.length⟩ : Parser).peekAhead 3 ==
        tripleQ) = true := by
      rw [peekAhead_take, hrest]
      simp [tripleQ]
    rw [parseTripleAux, if_neg (by simp [heof]), if_pos hcond]
    have hdt : (src.drop start).take s.length = s := by
      rw [hdrop, List.append_assoc]
      exact List.take_left' rfl
    simp [hdt]
  | succ n ih =>
    intro src post s start k f hdrop hsafe hk hf
    obtain ⟨f, rfl⟩ : ∃ g, f = g + 1 := ⟨f - 1, by omega⟩
    have hL : src.length - start = s.length + 3 + post.length := by
      have := congrArg List.length hdrop
      simp only [List.length_drop, List.length_append, tripleQ,
        List.length_cons, List.length_nil] at this
      omega
    have heof : (⟨src, start + k⟩ : Parser).eof = false := by
      simp [Parser.eof]
      omega
    have hrest : src.drop (start + k) = (s ++ tripleQ ++ post).drop k := by
      rw [← List.drop_drop, hdrop]
    have hx : (s ++ tripleQ ++ post).drop k = (s ++ tripleQ).drop k ++ post := by
      rw [List.drop_append_eq_append_drop,
        show k - (s ++ tripleQ).length = 0 by
          simp only [List.length_append, tripleQ, List.length_cons,
            List.length_nil]
          omega,
        List.drop_zero]
    have hlen2 : 3 ≤ ((s ++ tripleQ).drop k).length := by
      simp only [List.length_drop, List.length_append, tripleQ,
        List.length_cons, List.length_nil]
      omega
    have hpk : ((s ++ tripleQ).drop k ++ post).take 3 =
        ((s ++ tripleQ).drop k).take 3 := by
      rw [List.take_append_eq_append_take,
        show 3 - ((s ++ tripleQ).drop k).length = 0 by omega,
        List.take_zero, List.append_nil]
    have hcond : ((⟨src, start + k⟩ : Parser).peekAhead 3 ==
        tripleQ) = false := by
      rw [peekAhead_take, hrest, hx, hpk]
      simpa using hsafe k (by omega)
    rw [parseTripleAux, if_neg (by simp [heof]), if_neg (by simp [hcond])]
    exact ih src post s start (k + 1) f hdrop hsafe (by omega) (by omega)

/-- `parseTripleString` on an encoder triple-quoted literal with a
`tripleSafe` body. -/
theorem parseTripleString_safe {src post s : List Char} {pos : Nat}
    (hrest : src.drop pos = tripleQ ++ s ++ tripleQ ++ post)
    (hsafe : tripleSafe s) :
    parseTripleString ⟨src, pos⟩ = (.ok s, ⟨src, pos + (s.length + 6)⟩) := by
  have hshape : src.drop pos = tripleQ ++ (s ++ tripleQ ++ post) := by
    rw [hrest]
    simp
  have hpk : (⟨src, pos⟩ : Parser).peekAhead 3 = tripleQ := by
    rw [peekAhead_take, hshape]
    rw [List.take_append_eq_append_take]
    simp [tripleQ]
  have hdrop3 : src.drop (pos + 3) = s ++ tripleQ ++ post := by
    rw [← List.drop_drop, hshape,
      show (3 : Nat) = tripleQ.length from rfl, List.drop_left]
  have hlen : src.length - pos = s.length + 6 + post.length := by
    have := congrArg List.length hshape
    simp only [List.length_drop, List.length_append, tripleQ,
      List.length_cons, List.length_nil] at this
    omega
  rw [parseTripleString, if_neg (by simp [hpk])]
  simp only
  have := parseTripleAux_scan s.length src post s (pos + 3) 0
    (src.length + 1 - (pos + 3)) hdrop3 hsafe (by omega) (by omega)
  rw [show (⟨src, pos + 3⟩ : Parser) = ⟨src, pos + 3 + 0⟩ from rfl]
  rw [this]
  simp
  omega

/-- `parseStringValue` on a plain quoted literal: the triple-quote
lookahead fails (the literal's second byte is never a quote, or the
following separator is not a quote), so the plain-string parser runs. -/
theorem parseStringValue_quote {src q s : List Char} {pos : Nat}
    (hrest : src.drop pos = goQuote s ++ q)
    (hok : ∀ c ∈ s, quoteOkChar c)
    (hsep : SepAfter q) :
    parseStringValue ⟨src, pos⟩ =
      (.ok s, ⟨src, pos + (goQuote s).length⟩) := by
  have hcond : ¬ ((⟨src, pos⟩ : Parser).peekAhead 3 = tripleQ) := by
    cases s with
    | nil =>
      rcases hsep with rfl | ⟨c, t, rfl, _, _, hcdq⟩
      · have hshape : src.drop pos = [dq, dq] := by
          rw [hrest, goQuote]
          simp
        rw [peekAhead_take, hshape]
        decide
      · have hshape : src.drop pos = dq :: dq :: (c :: t) := by
          rw [hrest, goQuote]
          simp
        rw [peekAhead_take, hshape]
        intro hcontra
        simp [tripleQ] at hcontra
        exact hcdq hcontra
    | cons c s2 =>
      obtain ⟨d, t2, hgqc, hd⟩ := goQuoteChar_head c (hok c (by simp))
      have hshape : src.drop pos =
          dq :: d :: (t2 ++ s2.flatMap goQuoteChar ++ [dq] ++ q) := by
        rw [hrest, goQuote, List.flatMap_cons, hgqc]
        simp
      rw [peekAhead_take, hshape]
      exact take3_ne_of_second _ _ _ hd
  have hpeek : (⟨src, pos⟩ : Parser).peek = dq := by
    refine peek_of_rest (t := s.flatMap goQuoteChar ++ [dq] ++ q) ?_
    rw [rest_mk, hrest, goQuote]
    simp
  rw [parseStringValue, if_pos (by simp [hpeek]), if_neg (by simpa using hcond)]
  exact parseString_quote (by rw [rest_mk, hrest]) hok

/-- `parseStringValue` on a triple-quoted literal. -/
theorem parseStringValue_triple {src q s : List Char} {pos : Nat}
    (hrest : src.drop pos = tripleQ ++ s ++ tripleQ ++ q)
    (hsafe : tripleSafe s) :
    parseStringValue ⟨src, pos⟩ =
      (.ok s, ⟨src, pos + (s.length + 6)⟩) := by
  have hshape : src.drop pos = tripleQ ++ (s ++ tripleQ ++ q) := by
    rw [hrest]
    simp
  have hpk : (⟨src, pos⟩ : Parser).peekAhead 3 = tripleQ := by
    rw [peekAhead_take, hshape]
    rw [List.take_append_eq_append_take]
    simp [tripleQ]
  have hpeek : (⟨src, pos⟩ : Parser).peek = dq := by
    refine peek_of_rest (t := dq :: dq :: (s ++ tripleQ ++ q)) ?_
    rw [rest_mk, hshape, tripleQ]
    simp
  rw [parseStringValue, if_pos (by simp [hpeek]), if_pos (by simp [hpk])]
  exact parseTripleString_safe hrest hsafe

/-! ### Numbers and booleans round-trip through the bare-token parsers -/

theorem goParseFloat_neg_digits {ds : List Char} (hne : ds ≠ [])
    (hall : ∀ c ∈ ds, isDigitCh c = true) :
    goParseFloat ('-' :: ds) = some (-(mkRat (digitsVal ds) 1)) := by
  have ht : ds.takeWhile isDigitCh = ds := List.takeWhile_eq_self_iff.mpr hall
  have hd : ds.dropWhile isDigitCh = [] := List.dropWhile_eq_nil_iff.mpr hall
  rw [goParseFloat]
  simp [ht, hd, hne]

/-- `fmt.Sprintf("%d", n)` output: nonempty, free of scanner delimiters, and
read back by `strconv.ParseFloat` as exactly `n`. -/
theorem formatInt_spec (n : Int) :
    formatInt n ≠ [] ∧ (∀ c ∈ formatInt n, isBareDelim c = false) ∧
      goParseFloat (formatInt n) = some ((n : ℚ)) := by
  by_cases hneg : n < 0
  · obtain ⟨hv, hne, hall⟩ := natDigits_spec (-n).toNat
    rw [formatInt, if_pos hneg]
    refine ⟨by simp, ?_, ?_⟩
    · intro c hc
      rcases List.mem_cons.mp hc with rfl | hc
      · decide
      · exact isDigit_not_delim (hall c hc)
    · rw [goParseFloat_neg_digits hne hall, hv]
      congr 1
      rw [Rat.mkRat_one, Int.toNat_of_nonneg (by omega : (0:Int) ≤ -n)]
      push_cast
      ring
  · obtain ⟨hv, hne, hall⟩ := natDigits_spec n.toNat
    rw [formatInt, if_neg hneg]
    refine ⟨hne, fun c hc => isDigit_not_delim (hall c hc), ?_⟩
    rw [goParseFloat_digits hne hall, hv]
    congr 1
    rw [Rat.mkRat_one, Int.toNat_of_nonneg (by omega : (0:Int) ≤ n)]

theorem goTrunc_intCast (n : Int) : goTrunc ((n : ℚ)) = n := by
  rw [goTrunc, Rat.num_intCast, Rat.den_intCast]
  simp [Int.tdiv_one]

theorem parseNumber_formatInt {src post : List Char} {pos : Nat} {n : Int}
    (hrest : src.drop pos = formatInt n ++ post)
    (hpost : post = [] ∨ ∃ c t, post = c :: t ∧ isBareDelim c = true) :
    parseNumber ⟨src, pos⟩ =
      (.ok ((n : ℚ)), ⟨src, pos + (formatInt n).length⟩) := by
  obtain ⟨hne, hnd, hpf⟩ := formatInt_spec n
  have hrb := readBareToken_parses (p := ⟨src, pos⟩)
    (by rw [rest_mk]; exact hrest) hne hnd hpost
  rw [parseNumber, hrb]
  simp only
  rw [if_neg (by simpa using hne), hpf]

theorem goParseInt_formatInt (n : Int) : goParseInt (formatInt n) = some n := by
  by_cases hneg : n < 0
  · obtain ⟨hv, hne, hall⟩ := natDigits_spec (-n).toNat
    rw [formatInt, if_pos hneg, goParseInt]
    rw [if_pos rfl,
      if_pos (by simp [hne, List.all_eq_true.mpr hall]), hv]
    congr 1
    rw [Int.toNat_of_nonneg (by omega : (0:Int) ≤ -n)]
    omega
  · obtain ⟨hv, hne, hall⟩ := natDigits_spec n.toNat
    rw [formatInt, if_neg hneg]
    obtain ⟨c0, r0, hds⟩ : ∃ c0 r0, natDigits n.toNat = c0 :: r0 := by
      cases h : natDigits n.toNat with
      | nil => exact absurd h hne
      | cons c0 r0 => exact ⟨c0, r0, rfl⟩
    have hc0 := hall c0 (by rw [hds]; simp)
    rw [hds, goParseInt]
    rw [if_neg (by rintro rfl; revert hc0; decide),
      if_neg (by rintro rfl; revert hc0; decide),
      if_pos (by rw [← hds]; exact List.all_eq_true.mpr hall)]
    rw [← hds, hv]
    congr 1
    exact Int.toNat_of_nonneg (by omega)

theorem parseBool_enc {src post : List Char} {pos : Nat} {b : Bool}
    (hrest : src.drop pos = (if b then "true".data else "false".data) ++ post)
    (hpost : post = [] ∨ ∃ c t, post = c :: t ∧ isBareDelim c = true) :
    parseBool ⟨src, pos⟩ =
      (.ok b, ⟨src,
        pos + (if b then "true".data else "false".data).length⟩) := by
  cases b
  · have hrb := readBareToken_parses (p := ⟨src, pos⟩) (k := "false".data)
      (q := post) (by rw [rest_mk, hrest]; simp) (by decide) (by decide)
      hpost
    rw [parseBool, hrb]
    simp
  · have hrb := readBareToken_parses (p := ⟨src, pos⟩) (k := "true".data)
      (q := post) (by rw [rest_mk, hrest]; simp) (by decide) (by decide)
      hpost
    rw [parseBool, hrb]
    simp

/-! ### The delimiter scanner `readUntilAny` on clean tokens -/

theorem readUntilAnyAux_parses :
    ∀ (k : List Char) (seps : List Char) (f : Nat) (p : Parser)
      (acc post : List Char),
      p.rest = k ++ post →
      (∀ c ∈ k, seps.contains c = false) →
      (∃ c t, post = c :: t ∧ seps.contains c = true) →
      k.length < f →
      readUntilAnyAux seps f p acc =
        (acc.reverse ++ k, ⟨p.src, p.pos + k.length⟩) := by
  intro k
  induction k with
  | nil =>
    intro seps f p acc post hrest _ hpost hf
    obtain ⟨f, rfl⟩ : ∃ g, f = g + 1 := ⟨f - 1, by omega⟩
    rw [readUntilAnyAux]
    simp only [List.nil_append] at hrest
    obtain ⟨c, t, rfl, hc⟩ := hpost
    rw [if_neg (by simp [eof_false_of_rest hrest]),
      if_pos (by rw [peek_of_rest hrest]; exact hc)]
    simp
  | cons c k ih =>
    intro seps f p acc post hrest hnd hpost hf
    obtain ⟨f, rfl⟩ : ∃ g, f = g + 1 := ⟨f - 1, by omega⟩
    rw [readUntilAnyAux]
    have hr : p.rest = c :: (k ++ post) := by simpa using hrest
    have hc : seps.contains c = false := hnd c (by simp)
    rw [if_neg (by simp [eof_false_of_rest hr]),
      if_neg (by rw [peek_of_rest hr, hc]; exact Bool.false_ne_true)]
    rw [peek_of_rest hr]
    rw [ih seps f ⟨p.src, p.pos + 1⟩ (c :: acc) post (advance_rest hr)
      (fun x hx => hnd x (by simp [hx])) hpost (by simpa using hf)]
    simp
    omega

theorem readUntilAny_parses {p : Parser} {k q seps : List Char}
    (hrest : p.rest = k ++ q)
    (hnd : ∀ c ∈ k, seps.contains c = false)
    (hpost : ∃ c t, q = c :: t ∧ seps.contains c = true) :
    p.readUntilAny seps = (k, ⟨p.src, p.pos + k.length⟩) := by
  rw [Parser.readUntilAny]
  have hlen : k.length < p.src.length + 1 - p.pos := by
    have h1 : p.rest.length = k.length + q.length := by simp [hrest]
    have h2 := rest_length (p := p)
    obtain ⟨c, t, rfl, _⟩ := hpost
    simp only [List.length_cons] at h1
    omega
  rw [readUntilAnyAux_parses k seps _ p [] q hrest hnd hpost hlen]
  simp

/-! ### Shapes of the compact encoder's entry loops -/

/-- In compact mode the only difference between a non-first and a first
field list is the leading `;` separator. -/
theorem encodeFields_first_shift (e : String × GoVal)
    (r : List (String × GoVal)) (lvl : Nat) :
    encodeFields (e :: r) lvl true false =
      match encodeFields (e :: r) lvl true true with
      | .error err => .error err
      | .ok t => .ok (';' :: t) := by
  obtain ⟨k, v⟩ := e
  cases hz : isZeroValue v <;>
    rcases he : encodeValue v (lvl + 1) true with e1 | ev <;>
      rcases ht : encodeFields r lvl true false with e2 | tl <;>
        simp [encodeFields, hz, he, ht]

/-- A successful compact first-field encoding starts with the key and the
assignment byte. -/
theorem encodeFields_ok_shape {kv : String × GoVal} {r : List (String × GoVal)}
    {lvl : Nat} {t : List Char}
    (h : encodeFields (kv :: r) lvl true true = .ok t) :
    ∃ t2, t = kv.1.data ++ '=' :: t2 := by
  obtain ⟨k, v⟩ := kv
  rw [encodeFields] at h
  by_cases hz : isZeroValue v
  · rw [if_pos hz] at h
    rcases ht : encodeFields r lvl true false with e2 | tl <;> rw [ht] at h
    · simp at h
    · simp at h
      exact ⟨tl, by rw [← h]⟩
  · rw [if_neg hz] at h
    rcases he : encodeValue v (lvl + 1) true with e1 | ev <;> rw [he] at h
    · simp at h
    · rcases ht : encodeFields r lvl true false with e2 | tl <;> rw [ht] at h
      · simp at h
      · simp at h
        exact ⟨ev ++ tl, by rw [← h]⟩

theorem encodeFields_ok :
    ∀ (fvs : List (String × GoVal)) (lvl : Nat) (first : Bool),
      (∀ kv ∈ fvs, isZeroValue kv.2 = true ∨
        ∃ t, encodeValue kv.2 (lvl + 1) true = .ok t) →
      ∃ body, encodeFields fvs lvl true first = .ok body := by
  intro fvs
  induction fvs with
  | nil =>
    intro lvl first _
    exact ⟨[], by rw [encodeFields]⟩
  | cons kv r ih =>
    intro lvl first h
    obtain ⟨tl, htl⟩ := ih lvl false (fun x hx => h x (by simp [hx]))
    obtain ⟨k, v⟩ := kv
    by_cases hz : isZeroValue v
    · exact ⟨_, by rw [encodeFields, if_pos hz, htl]⟩
    · rcases h (k, v) (by simp) with hz2 | ⟨t, ht⟩
      · exact absurd hz2 hz
      · exact ⟨_, by rw [encodeFields, if_neg hz, ht, htl]⟩

/-- In compact mode the only difference between a non-first and a first
list element is the leading `,` separator. -/
theorem encodeListElems_first_shift (v : GoVal) (r : List GoVal) (lvl : Nat) :
    encodeListElems (v :: r) lvl true false =
      match encodeListElems (v :: r) lvl true true with
      | .error err => .error err
      | .ok t => .ok (',' :: t) := by
  rcases he : encodeValue v lvl true with e1 | ev <;>
    rcases ht : encodeListElems r lvl true false with e2 | tl <;>
      simp [encodeListElems, he, ht]

theorem encodeListElems_ok :
    ∀ (es : List GoVal) (lvl : Nat) (first : Bool),
      (∀ v ∈ es, ∃ t, encodeValue v lvl true = .ok t) →
      ∃ body, encodeListElems es lvl true first = .ok body := by
  intro es
  induction es with
  | nil =>
    intro lvl first _
    exact ⟨[], by rw [encodeListElems]⟩
  | cons v r ih =>
    intro lvl first h
    obtain ⟨tl, htl⟩ := ih lvl false (fun x hx => h x (by simp [hx]))
    obtain ⟨t, ht⟩ := h v (by simp)
    exact ⟨_, by rw [encodeListElems, ht, htl]⟩

/-- A non-first table-row cell list is the first-cell list with a `,`
prefix. -/
theorem rowCells_false (e : String × GoVal) (r : List (String × GoVal)) :
    rowCells (e :: r) false = ',' :: rowCells (e :: r) true := by
  obtain ⟨k, v⟩ := e
  simp [rowCells]

/-- The row fold of `encodeStructSliceAsTable` on record elements collects
`rowsFlat`. -/
theorem tableRows_text :
    ∀ (es : List GoVal) (pre : List Char),
      (∀ v ∈ es, ∃ fvs, v = .struct fvs) →
      es.foldlM (fun acc e =>
        match e with
        | GoVal.struct fvs => pure (acc ++ rowCells fvs true ++ [';'])
        | _ => Except.error (GoErr.e "table row is not a record"))
        pre = Except.ok (pre ++ rowsFlat es) := by
  intro es
  induction es with
  | nil =>
    intro pre _
    simp [rowsFlat, pure, Except.pure]
  | cons v r ih =>
    intro pre h
    obtain ⟨fvs, rfl⟩ := h v (by simp)
    rw [List.foldlM_cons]
    simp only [pure_bind]
    rw [ih (pre ++ rowCells fvs true ++ [';'])
      (fun x hx => h x (by simp [hx]))]
    simp [rowsFlat]

theorem encodeStructSliceAsTable_ok (hdr : List String) (es : List GoVal)
    (hne : es ≠ []) (h : ∀ v ∈ es, ∃ fvs, v = .struct fvs) :
    encodeStructSliceAsTable hdr es =
      .ok (['('] ++ headerText hdr ++ [':'] ++ rowsFlat es ++ [')']) := by
  rw [encodeStructSliceAsTable, if_neg (by simpa using hne),
    tableRows_text es [] h]
  rfl

/-! ### The key=value loop of `decodeStruct` on encoder output -/

theorem drop_add_of_drop {src a b : List Char} {pos n : Nat}
    (h : src.drop pos = a ++ b) (hn : n = a.length) :
    src.drop (pos + n) = b := by
  subst hn
  rw [← List.drop_drop, h, List.drop_left]

theorem drop_eq_of_drop {src a b : List Char} {p pos2 : Nat}
    (h : src.drop p = a ++ b) (hp : pos2 = p + a.length) :
    src.drop pos2 = b := by
  subst hp
  rw [← List.drop_drop, h, List.drop_left]

theorem zeroFields_cons (k : String) (t : GoTy) (r : List (String × GoTy)) :
    zeroFields ((k, t) :: r) = (k, zeroVal t) :: zeroFields r := by
  rw [zeroFields]

theorem fieldValAt_mid (pre : List (String × GoVal)) (k : String) (v : GoVal)
    (suf : List (String × GoVal)) :
    fieldValAt (pre ++ (k, v) :: suf) pre.length = v := by
  rw [fieldValAt, get?_append_len]
  rfl

theorem setStructField_mid (pre : List (String × GoVal)) (k : String)
    (v w : GoVal) (suf : List (String × GoVal)) :
    setStructField (pre ++ (k, v) :: suf) pre.length w =
      pre ++ (k, w) :: suf := by
  rw [setStructField, get?_append_len]
  exact set_append_len pre (k, v) (k, w) suf

/-- One iteration of `decodeStructLoop` through its key-and-assign phase:
on `key=` followed by anything non-space, the loop reads the bare key,
passes the `=`, and is left dispatching on the byte after `=`. -/
theorem structLoop_key_step
    {flds : List (String × GoTy)} {cur : List (String × GoVal)}
    {src w : List Char} {p g : Nat} {k : String}
    (hkey : bareKey k)
    (hdrop : src.drop p = k.data ++ '=' :: w)
    (hns : w = [] ∨ ∃ c t2, w = c :: t2 ∧ isSpaceCh c = false) :
    decodeStructLoop (g + 1) flds cur ⟨src, p⟩ =
      (let p3 : Parser := ⟨src, p + k.data.length + 1⟩
       if p3.peek == ';' || p3.peek == rbrace then
         let p4 := if p3.peek == ';' then (p3.next).2 else p3
         let p5 := p4.skipSpaces
         let cur1 :=
           match fieldMapLookup flds k.data with
           | some i => setStructField cur i (zeroVal (fieldTyAt flds i))
           | none => cur
         decodeStructLoop g flds cur1 p5
       else
         match fieldMapLookup flds k.data with
         | none =>
           let p4 := skipValue p3
           let p5 := p4.skipSpaces
           let p6 := if p5.peek == ';' then (p5.next).2 else p5
           decodeStructLoop g flds cur (p6.skipSpaces)
         | some i =>
           match decodeValue g (fieldTyAt flds i) (fieldValAt cur i) p3 with
           | .error e => .error e
           | .ok (v, p4) =>
             let p5 := p4.skipSpaces
             let p6 := if p5.peek == ';' then (p5.next).2 else p5
             decodeStructLoop g flds (setStructField cur i v)
               (p6.skipSpaces)) := by
  obtain ⟨c0, kr, hkc⟩ : ∃ c0 kr, k.data = c0 :: kr := by
    cases h : k.data with
    | nil => exact absurd h hkey.1
    | cons c0 kr => exact ⟨c0, kr, rfl⟩
  have hc0 : isBareDelim c0 = false := hkey.2 c0 (by rw [hkc]; simp)
  have hr : (⟨src, p⟩ : Parser).rest = c0 :: (kr ++ '=' :: w) := by
    rw [rest_mk, hdrop, hkc]
    simp
  rw [decodeStructLoop]
  rw [if_pos (by
    simp [eof_false_of_rest hr, peek_of_rest hr]
    rintro rfl
    revert hc0
    decide)]
  have htok : (⟨src, p⟩ : Parser).readBareToken =
      (k.data, ⟨src, p + k.data.length⟩) := by
    refine readBareToken_parses ?_ hkey.1 hkey.2
      (Or.inr ⟨'=', w, rfl, by decide⟩)
    rw [rest_mk, hdrop]
  rw [htok]
  simp only
  have hr2 : (⟨src, p + k.data.length⟩ : Parser).rest = '=' :: w := by
    rw [rest_mk]
    exact drop_add_of_drop hdrop rfl
  have hsk1 : (⟨src, p + k.data.length⟩ : Parser).skipSpaces =
      ⟨src, p + k.data.length⟩ :=
    skipSpaces_id (Or.inr ⟨'=', w, hr2, by decide⟩)
  rw [hsk1, if_neg (by rw [peek_of_rest hr2]; decide), next_of_rest hr2]
  simp only
  have hr3 : (⟨src, p + k.data.length + 1⟩ : Parser).rest = w := by
    rw [rest_mk]
    exact drop_add_of_drop (a := k.data ++ ['=']) (b := w)
      (n := k.data.length + 1) (by simp [hdrop]) (by simp)
  have hsk2 : (⟨src, p + k.data.length + 1⟩ : Parser).skipSpaces =
      ⟨src, p + k.data.length + 1⟩ := by
    refine skipSpaces_id ?_
    rcases hns with rfl | ⟨c, t2, rfl, hcs⟩
    · exact Or.inl hr3
    · exact Or.inr ⟨c, t2, hr3, hcs⟩
  rw [hsk2]

/-- The pair loop of `decodeStruct` inverts the compact field encoder: with
the already-decoded prefix `preV` in place and the remaining fields still
zero, decoding the text of the remaining fields followed by `}` fills in
exactly the remaining values and consumes through the `}`. -/
theorem decodeStructLoop_enc :
    ∀ {todoT : List (String × GoTy)} {todoV : List (String × GoVal)},
      List.Forall₂ (fun (kt : String × GoTy) (kv : String × GoVal) =>
        kt.1 = kv.1 ∧ Clean kt.2 kv.2 ∧ EncDec kt.2 kv.2) todoT todoV →
      ∀ (flds : List (String × GoTy)) (preT : List (String × GoTy))
        (preV cur : List (String × GoVal)) (lvl : Nat)
        (body src post : List Char) (pos g : Nat),
        flds = preT ++ todoT →
        cur = preV ++ zeroFields todoT →
        (resolvedKeys flds).Nodup →
        (∀ k2 ∈ resolvedKeys flds, bareKey k2) →
        preT.length = preV.length →
        encodeFields todoV lvl true true = .ok body →
        src.drop pos = body ++ rbrace :: post →
        2 * body.length + 2 ≤ g →
        decodeStructLoop g flds cur ⟨src, pos⟩ =
          .ok (preV ++ todoV, ⟨src, pos + body.length + 1⟩) := by
  intro todoT todoV hf
  induction hf with
  | nil =>
    intro flds preT preV cur lvl body src post pos g hsplit hcur hnd hbare
      hlen hbody hdrop hg
    subst hsplit
    subst hcur
    rw [encodeFields] at hbody
    injection hbody with hbody
    subst hbody
    obtain ⟨g, rfl⟩ : ∃ g2, g = g2 + 1 := ⟨g - 1, by omega⟩
    have hr : (⟨src, pos⟩ : Parser).rest = rbrace :: post := by
      rw [rest_mk]
      simpa using hdrop
    rw [decodeStructLoop,
      if_neg (by simp [peek_of_rest hr]),
      if_neg (by rw [peek_of_rest hr]; decide),
      next_of_rest hr]
    simp [zeroFields]
  | @cons kt kv todoT2 todoV2 hR hftail ih =>
    intro flds preT preV cur lvl body src post pos g hsplit hcur hnd hbare
      hlen hbody hdrop hg
    subst hsplit
    subst hcur
    obtain ⟨k, ty⟩ := kt
    obtain ⟨k2, v⟩ := kv
    obtain ⟨hkeq, hclean, hencdec⟩ := hR
    simp only at hkeq hclean hencdec
    subst hkeq
    have hkmem : bareKey k :=
      hbare k (by rw [resolvedKeys_append]; simp [resolvedKeys])
    have hlook : fieldMapLookup (preT ++ (k, ty) :: todoT2) k.data =
        some preT.length :=
      fieldMapLookup_get? hnd (get?_append_len preT (k, ty) todoT2)
    rw [encodeFields] at hbody
    by_cases hz : isZeroValue v = true
    · -- zero-valued field: `k=` with empty right-hand side
      rw [if_pos hz] at hbody
      have hvz : v = zeroVal ty := clean_zero hclean hz
      rcases htl : encodeFields todoV2 lvl true false with e2 | tl <;>
        rw [htl] at hbody
      · simp at hbody
      simp at hbody
      cases hftail with
      | nil =>
        rw [encodeFields] at htl
        injection htl with htl
        subst htl
        subst hbody
        obtain ⟨g2, rfl⟩ : ∃ g2, g = g2 + 1 := ⟨g - 1, by omega⟩
        rw [structLoop_key_step (w := rbrace :: post) (p := pos)
          (g := g2) hkmem (by simp [hdrop])
          (Or.inr ⟨rbrace, post, rfl, by decide⟩)]
        simp only
        have hr4 : (⟨src, pos + k.data.length + 1⟩ : Parser).rest =
            rbrace :: post := by
          rw [rest_mk]
          exact drop_eq_of_drop (p := pos) (a := k.data ++ ['='])
            (b := rbrace :: post) (by simp [hdrop])
            (by simp only [List.length_append, List.length_cons,
              List.length_nil]; omega)
        rw [if_pos (by rw [peek_of_rest hr4]; decide),
          if_neg (by rw [peek_of_rest hr4]; decide),
          skipSpaces_id (Or.inr ⟨rbrace, post, hr4, by decide⟩), hlook]
        simp only
        rw [fieldTyAt_mid, hlen, hvz]
        rw [ih (preT ++ (k, ty) :: []) (preT ++ [(k, ty)])
          (preV ++ [(k, zeroVal ty)]) _ lvl [] src post
          (pos + k.data.length + 1) g2 (by simp) ?hcur2
          hnd hbare (by simp [hlen]) (by rw [encodeFields])
          (by rw [← rest_mk]; simpa using hr4) (by simp at hg ⊢; omega)]
        case hcur2 =>
          rw [zeroFields_cons, setStructField_mid]
          simp
        simp
        omega
      | @cons kt2 kv2 todoT2b todoV2b hR2 hf2 =>
        rw [encodeFields_first_shift] at htl
        rcases htl0 : encodeFields (kv2 :: todoV2b) lvl true true
          with e3 | tl0 <;> rw [htl0] at htl <;> simp at htl
        subst htl
        subst hbody
        obtain ⟨t2b, htshape⟩ := encodeFields_ok_shape htl0
        have hkmem2 : bareKey kv2.1 := by
          rw [← hR2.1]
          exact hbare kt2.1 (by
            rw [resolvedKeys_append]
            simp [resolvedKeys])
        obtain ⟨c1, kr1, hkc1⟩ : ∃ c1 kr1, kv2.1.data = c1 :: kr1 := by
          cases h : kv2.1.data with
          | nil => exact absurd h hkmem2.1
          | cons c1 kr1 => exact ⟨c1, kr1, rfl⟩
        have hc1 : isBareDelim c1 = false := hkmem2.2 c1 (by rw [hkc1]; simp)
        obtain ⟨g2, rfl⟩ : ∃ g2, g = g2 + 1 := ⟨g - 1, by omega⟩
        rw [structLoop_key_step (w := ';' :: (tl0 ++ rbrace :: post))
          (p := pos) (g := g2) hkmem (by simp [hdrop])
          (Or.inr ⟨';', _, rfl, by decide⟩)]
        simp only
        have hr4 : (⟨src, pos + k.data.length + 1⟩ : Parser).rest =
            ';' :: (tl0 ++ rbrace :: post) := by
          rw [rest_mk]
          exact drop_eq_of_drop (p := pos) (a := k.data ++ ['='])
            (b := ';' :: (tl0 ++ rbrace :: post))
            (by simp [hdrop])
            (by simp only [List.length_append, List.length_cons,
              List.length_nil]; omega)
        rw [if_pos (by rw [peek_of_rest hr4]; decide),
          if_pos (by rw [peek_of_rest hr4]; decide),
          next_of_rest hr4]
        simp only
        have hr5 : (⟨src, pos + k.data.length + 1 + 1⟩ : Parser).rest =
            tl0 ++ rbrace :: post := advance_rest hr4
        have hsk5 : (⟨src, pos + k.data.length + 1 + 1⟩ : Parser).skipSpaces =
            ⟨src, pos + k.data.length + 1 + 1⟩ := by
          refine skipSpaces_id (Or.inr ⟨c1,
            kr1 ++ ('=' :: t2b) ++ rbrace :: post, ?_, ?_⟩)
          · rw [hr5, htshape, hkc1]
            simp
          · exact not_space_of_not_delim hc1
        rw [hsk5, hlook]
        simp only
        rw [fieldTyAt_mid, hlen, hvz]
        rw [ih (preT ++ (k, ty) :: kt2 :: todoT2b) (preT ++ [(k, ty)])
          (preV ++ [(k, zeroVal ty)]) _ lvl tl0 src post
          (pos + k.data.length + 1 + 1) g2 (by simp) ?hcur3
          hnd hbare (by simp [hlen]) htl0
          (by rw [← rest_mk]; simpa using hr5) (by simp at hg ⊢; omega)]
        case hcur3 =>
          rw [zeroFields_cons, setStructField_mid]
          simp
        simp
        omega
    · -- non-zero field: `k=` followed by the field's encoded value
      rw [if_neg hz] at hbody
      obtain ⟨t, henc, htne, hthead, htdec⟩ := hencdec (lvl + 1)
      rw [henc] at hbody
      rcases htl : encodeFields todoV2 lvl true false with e2 | tl <;>
        rw [htl] at hbody
      · simp at hbody
      simp at hbody
      subst hbody
      obtain ⟨c0, t0, htc⟩ : ∃ c0 t0, t = c0 :: t0 := by
        cases h : t with
        | nil => exact absurd h htne
        | cons c0 t0 => exact ⟨c0, t0, rfl⟩
      obtain ⟨hc0s, hc0semi, hc0rb, hc0c, hc0b, hc0p⟩ :=
        hthead c0 t0 htc
      have hz2 : isZeroValue v = false := by
        cases h : isZeroValue v
        · rfl
        · exact absurd h hz
      obtain ⟨g2, rfl⟩ : ∃ g2, g = g2 + 1 := ⟨g - 1, by omega⟩
      rw [structLoop_key_step (w := t ++ (tl ++ rbrace :: post))
        (p := pos) (g := g2) hkmem (by simp [hdrop])
        (Or.inr ⟨c0, t0 ++ (tl ++ rbrace :: post), by rw [htc]; simp,
          hc0s⟩)]
      simp only
      have hr4 : (⟨src, pos + k.data.length + 1⟩ : Parser).rest =
          t ++ (tl ++ rbrace :: post) := by
        rw [rest_mk]
        exact drop_eq_of_drop (p := pos) (a := k.data ++ ['='])
          (b := t ++ (tl ++ rbrace :: post)) (by simp [hdrop])
          (by simp only [List.length_append, List.length_cons,
            List.length_nil]; omega)
      have hr4c : (⟨src, pos + k.data.length + 1⟩ : Parser).rest =
          c0 :: (t0 ++ (tl ++ rbrace :: post)) := by
        rw [hr4, htc]
        simp
      rw [if_neg (by
        rw [peek_of_rest hr4c]
        simp [hc0semi, hc0rb]), hlook]
      simp only
      rw [fieldTyAt_mid, hlen, zeroFields_cons, fieldValAt_mid]
      rw [htdec src (tl ++ rbrace :: post) (pos + k.data.length + 1) g2
        (by rw [← rest_mk]; exact hr4) ?sep (by simp at hg ⊢; omega)]
      case sep =>
        cases hftail with
        | nil =>
          rw [encodeFields] at htl
          injection htl with htl
          subst htl
          exact sepAfter_rbrace post
        | cons hR2 hf2 =>
          rw [encodeFields_first_shift] at htl
          rcases htl0 : encodeFields _ lvl true true with e3 | tl0 <;>
            rw [htl0] at htl <;> simp at htl
          subst htl
          exact sepAfter_semi (tl0 ++ rbrace :: post)
      simp only
      cases hftail with
      | nil =>
        rw [encodeFields] at htl
        injection htl with htl
        subst htl
        have hr6 : (⟨src, pos + k.data.length + 1 + t.length⟩ : Parser).rest =
            rbrace :: post := by
          rw [rest_mk]
          exact drop_eq_of_drop (p := pos) (a := (k.data ++ ['=']) ++ t)
            (b := rbrace :: post) (by simp [hdrop])
            (by simp only [List.length_append, List.length_cons,
              List.length_nil]; omega)
        rw [skipSpaces_id (Or.inr ⟨rbrace, post, hr6, by decide⟩),
          if_neg (by rw [peek_of_rest hr6]; decide),
          skipSpaces_id (Or.inr ⟨rbrace, post, hr6, by decide⟩)]
        rw [setStructField_mid]
        rw [ih (preT ++ (k, ty) :: []) (preT ++ [(k, ty)]) (preV ++ [(k, v)])
          _ lvl [] src post (pos + k.data.length + 1 + t.length) g2 (by simp)
          (by simp [zeroFields]) hnd hbare (by simp [hlen])
          (by rw [encodeFields]) (by rw [← rest_mk]; simpa using hr6)
          (by simp at hg ⊢; omega)]
        simp [htc]
        omega
      | @cons kt2 kv2 todoT2b todoV2b hR2 hf2 =>
        rw [encodeFields_first_shift] at htl
        rcases htl0 : encodeFields (kv2 :: todoV2b) lvl true true
          with e3 | tl0 <;> rw [htl0] at htl <;> simp at htl
        subst htl
        obtain ⟨t2b, htshape⟩ := encodeFields_ok_shape htl0
        have hkmem2 : bareKey kv2.1 := by
          rw [← hR2.1]
          exact hbare kt2.1 (by
            rw [resolvedKeys_append]
            simp [resolvedKeys])
        obtain ⟨c1, kr1, hkc1⟩ : ∃ c1 kr1, kv2.1.data = c1 :: kr1 := by
          cases h : kv2.1.data with
          | nil => exact absurd h hkmem2.1
          | cons c1 kr1 => exact ⟨c1, kr1, rfl⟩
        have hc1 : isBareDelim c1 = false := hkmem2.2 c1 (by rw [hkc1]; simp)
        have hr6 : (⟨src, pos + k.data.length + 1 + t.length⟩ : Parser).rest =
            ';' :: (tl0 ++ rbrace :: post) := by
          rw [rest_mk]
          exact drop_eq_of_drop (p := pos) (a := (k.data ++ ['=']) ++ t)
            (b := ';' :: (tl0 ++ rbrace :: post)) (by simp [hdrop])
            (by simp only [List.length_append, List.length_cons,
              List.length_nil]; omega)
        have hr7 : (⟨src, pos + k.data.length + 1 + t.length + 1⟩ :
            Parser).rest = tl0 ++ rbrace :: post := advance_rest hr6
        rw [skipSpaces_id (Or.inr ⟨';', _, hr6, by decide⟩),
          if_pos (by rw [peek_of_rest hr6]; decide), next_of_rest hr6]
        simp only
        have hsk7 : (⟨src, pos + k.data.length + 1 + t.length + 1⟩ :
            Parser).skipSpaces =
            ⟨src, pos + k.data.length + 1 + t.length + 1⟩ := by
          refine skipSpaces_id (Or.inr ⟨c1,
            kr1 ++ ('=' :: t2b) ++ rbrace :: post, ?_, ?_⟩)
          · rw [hr7, htshape, hkc1]
            simp
          · exact not_space_of_not_delim hc1
        rw [hsk7, setStructField_mid]
        rw [ih (preT ++ (k, ty) :: kt2 :: todoT2b) (preT ++ [(k, ty)])
          (preV ++ [(k, v)]) _ lvl tl0 src post
          (pos + k.data.length + 1 + t.length + 1) g2 (by simp)
          (by simp [zeroFields]) hnd hbare (by simp [hlen]) htl0
          (by rw [← rest_mk]; simpa using hr7) (by simp at hg ⊢; omega)]
        simp [htc]
        omega

/-! ### The element loop of `decodeSlice` on encoder output -/

theorem encodeListElems_ok_shape {v : GoVal} {r : List GoVal} {lvl : Nat}
    {t : List Char} (h : encodeListElems (v :: r) lvl true true = .ok t) :
    ∃ tv tr, encodeValue v lvl true = .ok tv ∧ t = tv ++ tr := by
  rw [encodeListElems] at h
  rcases he : encodeValue v lvl true with e1 | ev <;> rw [he] at h
  · simp at h
  rcases ht : encodeListElems r lvl true false with e2 | tl <;> rw [ht] at h
  · simp at h
  simp at h
  exact ⟨ev, tl, rfl, h.symm⟩

/-- The element loop of `decodeSlice` inverts the compact list encoder:
decoding the elements' text followed by `]` appends exactly the encoded
elements and consumes through the `]`. -/
theorem decodeSliceLoop_enc :
    ∀ (es : List GoVal) (el : GoTy),
      (∀ v2 ∈ es, EncDec el v2) →
      ∀ (acc : List GoVal) (lvl : Nat) (body src post : List Char)
        (pos g : Nat),
        encodeListElems es lvl true true = .ok body →
        src.drop pos = body ++ ']' :: post →
        2 * body.length + 3 ≤ g →
        decodeSliceLoop g el acc ⟨src, pos⟩ =
          .ok (acc ++ es, ⟨src, pos + body.length + 1⟩) := by
  intro es
  induction es with
  | nil =>
    intro el _ acc lvl body src post pos g hbody hdrop hg
    rw [encodeListElems] at hbody
    injection hbody with hbody
    subst hbody
    obtain ⟨g2, rfl⟩ : ∃ g2, g = g2 + 1 := ⟨g - 1, by omega⟩
    have hr : (⟨src, pos⟩ : Parser).rest = ']' :: post := by
      rw [rest_mk]
      simpa using hdrop
    rw [decodeSliceLoop,
      if_neg (by simp [peek_of_rest hr]),
      if_neg (by rw [peek_of_rest hr]; decide),
      next_of_rest hr]
    simp
  | cons v r ih =>
    intro el hes acc lvl body src post pos g hbody hdrop hg
    obtain ⟨t, henc, htne, hthead, htdec⟩ := hes v (by simp) lvl
    rw [encodeListElems, henc] at hbody
    rcases htl : encodeListElems r lvl true false with e2 | tl <;>
      rw [htl] at hbody
    · simp at hbody
    simp at hbody
    subst hbody
    obtain ⟨c0, t0, htc⟩ : ∃ c0 t0, t = c0 :: t0 := by
      cases h : t with
      | nil => exact absurd h htne
      | cons c0 t0 => exact ⟨c0, t0, rfl⟩
    obtain ⟨hc0s, hc0semi, hc0rb, hc0c, hc0b, hc0p⟩ := hthead c0 t0 htc
    obtain ⟨g2, rfl⟩ : ∃ g2, g = g2 + 1 := ⟨g - 1, by omega⟩
    have hr : (⟨src, pos⟩ : Parser).rest =
        c0 :: (t0 ++ (tl ++ ']' :: post)) := by
      rw [rest_mk]
      simp [hdrop, htc]
    rw [decodeSliceLoop,
      if_pos (by simp [eof_false_of_rest hr, peek_of_rest hr, hc0b])]
    rw [htdec src (tl ++ ']' :: post) pos g2 (by simp [hdrop]) ?sep
      (by simp at hg ⊢; omega)]
    case sep =>
      cases r with
      | nil =>
        rw [encodeListElems] at htl
        injection htl with htl
        subst htl
        exact sepAfter_rbrack post
      | cons v2 r2 =>
        rw [encodeListElems_first_shift] at htl
        rcases htl0 : encodeListElems (v2 :: r2) lvl true true
          with e3 | tl0 <;> rw [htl0] at htl <;> simp at htl
        subst htl
        exact sepAfter_comma (tl0 ++ ']' :: post)
    simp only
    have hr2 : (⟨src, pos + t.length⟩ : Parser).rest = tl ++ ']' :: post := by
      rw [rest_mk]
      exact drop_eq_of_drop (p := pos) (a := t)
        (b := tl ++ ']' :: post) (by simp [hdrop]) rfl
    cases r with
    | nil =>
      rw [encodeListElems] at htl
      injection htl with htl
      subst htl
      have hr2b : (⟨src, pos + t.length⟩ : Parser).rest = ']' :: post := by
        simpa using hr2
      rw [skipSpaces_id (Or.inr ⟨']', post, hr2b, by decide⟩),
        if_neg (by rw [peek_of_rest hr2b]; decide)]
      rw [ih el (fun x hx => (List.not_mem_nil x hx).elim) (acc ++ [v])
        lvl [] src post (pos + t.length) g2 (by rw [encodeListElems])
        (by rw [← rest_mk]; simpa using hr2b)
        (by
          have ht1 : 0 < t.length := List.length_pos.mpr htne
          simp at hg ⊢
          omega)]
      simp
    | cons v2 r2 =>
      rw [encodeListElems_first_shift] at htl
      rcases htl0 : encodeListElems (v2 :: r2) lvl true true
        with e3 | tl0 <;> rw [htl0] at htl <;> simp at htl
      subst htl
      obtain ⟨tv2, tr2, henc2, hshape2⟩ := encodeListElems_ok_shape htl0
      obtain ⟨t2, henc2b, htne2, hthead2, _⟩ := hes v2 (by simp) lvl
      have htv2 : tv2 = t2 := by
        rw [henc2] at henc2b
        exact Except.ok.inj henc2b
      rw [htv2] at hshape2
      obtain ⟨c2, t20, htc2⟩ : ∃ c2 t20, t2 = c2 :: t20 := by
        cases h : t2 with
        | nil => exact absurd h htne2
        | cons c2 t20 => exact ⟨c2, t20, rfl⟩
      have hc2s := (hthead2 c2 t20 htc2).1
      have hr2c : (⟨src, pos + t.length⟩ : Parser).rest =
          ',' :: (tl0 ++ ']' :: post) := by
        simpa using hr2
      rw [skipSpaces_id (Or.inr ⟨',', _, hr2c, by decide⟩),
        if_pos (by rw [peek_of_rest hr2c]; decide), next_of_rest hr2c]
      simp only
      have hr3 : (⟨src, pos + t.length + 1⟩ : Parser).rest =
          tl0 ++ ']' :: post := advance_rest hr2c
      have hsk3 : (⟨src, pos + t.length + 1⟩ : Parser).skipSpaces =
          ⟨src, pos + t.length + 1⟩ := by
        refine skipSpaces_id (Or.inr ⟨c2, t20 ++ tr2 ++ ']' :: post, ?_, ?_⟩)
        · rw [hr3, hshape2, htc2]
          simp
        · exact hc2s
      rw [hsk3]
      rw [ih el (fun x hx => hes x (by simp [hx])) (acc ++ [v]) lvl tl0
        src post (pos + t.length + 1) g2 htl0
        (by rw [← rest_mk]; simpa using hr3) (by simp at hg ⊢; omega)]
      simp
      omega

/-! ### The table sub-format: header, cells, rows -/

theorem contains_hdr_of_not_delim {c : Char} (h : isBareDelim c = false) :
    (",:".data).contains c = false := by
  have h1 : c ≠ ',' := by rintro rfl; revert h; decide
  have h2 : c ≠ ':' := by rintro rfl; revert h; decide
  simp [h1, h2]

theorem contains_cell_of_not_delim {c : Char} (h : isBareDelim c = false) :
    (",;)".data).contains c = false := by
  have h1 : c ≠ ',' := by rintro rfl; revert h; decide
  have h2 : c ≠ ';' := by rintro rfl; revert h; decide
  have h3 : c ≠ ')' := by rintro rfl; revert h; decide
  simp [h1, h2, h3]

theorem digit_ne_dq {c : Char} (h : isDigitCh c = true) : c ≠ dq := by
  rintro rfl
  revert h
  decide

theorem formatInt_ne_dq (n : Int) : ∀ c ∈ formatInt n, c ≠ dq := by
  intro c hc
  by_cases hneg : n < 0
  · rw [formatInt, if_pos hneg] at hc
    rcases List.mem_cons.mp hc with rfl | hc
    · decide
    · exact digit_ne_dq ((natDigits_spec (-n).toNat).2.2 c hc)
  · rw [formatInt, if_neg hneg] at hc
    exact digit_ne_dq ((natDigits_spec n.toNat).2.2 c hc)

theorem getD_append_len {α : Type} (pre : List α) (x : α) (suf : List α)
    (d : α) {n : Nat} (hn : n = pre.length) :
    (pre ++ x :: suf).getD n d = x := by
  subst hn
  induction pre with
  | nil => rfl
  | cons a r ih => simpa using ih

/-- The header loop of `decodeTable` on an encoder header: collects exactly
the resolved key names and stops after the `:`. -/
theorem decodeTableHeader_enc :
    ∀ (keys : List String) (acc : List (List Char)) (src post : List Char)
      (pos g : Nat),
      (∀ k2 ∈ keys, bareKey k2) →
      src.drop pos = headerText keys ++ ':' :: post →
      keys.length + 2 ≤ g →
      decodeTableHeader g acc ⟨src, pos⟩ =
        .ok (some (acc ++ keys.map String.data),
          ⟨src, pos + (headerText keys).length + 1⟩) := by
  intro keys
  induction keys with
  | nil =>
    intro acc src post pos g _ hdrop hg
    obtain ⟨g2, rfl⟩ : ∃ g2, g = g2 + 1 := ⟨g - 1, by omega⟩
    have hr : (⟨src, pos⟩ : Parser).rest = ':' :: post := by
      rw [rest_mk]
      simpa [headerText] using hdrop
    rw [decodeTableHeader,
      skipSpaces_id (Or.inr ⟨':', post, hr, by decide⟩),
      if_pos (by rw [peek_of_rest hr]; decide), next_of_rest hr]
    simp [headerText]
  | cons k r ih =>
    intro acc src post pos g hbare hdrop hg
    have hbk : bareKey k := hbare k (by simp)
    obtain ⟨c0, kr, hkc⟩ : ∃ c0 kr, k.data = c0 :: kr := by
      cases h : k.data with
      | nil => exact absurd h hbk.1
      | cons c0 kr => exact ⟨c0, kr, rfl⟩
    have hc0 : isBareDelim c0 = false := hbk.2 c0 (by rw [hkc]; simp)
    obtain ⟨g2, rfl⟩ : ∃ g2, g = g2 + 1 := ⟨g - 1, by omega⟩
    cases r with
    | nil =>
      have hht : headerText [k] = k.data := rfl
      rw [hht] at hdrop
      have hr : (⟨src, pos⟩ : Parser).rest = c0 :: (kr ++ ':' :: post) := by
        rw [rest_mk, hdrop, hkc]
        simp
      rw [decodeTableHeader,
        skipSpaces_id (Or.inr ⟨c0, kr ++ ':' :: post, hr,
          not_space_of_not_delim hc0⟩),
        if_neg (by
          rw [peek_of_rest hr]
          simp
          rintro rfl
          revert hc0
          decide),
        if_neg (by
          rw [peek_of_rest hr]
          simp
          rintro rfl
          revert hc0
          decide)]
      rw [readUntilAny_parses (k := k.data) (q := ':' :: post)
        (by rw [rest_mk, hdrop])
        (fun c hc => contains_hdr_of_not_delim (hbk.2 c hc))
        ⟨':', post, rfl, by decide⟩]
      simp only
      rw [trimChars_id fun c hc => not_space_of_not_delim (hbk.2 c hc)]
      rw [if_neg (by simpa using hbk.1)]
      have hr2 : (⟨src, pos + k.data.length⟩ : Parser).rest =
          ':' :: post := by
        rw [rest_mk]
        exact drop_eq_of_drop (p := pos) (a := k.data)
          (b := ':' :: post) hdrop rfl
      rw [skipSpaces_id (Or.inr ⟨':', post, hr2, by decide⟩),
        if_neg (by rw [peek_of_rest hr2]; decide)]
      rw [ih (acc ++ [k.data]) src post (pos + k.data.length) g2
        (fun x hx => absurd hx (by simp))
        (by rw [← rest_mk]; simpa [headerText] using hr2)
        (by simp at hg ⊢; omega)]
      simp [headerText, hht]
    | cons r0 rs =>
      have hht : headerText (k :: r0 :: rs) =
          k.data ++ [','] ++ headerText (r0 :: rs) := rfl
      rw [hht] at hdrop
      have hr : (⟨src, pos⟩ : Parser).rest =
          c0 :: (kr ++ ',' :: (headerText (r0 :: rs) ++ ':' :: post)) := by
        rw [rest_mk, hdrop, hkc]
        simp
      rw [decodeTableHeader,
        skipSpaces_id (Or.inr ⟨c0, _, hr, not_space_of_not_delim hc0⟩),
        if_neg (by
          rw [peek_of_rest hr]
          simp
          rintro rfl
          revert hc0
          decide),
        if_neg (by
          rw [peek_of_rest hr]
          simp
          rintro rfl
          revert hc0
          decide)]
      rw [readUntilAny_parses (k := k.data)
        (q := ',' :: (headerText (r0 :: rs) ++ ':' :: post))
        (by rw [rest_mk]; simpa using hdrop)
        (fun c hc => contains_hdr_of_not_delim (hbk.2 c hc))
        ⟨',', _, rfl, by decide⟩]
      simp only
      rw [trimChars_id fun c hc => not_space_of_not_delim (hbk.2 c hc)]
      rw [if_neg (by simpa using hbk.1)]
      have hr2 : (⟨src, pos + k.data.length⟩ : Parser).rest =
          ',' :: (headerText (r0 :: rs) ++ ':' :: post) := by
        rw [rest_mk]
        exact drop_eq_of_drop (p := pos) (a := k.data)
          (b := ',' :: (headerText (r0 :: rs) ++ ':' :: post))
          (by simpa using hdrop) rfl
      rw [skipSpaces_id (Or.inr ⟨',', _, hr2, by decide⟩),
        if_pos (by rw [peek_of_rest hr2]; decide), next_of_rest hr2]
      rw [ih (acc ++ [k.data]) src post (pos + k.data.length + 1) g2
        (fun x hx => hbare x (by simp [hx]))
        (by rw [← rest_mk]; exact advance_rest hr2)
        (by simp at hg ⊢; omega)]
      simp [hht]
      omega

theorem encodeTableCell_str (s : String) :
    encodeTableCell (.str s) = goQuote s.data := by
  by_cases h : s = "" <;> simp [encodeTableCell, h, goQuote]

/-- A scalar cell text is nonempty and starts with a byte the cell loop
does not treat as a terminator or separator. -/
theorem encodeTableCell_head {ty2 : GoTy} {v2 : GoVal} (h : cellOk ty2 v2) :
    ∃ c2 t2, encodeTableCell v2 = c2 :: t2 ∧ isSpaceCh c2 = false ∧
      c2 ≠ ';' ∧ c2 ≠ ')' ∧ c2 ≠ ',' := by
  rcases ty2 with _ | _ | _ | tfl | tel <;>
    rcases v2 with s | n | b | fx | ⟨sx, ex⟩ | mx <;>
      simp only [cellOk] at h
  · exact ⟨dq, s.data.flatMap goQuoteChar ++ [dq],
      by rw [encodeTableCell_str, goQuote]; simp, by decide, by decide,
      by decide, by decide⟩
  · obtain ⟨hne, hnd, _⟩ := formatInt_spec n
    obtain ⟨c2, t2, hc⟩ : ∃ c2 t2, formatInt n = c2 :: t2 := by
      cases hh : formatInt n with
      | nil => exact absurd hh hne
      | cons c2 t2 => exact ⟨c2, t2, rfl⟩
    have hd : isBareDelim c2 = false := hnd c2 (by rw [hc]; simp)
    refine ⟨c2, t2, hc, not_space_of_not_delim hd,
      ?_, ?_, ?_⟩ <;> (rintro rfl; revert hd; decide)
  · cases b
    · exact ⟨'f', "alse".data, rfl, by decide, by decide, by decide,
        by decide⟩
    · exact ⟨'t', "rue".data, rfl, by decide, by decide, by decide,
        by decide⟩

/-- The optional-comma step after a decoded cell, when the row ends
here. -/
theorem sep_step_nil {src post2 : List Char} {pos2 : Nat}
    (hdrop2 : src.drop pos2 = ';' :: post2) :
    (if ((⟨src, pos2⟩ : Parser).skipSpaces).peek == ',' then
      (((⟨src, pos2⟩ : Parser).skipSpaces).next).2
    else (⟨src, pos2⟩ : Parser).skipSpaces) = ⟨src, pos2⟩ := by
  have hr : (⟨src, pos2⟩ : Parser).rest = ';' :: post2 := by
    rw [rest_mk]
    exact hdrop2
  rw [skipSpaces_id (Or.inr ⟨';', post2, hr, by decide⟩),
    if_neg (by rw [peek_of_rest hr]; decide)]

/-- The optional-comma step after a decoded cell, when another cell
follows. -/
theorem sep_step_comma {src u post2 : List Char} {pos2 : Nat}
    (hdrop2 : src.drop pos2 = ',' :: (u ++ ';' :: post2)) :
    (if ((⟨src, pos2⟩ : Parser).skipSpaces).peek == ',' then
      (((⟨src, pos2⟩ : Parser).skipSpaces).next).2
    else (⟨src, pos2⟩ : Parser).skipSpaces) = ⟨src, pos2 + 1⟩ := by
  have hr : (⟨src, pos2⟩ : Parser).rest = ',' :: (u ++ ';' :: post2) := by
    rw [rest_mk]
    exact hdrop2
  rw [skipSpaces_id (Or.inr ⟨',', _, hr, by decide⟩),
    if_pos (by rw [peek_of_rest hr]; decide), next_of_rest hr]

/-- The cell loop of one table row inverts the row encoder: with the first
`preV.length` fields already restored and the rest still zero, decoding the
remaining cells followed by `;` restores exactly the remaining fields and
consumes through the `;`. -/
theorem decodeTableCells_enc :
    ∀ {todoT : List (String × GoTy)} {todoV : List (String × GoVal)},
      List.Forall₂ (fun (kt : String × GoTy) (kv : String × GoVal) =>
        kt.1 = kv.1 ∧ cellOk kt.2 kv.2) todoT todoV →
      ∀ (eflds preT : List (String × GoTy)) (preV sv : List (String × GoVal))
        (hdrs : List (List Char)) (src post : List Char) (pos g idx : Nat),
        eflds = preT ++ todoT →
        sv = preV ++ zeroFields todoT →
        hdrs = (resolvedKeys eflds).map String.data →
        (resolvedKeys eflds).Nodup →
        preT.length = preV.length →
        idx = preV.length →
        src.drop pos = rowCells todoV true ++ ';' :: post →
        (rowCells todoV true).length + 2 ≤ g →
        decodeTableCells g eflds hdrs sv idx ⟨src, pos⟩ =
          .ok (preV ++ todoV,
            ⟨src, pos + (rowCells todoV true).length + 1⟩) := by
  intro todoT todoV hf
  induction hf with
  | nil =>
    intro eflds preT preV sv hdrs src post pos g idx hsplit hsv hhdrs hnd
      hlen hidx hdrop hg
    obtain ⟨g2, rfl⟩ : ∃ g2, g = g2 + 1 := ⟨g - 1, by omega⟩
    have hr : (⟨src, pos⟩ : Parser).rest = ';' :: post := by
      rw [rest_mk]
      simpa [rowCells] using hdrop
    rw [decodeTableCells,
      skipSpaces_id (Or.inr ⟨';', post, hr, by decide⟩),
      if_pos (by rw [peek_of_rest hr]; decide), next_of_rest hr]
    subst hsv
    simp [rowCells, zeroFields]
  | @cons kt kv todoT2 todoV2 hR hftail ih =>
    intro eflds preT preV sv hdrs src post pos g idx hsplit hsv hhdrs hnd
      hlen hidx hdrop hg
    subst hsplit
    subst hsv
    subst hhdrs
    subst hidx
    obtain ⟨k, ty⟩ := kt
    obtain ⟨k2, cv⟩ := kv
    obtain ⟨hkeq, hcell⟩ := hR
    simp only at hkeq hcell
    subst hkeq
    have hrow : rowCells ((k, cv) :: todoV2) true =
        encodeTableCell cv ++ rowCells todoV2 false := rfl
    rw [hrow] at hdrop hg ⊢
    obtain ⟨ch, ct0, hcth, hchs, hchsemi, hchp, hchc⟩ :=
      encodeTableCell_head hcell
    have hlook : fieldMapLookup (preT ++ (k, ty) :: todoT2) k.data =
        some preT.length :=
      fieldMapLookup_get? hnd (get?_append_len preT (k, ty) todoT2)
    have hgd : ((resolvedKeys (preT ++ (k, ty) :: todoT2)).map
        String.data).getD preV.length [] = k.data := by
      rw [show (resolvedKeys (preT ++ (k, ty) :: todoT2)).map String.data =
        (resolvedKeys preT).map String.data ++ k.data ::
          (resolvedKeys todoT2).map String.data from by
            simp [resolvedKeys]]
      exact getD_append_len _ _ _ _ (by simp [resolvedKeys]; omega)
    have htailsep : SepAfter (rowCells todoV2 false ++ ';' :: post) := by
      cases hftail with
      | nil => exact sepAfter_semi post
      | @cons kt2 kv2 t2b v2b hR2 hf2 =>
        rw [rowCells_false]
        exact sepAfter_comma _
    obtain ⟨g2, rfl⟩ : ∃ g2, g = g2 + 1 := ⟨g - 1, by omega⟩
    -- shared finish: consume the optional comma and recurse on the rest of
    -- the row
    have hfinish : ∀ ctlen : Nat, 0 < ctlen →
        src.drop (pos + ctlen) = rowCells todoV2 false ++ ';' :: post →
        ctlen + (rowCells todoV2 false).length =
          (encodeTableCell cv ++ rowCells todoV2 false).length →
        decodeTableCells g2 (preT ++ (k, ty) :: todoT2)
          ((resolvedKeys (preT ++ (k, ty) :: todoT2)).map String.data)
          (preV ++ (k, cv) :: zeroFields todoT2) (preV.length + 1)
          (if (((⟨src, pos + ctlen⟩ : Parser).skipSpaces).peek == ',') then
            (((⟨src, pos + ctlen⟩ : Parser).skipSpaces).next).2
          else (⟨src, pos + ctlen⟩ : Parser).skipSpaces) =
        .ok (preV ++ (k, cv) :: todoV2,
          ⟨src, pos +
            (encodeTableCell cv ++ rowCells todoV2 false).length + 1⟩) := by
      intro ctlen h0 hrest2 hctlen
      cases hftail with
      | nil =>
        rw [show rowCells ([] : List (String × GoVal)) false = [] from rfl]
          at hrest2 hctlen
        rw [sep_step_nil (by simpa using hrest2)]
        rw [ih (preT ++ (k, ty) :: []) (preT ++ [(k, ty)])
          (preV ++ [(k, cv)]) (preV ++ (k, cv) :: zeroFields [])
          ((resolvedKeys (preT ++ (k, ty) :: [])).map String.data) src post
          (pos + ctlen) g2 (preV.length + 1) (by simp)
          (by simp) (by simp) hnd (by simp [hlen]) (by simp)
          (by simpa [rowCells] using hrest2)
          (by simp [rowCells] at hg hctlen ⊢; omega)]
        simp [rowCells] at hctlen ⊢
        omega
      | @cons kt2 kv2 t2b v2b hR2 hf2 =>
        rw [rowCells_false] at hrest2 hctlen hg ⊢
        rw [sep_step_comma (u := rowCells (kv2 :: v2b) true)
          (by simpa using hrest2)]
        have hdrop3 : src.drop (pos + ctlen + 1) =
            rowCells (kv2 :: v2b) true ++ ';' :: post := by
          have h9 := advance_rest (p := ⟨src, pos + ctlen⟩) (c := ',')
            (t := rowCells (kv2 :: v2b) true ++ ';' :: post)
            (by rw [rest_mk]; simpa using hrest2)
          rw [rest_mk] at h9
          exact h9
        rw [ih (preT ++ (k, ty) :: kt2 :: t2b) (preT ++ [(k, ty)])
          (preV ++ [(k, cv)]) (preV ++ (k, cv) :: zeroFields (kt2 :: t2b))
          ((resolvedKeys (preT ++ (k, ty) :: kt2 :: t2b)).map String.data)
          src post (pos + ctlen + 1) g2 (preV.length + 1) (by simp)
          (by simp) (by simp) hnd (by simp [hlen]) (by simp)
          hdrop3 (by simp at hg hctlen ⊢; omega)]
        simp at hctlen ⊢
        omega
    rcases ty with _ | _ | _ | tfl | tel <;>
      rcases cv with s | n | b | fx | ⟨sx, ex⟩ | mx <;>
        simp only [cellOk] at hcell
    · -- string cell: a quoted literal, `""` when the string is empty
      have hct := encodeTableCell_str s
      rw [hct] at hdrop hcth
      have hr : (⟨src, pos⟩ : Parser).rest =
          ch :: (ct0 ++ (rowCells todoV2 false ++ ';' :: post)) := by
        rw [rest_mk, hdrop, hcth]
        simp
      rw [decodeTableCells,
        skipSpaces_id (Or.inr ⟨ch, _, hr, hchs⟩),
        if_neg (by rw [peek_of_rest hr]; simp [hchsemi]),
        if_neg (by rw [peek_of_rest hr]; simp [hchp]),
        if_pos (by rw [peek_of_rest hr, show ch = dq from by
          have h8 := hcth
          rw [goQuote] at h8
          exact (List.cons.inj h8).1.symm]; decide)]
      rw [parseStringValue_quote (s := s.data)
        (q := rowCells todoV2 false ++ ';' :: post) (by simp [hdrop])
        hcell htailsep]
      simp only
      rw [if_pos (by simp [resolvedKeys]; omega), hgd, hlook]
      simp only
      rw [fieldTyAt_mid, hlen, zeroFields_cons, fieldValAt_mid]
      have hset : setFieldFromString GoTy.str (zeroVal GoTy.str) s.data =
          .ok (GoVal.str s) := by
        by_cases h0 : s.data = []
        · have hs0 : s = "" := string_data_eq (by simpa using h0)
          subst hs0
          rw [setFieldFromString, if_pos (by simp)]
          rfl
        · rw [setFieldFromString, if_neg (by simpa using h0), mk_data]
      rw [hset]
      simp only
      rw [setStructField_mid]
      refine hfinish (goQuote s.data).length (by simp [goQuote]) ?_
        (by rw [encodeTableCell_str]; simp)
      exact drop_eq_of_drop (p := pos) (a := goQuote s.data)
        (b := rowCells todoV2 false ++ ';' :: post) (by simp [hdrop]) rfl
    · -- integer cell: a bare decimal literal
      obtain ⟨hne, hnd2, _⟩ := formatInt_spec n
      have hct : encodeTableCell (GoVal.int n) = formatInt n := rfl
      rw [hct] at hdrop hcth
      have hr : (⟨src, pos⟩ : Parser).rest =
          ch :: (ct0 ++ (rowCells todoV2 false ++ ';' :: post)) := by
        rw [rest_mk, hdrop, hcth]
        simp
      have hchdq : ch ≠ dq := formatInt_ne_dq n ch (by rw [hcth]; simp)
      rw [decodeTableCells,
        skipSpaces_id (Or.inr ⟨ch, _, hr, hchs⟩),
        if_neg (by rw [peek_of_rest hr]; simp [hchsemi]),
        if_neg (by rw [peek_of_rest hr]; simp [hchp]),
        if_neg (by rw [peek_of_rest hr]; simp [hchdq])]
      have hpostc : ∃ c3 t3,
          rowCells todoV2 false ++ ';' :: post = c3 :: t3 ∧
            ((",;)".data).contains c3) = true := by
        cases hftail with
        | nil => exact ⟨';', post, rfl, by decide⟩
        | @cons kt2 kv2 t2b v2b hR2 hf2 =>
          rw [rowCells_false]
          exact ⟨',', _, rfl, by decide⟩
      rw [readUntilAny_parses (k := formatInt n)
        (q := rowCells todoV2 false ++ ';' :: post)
        (by rw [rest_mk]; simpa using hdrop)
        (fun c hc => contains_cell_of_not_delim (hnd2 c hc)) hpostc]
      simp only
      rw [trimChars_id fun c hc => not_space_of_not_delim (hnd2 c hc)]
      rw [if_pos (by simp [resolvedKeys]; omega), hgd, hlook]
      simp only
      rw [fieldTyAt_mid, hlen, zeroFields_cons, fieldValAt_mid]
      have hset : setFieldFromString GoTy.int (zeroVal GoTy.int)
          (formatInt n) = .ok (GoVal.int n) := by
        rw [setFieldFromString, if_neg (by simpa using hne),
          goParseInt_formatInt]
      rw [hset]
      simp only
      rw [setStructField_mid]
      refine hfinish (formatInt n).length
        (List.length_pos.mpr hne) ?_ (by rw [hct]; simp)
      exact drop_eq_of_drop (p := pos) (a := formatInt n)
        (b := rowCells todoV2 false ++ ';' :: post) (by simp [hdrop]) rfl
    · -- boolean cell: a bare `true` or `false`
      have hct : encodeTableCell (GoVal.bool b) =
          (if b then "true".data else "false".data) := rfl
      have hnd2 : ∀ c ∈ (if b then "true".data else "false".data),
          isBareDelim c = false := by
        cases b <;> decide
      have hbne : (if b then "true".data else "false".data) ≠ [] := by
        cases b <;> decide
      rw [hct] at hdrop hcth
      have hr : (⟨src, pos⟩ : Parser).rest =
          ch :: (ct0 ++ (rowCells todoV2 false ++ ';' :: post)) := by
        rw [rest_mk, hdrop, hcth]
        simp
      have hchdq : ch ≠ dq := by
        have hm : ch ∈ (if b then "true".data else "false".data) := by
          rw [hcth]
          simp
        cases b
        · simp at hm
          rcases hm with rfl | rfl | rfl | rfl | rfl <;> decide
        · simp at hm
          rcases hm with rfl | rfl | rfl | rfl <;> decide
      rw [decodeTableCells,
        skipSpaces_id (Or.inr ⟨ch, _, hr, hchs⟩),
        if_neg (by rw [peek_of_rest hr]; simp [hchsemi]),
        if_neg (by rw [peek_of_rest hr]; simp [hchp]),
        if_neg (by rw [peek_of_rest hr]; simp [hchdq])]
      have hpostc : ∃ c3 t3,
          rowCells todoV2 false ++ ';' :: post = c3 :: t3 ∧
            ((",;)".data).contains c3) = true := by
        cases hftail with
        | nil => exact ⟨';', post, rfl, by decide⟩
        | @cons kt2 kv2 t2b v2b hR2 hf2 =>
          rw [rowCells_false]
          exact ⟨',', _, rfl, by decide⟩
      rw [readUntilAny_parses (k := if b then "true".data else "false".data)
        (q := rowCells todoV2 false ++ ';' :: post)
        (by rw [rest_mk]; simpa using hdrop)
        (fun c hc => contains_cell_of_not_delim (hnd2 c hc)) hpostc]
      simp only
      rw [trimChars_id fun c hc => not_space_of_not_delim (hnd2 c hc)]
      rw [if_pos (by simp [resolvedKeys]; omega), hgd, hlook]
      simp only
      rw [fieldTyAt_mid, hlen, zeroFields_cons, fieldValAt_mid]
      have hset : setFieldFromString GoTy.bool (zeroVal GoTy.bool)
          (if b then "true".data else "false".data) =
          .ok (GoVal.bool b) := by
        cases b
        · rw [setFieldFromString, if_neg (by decide),
            show goParseBool (if false = true then "true".data
              else "false".data) = some false from by decide]
        · rw [setFieldFromString, if_neg (by decide),
            show goParseBool (if true = true then "true".data
              else "false".data) = some true from by decide]
      rw [hset]
      simp only
      rw [setStructField_mid]
      refine hfinish (if b then "true".data else "false".data).length
        (by cases b <;> decide) ?_ (by rw [hct]; simp)
      exact drop_eq_of_drop (p := pos)
        (a := if b then "true".data else "false".data)
        (b := rowCells todoV2 false ++ ';' :: post) (by simp [hdrop]) rfl

/-- The row loop of `decodeTable` inverts the row encoder: each row decodes
from a fresh zero record, rows accumulate in order, and the loop consumes
through the closing `)`. -/
theorem decodeTableRows_enc :
    ∀ (es : List GoVal) (eflds : List (String × GoTy)) (acc : List GoVal)
      (src post : List Char) (pos g : Nat),
      (resolvedKeys eflds).Nodup →
      (∀ v ∈ es, RowClean eflds v) →
      src.drop pos = rowsFlat es ++ ')' :: post →
      (rowsFlat es).length + 2 ≤ g →
      decodeTableRows g eflds ((resolvedKeys eflds).map String.data) acc
          ⟨src, pos⟩ =
        .ok (acc ++ es, ⟨src, pos + (rowsFlat es).length + 1⟩) := by
  intro es
  induction es with
  | nil =>
    intro eflds acc src post pos g hnd _ hdrop hg
    obtain ⟨g2, rfl⟩ : ∃ g2, g = g2 + 1 := ⟨g - 1, by omega⟩
    have hr : (⟨src, pos⟩ : Parser).rest = ')' :: post := by
      rw [rest_mk]
      simpa [rowsFlat] using hdrop
    rw [decodeTableRows,
      skipSpaces_id (Or.inr ⟨')', post, hr, by decide⟩),
      if_pos (by rw [peek_of_rest hr]; decide), next_of_rest hr]
    simp [rowsFlat]
  | cons v r ih =>
    intro eflds acc src post pos g hnd hrows hdrop hg
    have hrc := hrows v (by simp)
    rcases v with s | n | b | fvs | ⟨sh, es2⟩ | m <;>
      simp only [RowClean] at hrc
    have hf2 : List.Forall₂
        (fun (kt : String × GoTy) (kv : String × GoVal) =>
          kt.1 = kv.1 ∧ cellOk kt.2 kv.2) eflds fvs :=
      forall2_of_get eflds fvs hrc.1.symm (fun i h1 h2 => hrc.2 i h1 h2)
    have hrf : rowsFlat (GoVal.struct fvs :: r) =
        rowCells fvs true ++ [';'] ++ rowsFlat r := rfl
    rw [hrf] at hdrop hg ⊢
    obtain ⟨g2, rfl⟩ : ∃ g2, g = g2 + 1 := ⟨g - 1, by omega⟩
    have hh : ∃ c0 t0,
        rowCells fvs true ++ ';' :: (rowsFlat r ++ ')' :: post) =
          c0 :: t0 ∧ isSpaceCh c0 = false ∧ c0 ≠ ')' := by
      cases hf2 with
      | nil => exact ⟨';', _, rfl, by decide, by decide⟩
      | @cons kt2 kv2 tb vb hR2 hf2b =>
        obtain ⟨c2, t22, hc2, hc2s, _, hc2p, _⟩ :=
          encodeTableCell_head hR2.2
        refine ⟨c2, t22 ++ rowCells vb false ++
          ';' :: (rowsFlat r ++ ')' :: post), ?_, hc2s, hc2p⟩
        rw [show rowCells (kv2 :: vb) true =
          encodeTableCell kv2.2 ++ rowCells vb false from rfl, hc2]
        simp
    obtain ⟨c0, t0, hsh, hc0s, hc0p⟩ := hh
    have hr : (⟨src, pos⟩ : Parser).rest = c0 :: t0 := by
      rw [rest_mk, hdrop, ← hsh]
      simp
    rw [decodeTableRows,
      skipSpaces_id (Or.inr ⟨c0, t0, hr, hc0s⟩),
      if_neg (by rw [peek_of_rest hr]; simp [hc0p])]
    rw [decodeTableCells_enc hf2 eflds [] [] (zeroFields eflds)
      ((resolvedKeys eflds).map String.data) src
      (rowsFlat r ++ ')' :: post) pos g2 0 rfl rfl rfl hnd rfl rfl
      (by simp [hdrop]) (by simp at hg ⊢; omega)]
    simp only [List.nil_append]
    rw [ih eflds (acc ++ [GoVal.struct fvs]) src post
      (pos + (rowCells fvs true).length + 1) g2 hnd
      (fun x hx => hrows x (by simp [hx]))
      (by
        refine drop_eq_of_drop (p := pos)
          (a := rowCells fvs true ++ [';'])
          (b := rowsFlat r ++ ')' :: post) (by simp [hdrop]) ?_
        simp
        omega)
      (by simp at hg ⊢; omega)]
    simp
    omega

/-! ### The master encode-decode inversion for `Clean` values -/

/-- Every member of the right list of a `Forall₂` has a related witness on
the left. -/
theorem forall2_right_mem {α β : Type} {R : α → β → Prop} :
    ∀ {l1 : List α} {l2 : List β}, List.Forall₂ R l1 l2 →
      ∀ b ∈ l2, ∃ a, a ∈ l1 ∧ R a b := by
  intro l1 l2 h
  induction h with
  | nil => intro b hb; exact absurd hb (List.not_mem_nil b)
  | @cons a b l1t l2t hR htail ih =>
    intro b2 hb2
    rcases List.mem_cons.mp hb2 with rfl | hb3
    · exact ⟨a, by simp, hR⟩
    · obtain ⟨a2, ha2, hab⟩ := ih b2 hb3
      exact ⟨a2, by simp [ha2], hab⟩

/-- A nonempty header's text starts with its first key. -/
theorem headerText_cons (k : String) (r : List String) :
    ∃ t2, headerText (k :: r) = k.data ++ t2 := by
  cases r with
  | nil => exact ⟨[], by simp [headerText]⟩
  | cons k2 r2 => exact ⟨[','] ++ headerText (k2 :: r2), by simp [headerText]⟩

/-- A header of bare keys is at least as long as its key count. -/
theorem headerText_len :
    ∀ (keys : List String), (∀ k ∈ keys, bareKey k) →
      keys.length ≤ (headerText keys).length := by
  intro keys
  induction keys with
  | nil => intro _; simp [headerText]
  | cons k r ih =>
    intro h
    have hbk : bareKey k := h k (by simp)
    have hk1 : 1 ≤ k.data.length := by
      cases hd : k.data with
      | nil => exact absurd hd hbk.1
      | cons c t => simp
    cases r with
    | nil =>
      have hht : headerText [k] = k.data := by simp [headerText]
      rw [hht]
      simpa using hk1
    | cons k2 r2 =>
      have h2 := ih (fun x hx => h x (by simp [hx]))
      have h3 : headerText (k :: k2 :: r2) =
          k.data ++ [','] ++ headerText (k2 :: r2) := by
        simp [headerText]
      rw [h3]
      simp only [List.length_append, List.length_cons, List.length_nil] at h2 ⊢
      omega

/-- Every `Clean` value round-trips through the compact codec: the encoder
succeeds, and the decoder run on its output — at any position inside a
larger source, followed by any value separator, with any sufficient fuel —
returns exactly the value and consumes exactly the encoded text. -/
theorem clean_encDec : ∀ {ty : GoTy} {v : GoVal}, Clean ty v → EncDec ty v := by
  intro ty v h
  induction h with
  | str s hs =>
    intro lvl
    by_cases hc : s.data.contains '\n'
    · have hsafe : tripleSafe s.data := by
        simp only [strOk] at hs
        rwa [if_pos hc] at hs
      refine ⟨tripleQ ++ s.data ++ tripleQ,
        by rw [encodeValue]; simp only [encodeString]; rw [if_pos hc],
        by simp [tripleQ], ?_, ?_⟩
      · exact headOk_cons (by decide) (by decide) (by decide) (by decide)
          (by decide) (by decide)
      intro src post pos g hdrop hsep hg
      obtain ⟨g2, rfl⟩ : ∃ g2, g = g2 + 1 := ⟨g - 1, by omega⟩
      have hr : (⟨src, pos⟩ : Parser).rest =
          dq :: (dq :: dq :: (s.data ++ tripleQ ++ post)) := by
        rw [rest_mk, hdrop]
        simp [tripleQ]
      rw [decodeValue, skipSpaces_id (Or.inr ⟨dq, _, hr, by decide⟩)]
      rw [parseStringValue_triple (s := s.data) (q := post)
        (by simpa using hdrop) hsafe]
      have hlen : (tripleQ ++ s.data ++ tripleQ).length =
          s.data.length + 6 := by
        simp [tripleQ]
      rw [hlen]
    · have hok : ∀ c ∈ s.data, quoteOkChar c := by
        simp only [strOk] at hs
        rwa [if_neg hc] at hs
      refine ⟨goQuote s.data,
        by rw [encodeValue]; simp only [encodeString]; rw [if_neg hc],
        by simp [goQuote], ?_, ?_⟩
      · exact headOk_cons (by decide) (by decide) (by decide) (by decide)
          (by decide) (by decide)
      intro src post pos g hdrop hsep hg
      obtain ⟨g2, rfl⟩ : ∃ g2, g = g2 + 1 := ⟨g - 1, by omega⟩
      have hr : (⟨src, pos⟩ : Parser).rest =
          dq :: (s.data.flatMap goQuoteChar ++ [dq] ++ post) := by
        rw [rest_mk, hdrop, goQuote]
        simp
      rw [decodeValue, skipSpaces_id (Or.inr ⟨dq, _, hr, by decide⟩)]
      rw [parseStringValue_quote hdrop hok hsep]
  | int n hn =>
    intro lvl
    obtain ⟨hne, hnd, _⟩ := formatInt_spec n
    obtain ⟨c0, t0, hft⟩ : ∃ c0 t0, formatInt n = c0 :: t0 := by
      cases hft : formatInt n with
      | nil => exact absurd hft hne
      | cons c0 t0 => exact ⟨c0, t0, rfl⟩
    have hc0 : isBareDelim c0 = false := hnd c0 (by rw [hft]; simp)
    refine ⟨formatInt n, by rw [encodeValue], hne,
      by rw [hft]; exact headOk_of_not_delim hc0, ?_⟩
    intro src post pos g hdrop hsep hg
    obtain ⟨g2, rfl⟩ : ∃ g2, g = g2 + 1 := ⟨g - 1, by omega⟩
    have hr : (⟨src, pos⟩ : Parser).rest = c0 :: (t0 ++ post) := by
      rw [rest_mk, hdrop, hft]
      simp
    have hpost2 : post = [] ∨ ∃ c t, post = c :: t ∧ isBareDelim c = true := by
      rcases hsep with rfl | ⟨c, t, rfl, hcd, _, _⟩
      · exact Or.inl rfl
      · exact Or.inr ⟨c, t, rfl, hcd⟩
    rw [decodeValue,
      skipSpaces_id (Or.inr ⟨c0, _, hr, not_space_of_not_delim hc0⟩)]
    rw [parseNumber_formatInt hdrop hpost2]
    simp [goTrunc_intCast]
  | bool b =>
    intro lvl
    have hpost2 : ∀ post : List Char, SepAfter post →
        post = [] ∨ ∃ c t, post = c :: t ∧ isBareDelim c = true := by
      intro post hsep
      rcases hsep with rfl | ⟨c, t, rfl, hcd, _, _⟩
      · exact Or.inl rfl
      · exact Or.inr ⟨c, t, rfl, hcd⟩
    cases b
    · refine ⟨"false".data, by rw [encodeValue]; rfl, by decide,
        headOk_cons (by decide) (by decide) (by decide) (by decide)
          (by decide) (by decide), ?_⟩
      intro src post pos g hdrop hsep hg
      obtain ⟨g2, rfl⟩ : ∃ g2, g = g2 + 1 := ⟨g - 1, by omega⟩
      have hr : (⟨src, pos⟩ : Parser).rest =
          'f' :: (['a', 'l', 's', 'e'] ++ post) := by
        rw [rest_mk, hdrop]
        rfl
      rw [decodeValue, skipSpaces_id (Or.inr ⟨'f', _, hr, by decide⟩)]
      rw [parseBool_enc (b := false) hdrop (hpost2 post hsep)]
      rfl
    · refine ⟨"true".data, by rw [encodeValue]; rfl, by decide,
        headOk_cons (by decide) (by decide) (by decide) (by decide)
          (by decide) (by decide), ?_⟩
      intro src post pos g hdrop hsep hg
      obtain ⟨g2, rfl⟩ : ∃ g2, g = g2 + 1 := ⟨g - 1, by omega⟩
      have hr : (⟨src, pos⟩ : Parser).rest =
          't' :: (['r', 'u', 'e'] ++ post) := by
        rw [rest_mk, hdrop]
        rfl
      rw [decodeValue, skipSpaces_id (Or.inr ⟨'t', _, hr, by decide⟩)]
      rw [parseBool_enc (b := true) hdrop (hpost2 post hsep)]
      rfl
  | struct flds fvs hkeys hlen hk hv ih =>
    intro lvl
    have hf2 : List.Forall₂ (fun (kt : String × GoTy) (kv : String × GoVal) =>
        kt.1 = kv.1 ∧ Clean kt.2 kv.2 ∧ EncDec kt.2 kv.2) flds fvs :=
      forall2_of_get flds fvs hlen
        (fun i h1 h2 => ⟨hk i h1 h2, hv i h1 h2, ih i h1 h2⟩)
    obtain ⟨body, hbody⟩ := encodeFields_ok fvs lvl true (by
      intro kv hkv
      obtain ⟨kt, _, _, _, hed⟩ := forall2_right_mem hf2 kv hkv
      obtain ⟨t, ht, _⟩ := hed (lvl + 1)
      exact Or.inr ⟨t, ht⟩)
    have henc : encodeValue (.struct fvs) lvl true =
        .ok ([lbrace] ++ body ++ [rbrace]) := by
      rw [encodeValue, encodeStruct, hbody]
      simp
    refine ⟨[lbrace] ++ body ++ [rbrace], henc, by simp,
      headOk_cons (by decide) (by decide) (by decide) (by decide)
        (by decide) (by decide), ?_⟩
    intro src post pos g hdrop hsep hg
    simp only [List.length_append, List.length_cons, List.length_nil] at hg
    obtain ⟨g2, rfl⟩ : ∃ g2, g = g2 + 1 := ⟨g - 1, by omega⟩
    obtain ⟨g3, rfl⟩ : ∃ g3, g2 = g3 + 1 := ⟨g2 - 1, by omega⟩
    have hr : (⟨src, pos⟩ : Parser).rest =
        lbrace :: (body ++ rbrace :: post) := by
      rw [rest_mk, hdrop]
      simp
    have hdrop1 : src.drop (pos + 1) = body ++ rbrace :: post := by
      refine drop_eq_of_drop (p := pos) (a := [lbrace])
        (b := body ++ rbrace :: post) ?_ (by simp)
      simpa using hdrop
    obtain ⟨c0, t0, hbt, hc0s⟩ : ∃ c0 t0,
        body ++ rbrace :: post = c0 :: t0 ∧ isSpaceCh c0 = false := by
      cases hf2 with
      | nil =>
        rw [encodeFields] at hbody
        injection hbody with hb
        subst hb
        exact ⟨rbrace, post, rfl, by decide⟩
      | @cons kt kv tb vb hR hfb =>
        obtain ⟨t2, hsh⟩ := encodeFields_ok_shape hbody
        have hko : bareKey kv.1 := by
          rw [← hR.1]
          exact hkeys.2 kt.1 (by rw [resolvedKeys]; simp)
        obtain ⟨d0, kd, hkd⟩ : ∃ d0 kd, kv.1.data = d0 :: kd := by
          cases hq : kv.1.data with
          | nil => exact absurd hq hko.1
          | cons d0 kd => exact ⟨d0, kd, rfl⟩
        have hd0 : isBareDelim d0 = false := hko.2 d0 (by rw [hkd]; simp)
        refine ⟨d0, kd ++ '=' :: t2 ++ rbrace :: post, ?_,
          not_space_of_not_delim hd0⟩
        rw [hsh, hkd]
        simp
    have hr1 : (⟨src, pos + 1⟩ : Parser).rest = c0 :: t0 := by
      rw [rest_mk, hdrop1, hbt]
    have hzv : zeroVal (.struct flds) = .struct (zeroFields flds) := by
      rw [zeroVal]
    rw [decodeValue, skipSpaces_id (Or.inr ⟨lbrace, _, hr, by decide⟩)]
    rw [hzv, decodeStruct, if_neg (by rw [peek_of_rest hr]; decide),
      next_of_rest hr]
    rw [skipSpaces_id (Or.inr ⟨c0, t0, hr1, hc0s⟩)]
    rw [decodeStructLoop_enc hf2 flds [] [] (zeroFields flds) lvl body src
      post (pos + 1) g3 rfl rfl hkeys.1 hkeys.2 rfl hbody hdrop1
      (by omega)]
    simp
    omega
  | sliceNil el =>
    intro lvl
    have henc : encodeValue (.slice (sliceHdr el) []) lvl true =
        .ok ['[', ']'] := by
      rw [encodeValue, encodeSlice.eq_def]
      simp
    refine ⟨['[', ']'], henc, by simp,
      headOk_cons (by decide) (by decide) (by decide) (by decide)
        (by decide) (by decide), ?_⟩
    intro src post pos g hdrop hsep hg
    simp only [List.length_cons, List.length_nil] at hg
    obtain ⟨g2, rfl⟩ : ∃ g2, g = g2 + 1 := ⟨g - 1, by omega⟩
    obtain ⟨g3, rfl⟩ : ∃ g3, g2 = g3 + 1 := ⟨g2 - 1, by omega⟩
    have hr : (⟨src, pos⟩ : Parser).rest = '[' :: (']' :: post) := by
      rw [rest_mk, hdrop]
      rfl
    have hdrop1 : src.drop (pos + 1) = [] ++ ']' :: post := by
      refine drop_eq_of_drop (p := pos) (a := ['['])
        (b := ']' :: post) ?_ (by simp)
      simpa using hdrop
    have hr1 : (⟨src, pos + 1⟩ : Parser).rest = ']' :: post := by
      rw [rest_mk]
      simpa using hdrop1
    rw [decodeValue, skipSpaces_id (Or.inr ⟨'[', _, hr, by decide⟩)]
    rw [decodeSlice, skipSpaces_id (Or.inr ⟨'[', _, hr, by decide⟩),
      if_neg (by rw [peek_of_rest hr]; decide),
      if_neg (by rw [peek_of_rest hr]; decide),
      next_of_rest hr]
    rw [skipSpaces_id (Or.inr ⟨']', post, hr1, by decide⟩)]
    rw [decodeSliceLoop_enc [] el (fun x hx => (List.not_mem_nil x hx).elim)
      [] lvl [] src post (pos + 1) g3 (by rw [encodeListElems]) hdrop1
      (by simp; omega)]
    simp
  | sliceList el es hnotStruct hne hes ih =>
    intro lvl
    obtain ⟨body, hbody⟩ := encodeListElems_ok es lvl true (by
      intro v2 hv2
      obtain ⟨t, ht, _⟩ := ih v2 hv2 lvl
      exact ⟨t, ht⟩)
    have henc : encodeValue (.slice none es) lvl true =
        .ok (['['] ++ body ++ [']']) := by
      rw [encodeValue, encodeSlice.eq_def, if_neg (by simp [hne])]
      rw [hbody]
    obtain ⟨v0, r0, rfl⟩ : ∃ v0 r0, es = v0 :: r0 := by
      cases es with
      | nil => exact absurd rfl hne
      | cons v0 r0 => exact ⟨v0, r0, rfl⟩
    obtain ⟨tv, tr, htv, hbt⟩ := encodeListElems_ok_shape hbody
    obtain ⟨t0, ht0, ht0ne, ht0head, _⟩ := ih v0 (by simp) lvl
    have htv0 : tv = t0 := by
      rw [htv] at ht0
      exact Except.ok.inj ht0
    subst htv0
    obtain ⟨c0, tc0, hct⟩ : ∃ c0 tc0, tv = c0 :: tc0 := by
      cases hq : tv with
      | nil => exact absurd hq ht0ne
      | cons c0 tc0 => exact ⟨c0, tc0, rfl⟩
    have hc0s : isSpaceCh c0 = false := (ht0head c0 tc0 hct).1
    refine ⟨['['] ++ body ++ [']'], henc, by simp,
      headOk_cons (by decide) (by decide) (by decide) (by decide)
        (by decide) (by decide), ?_⟩
    intro src post pos g hdrop hsep hg
    simp only [List.length_append, List.length_cons, List.length_nil] at hg
    obtain ⟨g2, rfl⟩ : ∃ g2, g = g2 + 1 := ⟨g - 1, by omega⟩
    obtain ⟨g3, rfl⟩ : ∃ g3, g2 = g3 + 1 := ⟨g2 - 1, by omega⟩
    have hr : (⟨src, pos⟩ : Parser).rest = '[' :: (body ++ ']' :: post) := by
      rw [rest_mk, hdrop]
      simp
    have hdrop1 : src.drop (pos + 1) = body ++ ']' :: post := by
      refine drop_eq_of_drop (p := pos) (a := ['['])
        (b := body ++ ']' :: post) ?_ (by simp)
      simpa using hdrop
    have hr1 : (⟨src, pos + 1⟩ : Parser).rest =
        c0 :: (tc0 ++ tr ++ ']' :: post) := by
      rw [rest_mk, hdrop1, hbt, hct]
      simp
    rw [decodeValue, skipSpaces_id (Or.inr ⟨'[', _, hr, by decide⟩)]
    rw [decodeSlice, skipSpaces_id (Or.inr ⟨'[', _, hr, by decide⟩),
      if_neg (by rw [peek_of_rest hr]; decide),
      if_neg (by rw [peek_of_rest hr]; decide),
      next_of_rest hr]
    rw [skipSpaces_id (Or.inr ⟨c0, _, hr1, hc0s⟩)]
    rw [decodeSliceLoop_enc (v0 :: r0) el (fun v2 hv2 => ih v2 hv2) [] lvl
      body src post (pos + 1) g3 hbody hdrop1 (by omega)]
    simp [hnotStruct]
    omega
  | sliceTable eflds es hne hkeys hrows =>
    intro lvl
    have hstr : ∀ v2 ∈ es, ∃ fvs, v2 = GoVal.struct fvs := by
      intro v2 hv2
      have hrc := hrows v2 hv2
      rcases v2 with s | n | b | fvs | ⟨sh, es2⟩ | m <;>
        simp only [RowClean] at hrc
      exact ⟨fvs, rfl⟩
    have henc : encodeValue (.slice (some (resolvedKeys eflds)) es) lvl true =
        .ok (['('] ++ headerText (resolvedKeys eflds) ++ [':'] ++
          rowsFlat es ++ [')']) := by
      rw [encodeValue, encodeSlice.eq_def, if_neg (by simp [hne])]
      show encodeStructSliceAsTable (resolvedKeys eflds) es = _
      rw [encodeStructSliceAsTable_ok _ es hne hstr]
    have hbare : ∀ k ∈ resolvedKeys eflds, bareKey k := hkeys.2
    have hhl := headerText_len (resolvedKeys eflds) hbare
    refine ⟨['('] ++ headerText (resolvedKeys eflds) ++ [':'] ++
      rowsFlat es ++ [')'], henc, by simp,
      headOk_cons (by decide) (by decide) (by decide) (by decide)
        (by decide) (by decide), ?_⟩
    intro src post pos g hdrop hsep hg
    simp only [List.length_append, List.length_cons, List.length_nil] at hg
    obtain ⟨g2, rfl⟩ : ∃ g2, g = g2 + 1 := ⟨g - 1, by omega⟩
    obtain ⟨g3, rfl⟩ : ∃ g3, g2 = g3 + 1 := ⟨g2 - 1, by omega⟩
    obtain ⟨g4, rfl⟩ : ∃ g4, g3 = g4 + 1 := ⟨g3 - 1, by omega⟩
    have hr : (⟨src, pos⟩ : Parser).rest =
        '(' :: (headerText (resolvedKeys eflds) ++
          ':' :: (rowsFlat es ++ ')' :: post)) := by
      rw [rest_mk, hdrop]
      simp
    have hdrop1 : src.drop (pos + 1) =
        headerText (resolvedKeys eflds) ++
          ':' :: (rowsFlat es ++ ')' :: post) := by
      refine drop_eq_of_drop (p := pos) (a := ['(']) ?_ (by simp)
      rw [hdrop]
      simp
    obtain ⟨c0, t0, hbt, hc0s⟩ : ∃ c0 t0,
        headerText (resolvedKeys eflds) ++
          ':' :: (rowsFlat es ++ ')' :: post) = c0 :: t0 ∧
          isSpaceCh c0 = false := by
      cases hks : resolvedKeys eflds with
      | nil => exact ⟨':', rowsFlat es ++ ')' :: post,
          by rw [headerText]; rfl, by decide⟩
      | cons k kr =>
        have hbk : bareKey k := by
          rw [hks] at hbare
          exact hbare k (by simp)
        obtain ⟨d0, kd, hkd⟩ : ∃ d0 kd, k.data = d0 :: kd := by
          cases hq : k.data with
          | nil => exact absurd hq hbk.1
          | cons d0 kd => exact ⟨d0, kd, rfl⟩
        obtain ⟨t2, hh2⟩ := headerText_cons k kr
        refine ⟨d0, kd ++ t2 ++ ':' :: (rowsFlat es ++ ')' :: post), ?_,
          not_space_of_not_delim (hbk.2 d0 (by rw [hkd]; simp))⟩
        rw [hh2, hkd]
        simp
    have hr1 : (⟨src, pos + 1⟩ : Parser).rest = c0 :: t0 := by
      rw [rest_mk, hdrop1, hbt]
    rw [decodeValue, skipSpaces_id (Or.inr ⟨'(', _, hr, by decide⟩)]
    rw [decodeSlice, skipSpaces_id (Or.inr ⟨'(', _, hr, by decide⟩),
      if_pos (by rw [peek_of_rest hr]; decide)]
    rw [decodeTable, if_neg (by rw [peek_of_rest hr]; decide),
      next_of_rest hr]
    rw [skipSpaces_id (Or.inr ⟨c0, t0, hr1, hc0s⟩)]
    simp only
    rw [decodeTableHeader_enc (resolvedKeys eflds) [] src
      (rowsFlat es ++ ')' :: post) (pos + 1) g4 hbare hdrop1 (by omega)]
    simp only [List.nil_append]
    rw [decodeTableRows_enc es eflds [] src post
      (pos + 1 + (headerText (resolvedKeys eflds)).length + 1) g4 hkeys.1
      hrows
      (by
        refine drop_eq_of_drop (p := pos + 1)
          (a := headerText (resolvedKeys eflds) ++ [':'])
          (b := rowsFlat es ++ ')' :: post) (by simp [hdrop1]) ?_
        simp only [List.length_append, List.length_cons, List.length_nil]
        omega)
      (by omega)]
    simp [sliceHdr]
    omega

/-! ### Structured-field helpers for grounding (C3) -/

/-- `setStructField` on a `cons` at a positive index updates the tail. -/
theorem setStructField_cons_succ (x : String × GoVal)
    (l : List (String × GoVal)) (j : Nat) (v : GoVal) :
    setStructField (x :: l) (j + 1) v = x :: setStructField l j v := by
  rw [setStructField, setStructField]
  cases h : l[j]? with
  | none => simp [List.get?_eq_getElem?, h]
  | some kv => simp [List.get?_eq_getElem?, h]

/-- Writing a field's zero value into the zero record is the identity:
grounding an already-grounded field changes nothing. -/
theorem setStructField_zeroFields :
    ∀ (flds : List (String × GoTy)) (i : Nat),
      setStructField (zeroFields flds) i (zeroVal (fieldTyAt flds i)) =
        zeroFields flds := by
  intro flds
  induction flds with
  | nil => intro i; rfl
  | cons a r ih =>
    obtain ⟨k, t⟩ := a
    intro i
    cases i with
    | zero =>
      rw [zeroFields_cons]
      rw [show fieldTyAt ((k, t) :: r) 0 = t from rfl]
      rfl
    | succ j =>
      rw [zeroFields_cons, setStructField_cons_succ,
        show fieldTyAt ((k, t) :: r) (j + 1) = fieldTyAt r j from rfl,
        ih j]

/-- `Unmarshal` at a record destination runs the value decoder once from
the whitespace-skipped start, with the document-size fuel. -/
theorem Unmarshal_struct_run (data : List Char) (flds : List (String × GoTy))
    (dest : GoVal) :
    Unmarshal data (.struct flds) dest =
      match decodeValue (unmarshalFuel data) (.struct flds) dest
          ((⟨data, 0⟩ : Parser).skipSpaces) with
      | .ok (v, _) => .ok v
      | .error e => .error e := rfl

/-! ### C1: the round trip -/

/-- C1 counterexample: the round-trip claim fails without restriction on
string contents.  The string value `"\n\x22\x22\x22"` (a newline followed by
three double quotes) encodes through the verbatim triple-quote form as
`\x7bs="""⏎""""""\x7d`; the decoder's triple-quote scanner closes the literal at
the first `"""` window, reads back only `"\n"`, and the struct loop then
fails on the leftover quotes with "expected assign after key" — so
decoding the bytes produced by `Marshal` does not yield the original
value, it does not even succeed. -/
theorem c1_counterexample :
    Marshal (GoVal.struct [("s", GoVal.str (String.mk ('\n' :: tripleQ)))]) =
      .ok ([lbrace, 's', '='] ++ tripleQ ++ '\n' :: tripleQ ++ tripleQ ++
        [rbrace]) ∧
    Unmarshal ([lbrace, 's', '='] ++ tripleQ ++ '\n' :: tripleQ ++ tripleQ ++
        [rbrace]) (GoTy.struct [("s", GoTy.str)])
        (zeroVal (GoTy.struct [("s", GoTy.str)])) =
      .error (.e "expected assign after key") := by
  constructor
  · rw [Marshal, marshalWithCompact, encodeValue, encodeStruct,
      encodeFields, if_neg (by decide), encodeValue, encodeFields]
    simp [encodeString, tripleQ, lbrace, rbrace]
  · rfl

/-- C1 corrected: the round trip holds for every `Clean` record value —
record types with pairwise-distinct bare keys whose string fields quote
invertibly (no early `"""` fence in multi-line strings, no control bytes
needing `\xhh` in single-line ones), whose integers are `float64`-exact,
and whose nonempty record-element slices carry only cell-compatible
scalar fields.  `Marshal` succeeds and `Unmarshal` of its output into a
fresh zero destination returns exactly the value. -/
theorem c1_round_trip_amended :
    ∀ (flds : List (String × GoTy)) (fvs : List (String × GoVal)),
      Clean (.struct flds) (.struct fvs) →
      ∃ doc, Marshal (.struct fvs) = .ok doc ∧
        Unmarshal doc (.struct flds) (zeroVal (.struct flds)) =
          .ok (.struct fvs) := by
  intro flds fvs h
  obtain ⟨t, henc, htne, hthead, hdec⟩ := clean_encDec h 0
  refine ⟨t, henc, ?_⟩
  obtain ⟨c0, t2, htc⟩ : ∃ c0 t2, t = c0 :: t2 := by
    cases hq : t with
    | nil => exact absurd hq htne
    | cons c0 t2 => exact ⟨c0, t2, rfl⟩
  have hr : (⟨t, 0⟩ : Parser).rest = c0 :: t2 := by
    rw [rest_mk]
    simpa using htc
  have hid := skipSpaces_id (Or.inr ⟨c0, t2, hr, (hthead c0 t2 htc).1⟩)
  have hrun := hdec t [] 0 (unmarshalFuel t) (by simp) (Or.inl rfl)
    (by rw [unmarshalFuel]; omega)
  show (match decodeValue (unmarshalFuel t) (.struct flds)
      (zeroVal (.struct flds)) ((⟨t, 0⟩ : Parser).skipSpaces) with
    | Except.ok (v, _) => Except.ok v
    | Except.error e => Except.error e) = Except.ok (GoVal.struct fvs)
  rw [hid, hrun]

/-- C1 witness: the amended round trip at the repository's own `Person`
fixture `\x7bname="John"; age=12, addr="NY"\x7d`. -/
theorem c1_round_trip_amended_witness :
    ∃ doc, Marshal (personMk "John" 12 "NY") = .ok doc ∧
      Unmarshal doc personTy (zeroVal personTy) =
        .ok (personMk "John" 12 "NY") := by
  refine c1_round_trip_amended
    [("name", GoTy.str), ("age", GoTy.int), ("addr", GoTy.str)]
    [("name", GoVal.str "John"), ("age", GoVal.int 12),
      ("addr", GoVal.str "NY")] ?_
  refine Clean.struct _ _ ⟨by decide, ?_⟩ rfl ?_ ?_
  · intro k hk
    simp only [resolvedKeys, List.map_cons, List.map_nil] at hk
    rcases List.mem_cons.mp hk with rfl | hk
    · exact ⟨by decide, by decide⟩
    rcases List.mem_cons.mp hk with rfl | hk
    · exact ⟨by decide, by decide⟩
    rcases List.mem_cons.mp hk with rfl | hk
    · exact ⟨by decide, by decide⟩
    exact absurd hk (List.not_mem_nil k)
  · intro i h1 h2
    have h3 : i < 3 := by simpa using h1
    interval_cases i <;> rfl
  · intro i h1 h2
    have h3 : i < 3 := by simpa using h1
    interval_cases i
    · exact Clean.str _ (by
        simp only [strOk]
        rw [if_neg (by decide)]
        simp only [quoteOkChar]
        decide)
    · exact Clean.int _ (by simp only [intOk]; decide)
    · exact Clean.str _ (by
        simp only [strOk]
        rw [if_neg (by decide)]
        simp only [quoteOkChar]
        decide)

/-! ### C3: grounding idempotence -/

/-- C3: grounding idempotence at any field of any well-keyed record type.
(1) The compact encoder emits a zero-valued field as its key and `=` with
nothing before the next separator; (2) decoding a document that gives that
key an empty right-hand side (`\x7bkey=\x7d`) into a fresh zero destination
returns the zero record; (3) decoding the document `\x7b\x7d`, in which the key
is wholly absent, returns the same zero record — the two decode paths
agree. -/
theorem c3_grounding_idempotence :
    ∀ (flds : List (String × GoTy)), keysOk flds →
      ∀ (i : Nat) (h : i < flds.length),
        (∀ (v : GoVal) (r : List (String × GoVal)) (lvl : Nat)
            (first : Bool) (tail : List Char),
          isZeroValue v = true →
          encodeFields r lvl true false = .ok tail →
          encodeFields (((flds.get ⟨i, h⟩).1, v) :: r) lvl true first =
            .ok ((if first then [] else [';']) ++
              (flds.get ⟨i, h⟩).1.data ++ '=' :: tail)) ∧
        Unmarshal ([lbrace] ++ (flds.get ⟨i, h⟩).1.data ++ ['=', rbrace])
            (.struct flds) (zeroVal (.struct flds)) =
          .ok (zeroVal (.struct flds)) ∧
        Unmarshal [lbrace, rbrace] (.struct flds) (zeroVal (.struct flds)) =
          .ok (zeroVal (.struct flds)) := by
  intro flds hkeys i h
  have hzv : zeroVal (.struct flds) = .struct (zeroFields flds) := by
    rw [zeroVal]
  have hbk : bareKey (flds.get ⟨i, h⟩).1 := by
    refine hkeys.2 _ ?_
    simp only [resolvedKeys]
    exact List.mem_map_of_mem Prod.fst (flds.get_mem i h)
  refine ⟨?_, ?_, ?_⟩
  · intro v r lvl first tail hz htail
    rw [encodeFields, if_pos hz, htail]
    cases first <;> simp
  · have hlookup : fieldMapLookup flds (flds.get ⟨i, h⟩).1.data = some i := by
      refine fieldMapLookup_get? hkeys.1 (t := (flds.get ⟨i, h⟩).2) ?_
      rw [List.get?_eq_get h, Prod.mk.eta]
    obtain ⟨c0, kr, hkc⟩ : ∃ c0 kr, (flds.get ⟨i, h⟩).1.data = c0 :: kr := by
      cases hq : (flds.get ⟨i, h⟩).1.data with
      | nil => exact absurd hq hbk.1
      | cons c0 kr => exact ⟨c0, kr, rfl⟩
    have hc0 : isBareDelim c0 = false := hbk.2 c0 (by rw [hkc]; simp)
    have hr0 : (⟨[lbrace] ++ (flds.get ⟨i, h⟩).1.data ++ ['=', rbrace],
        0⟩ : Parser).rest =
        lbrace :: ((flds.get ⟨i, h⟩).1.data ++ ['=', rbrace]) := by
      rw [rest_mk]
      simp
    have hid0 := skipSpaces_id (Or.inr ⟨lbrace, _, hr0, by decide⟩)
    obtain ⟨f2, hF⟩ : ∃ f2,
        unmarshalFuel ([lbrace] ++ (flds.get ⟨i, h⟩).1.data ++
          ['=', rbrace]) = (f2 + 1 + 1) + 1 + 1 := by
      refine ⟨unmarshalFuel ([lbrace] ++ (flds.get ⟨i, h⟩).1.data ++
        ['=', rbrace]) - 4, ?_⟩
      rw [unmarshalFuel]
      omega
    rw [Unmarshal_struct_run, hid0, hF, decodeValue, hid0]
    rw [hzv, decodeStruct, if_neg (by rw [peek_of_rest hr0]; decide),
      next_of_rest hr0]
    simp only
    have hr1 : (⟨[lbrace] ++ (flds.get ⟨i, h⟩).1.data ++ ['=', rbrace],
        0 + 1⟩ : Parser).rest = c0 :: (kr ++ ['=', rbrace]) := by
      rw [rest_mk]
      refine drop_eq_of_drop (p := 0) (a := [lbrace])
        (b := (flds.get ⟨i, h⟩).1.data ++ ['=', rbrace]) (by simp) rfl
        |>.trans ?_
      rw [hkc]
      simp
    rw [skipSpaces_id (Or.inr ⟨c0, _, hr1, not_space_of_not_delim hc0⟩)]
    rw [structLoop_key_step (w := [rbrace]) (p := 0 + 1)
      (g := f2 + 1) hbk
      (by
        refine drop_eq_of_drop (p := 0) (a := [lbrace])
          (b := (flds.get ⟨i, h⟩).1.data ++ ['=', rbrace]) (by simp) rfl)
      (Or.inr ⟨rbrace, [], rfl, by decide⟩)]
    simp only
    have hr3 : (⟨[lbrace] ++ (flds.get ⟨i, h⟩).1.data ++ ['=', rbrace],
        0 + 1 + (flds.get ⟨i, h⟩).1.data.length + 1⟩ : Parser).rest =
        rbrace :: [] := by
      rw [rest_mk]
      refine drop_eq_of_drop (p := 0)
        (a := [lbrace] ++ (flds.get ⟨i, h⟩).1.data ++ ['='])
        (b := [rbrace]) (by simp) ?_
      simp only [List.length_append, List.length_cons, List.length_nil]
      omega
    rw [if_pos (by rw [peek_of_rest hr3]; decide),
      if_neg (by rw [peek_of_rest hr3]; decide),
      skipSpaces_id (Or.inr ⟨rbrace, [], hr3, by decide⟩), hlookup]
    simp only
    rw [setStructField_zeroFields]
    rw [decodeStructLoop,
      if_neg (by
        rw [eof_false_of_rest hr3, peek_of_rest hr3]
        decide),
      if_neg (by rw [peek_of_rest hr3]; decide)]
  · have hrb : (⟨[lbrace, rbrace], 0⟩ : Parser).rest =
        lbrace :: [rbrace] := by
      rw [rest_mk]
      rfl
    have hidb := skipSpaces_id (Or.inr ⟨lbrace, [rbrace], hrb, by decide⟩)
    obtain ⟨f2, hF⟩ : ∃ f2, unmarshalFuel [lbrace, rbrace] =
        (f2 + 1) + 1 + 1 := ⟨unmarshalFuel [lbrace, rbrace] - 3, by
          rw [unmarshalFuel]; omega⟩
    rw [Unmarshal_struct_run, hidb, hF, decodeValue, hidb]
    rw [hzv, decodeStruct, if_neg (by rw [peek_of_rest hrb]; decide),
      next_of_rest hrb]
    simp only
    have hr1 : (⟨[lbrace, rbrace], 0 + 1⟩ : Parser).rest = rbrace :: [] := by
      rw [rest_mk]
      rfl
    rw [skipSpaces_id (Or.inr ⟨rbrace, [], hr1, by decide⟩)]
    rw [decodeStructLoop,
      if_neg (by
        rw [eof_false_of_rest hr1, peek_of_rest hr1]
        decide),
      if_neg (by rw [peek_of_rest hr1]; decide)]

/-- C3 witness: grounding idempotence at the `age` field of the `Person`
fixture — the encoder emits `age=` for a zero age, and `\x7bage=\x7d` and
`\x7b\x7d` decode to the same zero record. -/
theorem c3_grounding_idempotence_witness :
    (encodeFields [("age", GoVal.int 0)] 0 true true =
      .ok ([] ++ "age".data ++ '=' :: [])) ∧
    Unmarshal ([lbrace] ++ "age".data ++ ['=', rbrace]) personTy
        (zeroVal personTy) = .ok (zeroVal personTy) ∧
    Unmarshal [lbrace, rbrace] personTy (zeroVal personTy) =
      .ok (zeroVal personTy) := by
  have h := c3_grounding_idempotence
    [("name", GoTy.str), ("age", GoTy.int), ("addr", GoTy.str)]
    ⟨by decide, by
      intro k hk
      simp only [resolvedKeys, List.map_cons, List.map_nil] at hk
      rcases List.mem_cons.mp hk with rfl | hk
      · exact ⟨by decide, by decide⟩
      rcases List.mem_cons.mp hk with rfl | hk
      · exact ⟨by decide, by decide⟩
      rcases List.mem_cons.mp hk with rfl | hk
      · exact ⟨by decide, by decide⟩
      exact absurd hk (List.not_mem_nil k)⟩
    1 (by decide)
  exact ⟨h.1 (GoVal.int 0) [] 0 true [] rfl (by rw [encodeFields]),
    h.2.1, h.2.2⟩

end GOD
